import Mathlib

set_option maxRecDepth 1000000

/-!
Shallow embedding of the OS-EL deadlock core (Resource Allocation Graph,
cycle detector, recovery engine) from the C sources in src/, together with
proofs of the specification claims.

Conventions of the embedding:
* C `int` values (priorities, instance counters, matrix entries, ids in the
  public API) are modelled as `Int`; array indices of the fixed 64-slot
  arrays are `Nat`.
* The fixed arrays `processes[64]`, `resources[64]` and the two 64 x 64
  matrices are modelled as total functions out of `Nat`; every C loop over
  an array is translated either as a fold over `List.range 64` or, when the
  loop body writes independent cells, as the pointwise function update that
  is its net effect.
* A C function that mutates the graph through a pointer and returns a
  status becomes a Lean function returning the status paired with the new
  graph.
* Human-readable strings produced with `snprintf` (action descriptions,
  summaries) are not modelled; they do not influence control flow.
-/

namespace OSEL

/-! ## Constants (rag.h, cycle_detector.h) -/

def MAX_PROCESSES : Nat := 64
def MAX_RESOURCES : Nat := 64
def MAX_CYCLE_LENGTH : Nat := 128
def MAX_CYCLES : Nat := 32

/-! ## Data model (rag.h) -/

inductive ProcessState
  | running
  | waiting
  | blocked
  | terminated
deriving DecidableEq, Repr

structure Process where
  id : Int
  name : String
  state : ProcessState
  priority : Int
  active : Bool
deriving DecidableEq, Repr

structure Resource where
  id : Int
  name : String
  total_instances : Int
  available_instances : Int
  active : Bool
deriving DecidableEq, Repr

structure RAG where
  processes : Nat → Process
  resources : Nat → Resource
  request_matrix : Nat → Nat → Int
  assignment_matrix : Nat → Nat → Int
  process_count : Int
  resource_count : Int

/-! ## RAG lifecycle (rag.c) -/

/-- `rag_init`: all slots inactive with id -1, matrices zero (memset). -/
def rag_init : RAG :=
  { processes := fun _ =>
      { id := -1, name := "", state := ProcessState.running, priority := 0, active := false }
    resources := fun _ =>
      { id := -1, name := "", total_instances := 0, available_instances := 0, active := false }
    request_matrix := fun _ _ => 0
    assignment_matrix := fun _ _ => 0
    process_count := 0
    resource_count := 0 }

/-! ## Process management (rag.c) -/

/-- `rag_get_process`: NULL for out-of-range or inactive ids. -/
def rag_get_process (g : RAG) (pid : Int) : Option Process :=
  if pid < 0 ∨ (MAX_PROCESSES : Int) ≤ pid then none
  else if (g.processes pid.toNat).active then some (g.processes pid.toNat)
  else none

/-- `rag_get_resource`. -/
def rag_get_resource (g : RAG) (rid : Int) : Option Resource :=
  if rid < 0 ∨ (MAX_RESOURCES : Int) ≤ rid then none
  else if (g.resources rid.toNat).active then some (g.resources rid.toNat)
  else none

/-- `rag_add_process`: first free slot, state Running, row zeroed.
Returns the new id, or -1 when all slots are active. -/
def rag_add_process (g : RAG) (name : String) (priority : Int) : Int × RAG :=
  match (List.range MAX_PROCESSES).find? (fun i => !(g.processes i).active) with
  | none => (-1, g)
  | some slot =>
      ( Int.ofNat slot,
        { g with
          processes := fun i =>
            if i = slot then
              { id := Int.ofNat slot, name := name, state := ProcessState.running,
                priority := priority, active := true }
            else g.processes i
          request_matrix := fun p r => if p = slot then 0 else g.request_matrix p r
          assignment_matrix := fun p r => if p = slot then 0 else g.assignment_matrix p r
          process_count := g.process_count + 1 } )

/-- `rag_release_resource`: fails when the process holds no instance;
otherwise decrements the assignment and, if the resource slot is active,
increments its available count. -/
def rag_release_resource (g : RAG) (pid rid : Int) : Bool × RAG :=
  if pid < 0 ∨ (MAX_PROCESSES : Int) ≤ pid then (false, g)
  else if rid < 0 ∨ (MAX_RESOURCES : Int) ≤ rid then (false, g)
  else if g.assignment_matrix pid.toNat rid.toNat ≤ 0 then (false, g)
  else
    ( true,
      { g with
        assignment_matrix := fun p r =>
          if p = pid.toNat ∧ r = rid.toNat then g.assignment_matrix p r - 1
          else g.assignment_matrix p r
        resources := fun r =>
          if r = rid.toNat ∧ (g.resources r).active then
            { g.resources r with
              available_instances := (g.resources r).available_instances + 1 }
          else g.resources r } )

/-- `rag_release_all_resources`: for each resource the C code loops
`while (assignment > 0) rag_release_resource(...)`; the net effect per
resource with a positive assignment is to zero the assignment, add it to
the available count of an active resource slot, and add it to the returned
count. -/
def rag_release_all_resources (g : RAG) (pid : Int) : Int × RAG :=
  if pid < 0 ∨ (MAX_PROCESSES : Int) ≤ pid then (0, g)
  else
    let p := pid.toNat
    ( Finset.sum (Finset.range MAX_RESOURCES) (fun r => max (g.assignment_matrix p r) 0),
      { g with
        assignment_matrix := fun q r =>
          if q = p ∧ r < MAX_RESOURCES ∧ 0 < g.assignment_matrix q r then 0
          else g.assignment_matrix q r
        resources := fun r =>
          if r < MAX_RESOURCES ∧ (g.resources r).active ∧ 0 < g.assignment_matrix p r then
            { g.resources r with
              available_instances :=
                (g.resources r).available_instances + g.assignment_matrix p r }
          else g.resources r } )

/-- `rag_remove_process`: fails for out-of-range or inactive ids; else
releases all holdings, clears the request row, deactivates the slot. -/
def rag_remove_process (g : RAG) (pid : Int) : Bool × RAG :=
  if pid < 0 ∨ (MAX_PROCESSES : Int) ≤ pid then (false, g)
  else if !(g.processes pid.toNat).active then (false, g)
  else
    let p := pid.toNat
    let g1 := (rag_release_all_resources g pid).2
    ( true,
      { g1 with
        request_matrix := fun q r =>
          if q = p ∧ r < MAX_RESOURCES ∧ 0 < g1.request_matrix q r then 0
          else g1.request_matrix q r
        processes := fun i =>
          if i = p then { g1.processes i with active := false, id := -1 }
          else g1.processes i
        process_count := g1.process_count - 1 } )

/-- `rag_set_process_state`. -/
def rag_set_process_state (g : RAG) (pid : Int) (st : ProcessState) : Bool × RAG :=
  match rag_get_process g pid with
  | none => (false, g)
  | some _ =>
      ( true,
        { g with
          processes := fun i =>
            if i = pid.toNat then { g.processes i with state := st }
            else g.processes i } )

/-! ## Resource management (rag.c) -/

/-- `rag_add_resource`: fails for `instances ≤ 0` or when no slot is
free; else initializes the slot with `available = total = instances` and
zeroes its matrix column. -/
def rag_add_resource (g : RAG) (name : String) (instances : Int) : Int × RAG :=
  if instances ≤ 0 then (-1, g)
  else
    match (List.range MAX_RESOURCES).find? (fun i => !(g.resources i).active) with
    | none => (-1, g)
    | some slot =>
        ( Int.ofNat slot,
          { g with
            resources := fun i =>
              if i = slot then
                { id := Int.ofNat slot, name := name, total_instances := instances,
                  available_instances := instances, active := true }
              else g.resources i
            request_matrix := fun p r => if r = slot then 0 else g.request_matrix p r
            assignment_matrix := fun p r => if r = slot then 0 else g.assignment_matrix p r
            resource_count := g.resource_count + 1 } )

/-- `rag_remove_resource`: fails for invalid ids and while any process
still holds an instance; else clears the request column and deactivates
the slot. -/
def rag_remove_resource (g : RAG) (rid : Int) : Bool × RAG :=
  if rid < 0 ∨ (MAX_RESOURCES : Int) ≤ rid then (false, g)
  else if !(g.resources rid.toNat).active then (false, g)
  else if (List.range MAX_PROCESSES).any
      (fun p => 0 < g.assignment_matrix p rid.toNat) then (false, g)
  else
    let r0 := rid.toNat
    ( true,
      { g with
        request_matrix := fun p r => if r = r0 ∧ p < MAX_PROCESSES then 0
          else g.request_matrix p r
        resources := fun i =>
          if i = r0 then { g.resources i with active := false, id := -1 }
          else g.resources i
        resource_count := g.resource_count - 1 } )

/-! ## Edge management (rag.c) -/

/-- `rag_request_resource`: fails when either id is invalid; idempotent
when already requesting; else sets the request bit and moves the process
to Waiting. -/
def rag_request_resource (g : RAG) (pid rid : Int) : Bool × RAG :=
  match rag_get_process g pid, rag_get_resource g rid with
  | some _, some _ =>
      if 0 < g.request_matrix pid.toNat rid.toNat then (true, g)
      else
        ( true,
          { g with
            request_matrix := fun p r =>
              if p = pid.toNat ∧ r = rid.toNat then 1 else g.request_matrix p r
            processes := fun i =>
              if i = pid.toNat then { g.processes i with state := ProcessState.waiting }
              else g.processes i } )
  | _, _ => (false, g)

/-- Helper for the C loops that scan a request row for a pending request. -/
def rowHasRequest (m : Nat → Nat → Int) (p : Nat) : Bool :=
  (List.range MAX_RESOURCES).any (fun r => 0 < m p r)

/-- `rag_cancel_request`: fails for out-of-range ids or when no request
exists; else clears the bit and, when the process has no other pending
request and its slot is active, resets its state to Running. -/
def rag_cancel_request (g : RAG) (pid rid : Int) : Bool × RAG :=
  if pid < 0 ∨ (MAX_PROCESSES : Int) ≤ pid then (false, g)
  else if rid < 0 ∨ (MAX_RESOURCES : Int) ≤ rid then (false, g)
  else if g.request_matrix pid.toNat rid.toNat = 0 then (false, g)
  else
    let p := pid.toNat
    let m1 : Nat → Nat → Int := fun q r =>
      if q = p ∧ r = rid.toNat then 0 else g.request_matrix q r
    let g1 := { g with request_matrix := m1 }
    if !(rowHasRequest m1 p) ∧ (g.processes p).active then
      ( true,
        { g1 with
          processes := fun i =>
            if i = p then { g1.processes i with state := ProcessState.running }
            else g1.processes i } )
    else (true, g1)

/-- `rag_allocate_resource`: fails when either id is invalid or no
instance is available; else clears any request edge, increments the
assignment, decrements availability, and resets the state to Running when
no request remains. A prior request is not required. -/
def rag_allocate_resource (g : RAG) (pid rid : Int) : Bool × RAG :=
  match rag_get_process g pid, rag_get_resource g rid with
  | some _, some res =>
      if res.available_instances ≤ 0 then (false, g)
      else
        let p := pid.toNat
        let r0 := rid.toNat
        let m1 : Nat → Nat → Int := fun q r =>
          if q = p ∧ r = r0 then 0 else g.request_matrix q r
        let g1 :=
          { g with
            request_matrix := m1
            assignment_matrix := fun q r =>
              if q = p ∧ r = r0 then g.assignment_matrix q r + 1
              else g.assignment_matrix q r
            resources := fun r =>
              if r = r0 then
                { g.resources r with
                  available_instances := (g.resources r).available_instances - 1 }
              else g.resources r }
        if !(rowHasRequest m1 p) then
          ( true,
            { g1 with
              processes := fun i =>
                if i = p then { g1.processes i with state := ProcessState.running }
                else g1.processes i } )
        else (true, g1)
  | _, _ => (false, g)

/-! ## Queries (rag.c) -/

/-- `rag_is_requesting`: false for out-of-range ids. -/
def rag_is_requesting (g : RAG) (pid rid : Int) : Bool :=
  if pid < 0 ∨ (MAX_PROCESSES : Int) ≤ pid then false
  else if rid < 0 ∨ (MAX_RESOURCES : Int) ≤ rid then false
  else 0 < g.request_matrix pid.toNat rid.toNat

/-- `rag_is_holding`: false for out-of-range ids. -/
def rag_is_holding (g : RAG) (pid rid : Int) : Bool :=
  if pid < 0 ∨ (MAX_PROCESSES : Int) ≤ pid then false
  else if rid < 0 ∨ (MAX_RESOURCES : Int) ≤ rid then false
  else 0 < g.assignment_matrix pid.toNat rid.toNat

/-! ## Cycle detector data (cycle_detector.h / cycle_detector.c) -/

inductive NodeColor
  | white
  | gray
  | black
deriving DecidableEq, Repr

inductive NodeType
  | process
  | resource
deriving DecidableEq, Repr

structure GraphNode where
  id : Nat
  type : NodeType
deriving DecidableEq, Repr

/-- C `Cycle`: a node array with a length and a valid flag; the array and
length are modelled as a list. -/
structure Cycle where
  nodes : List GraphNode
  valid : Bool
deriving DecidableEq, Repr

/-- C `DeadlockResult`: arrays with counts are modelled as lists; the
deadlocked id lists always hold slot indices in `[0, 64)`. -/
structure DeadlockResult where
  deadlock_detected : Bool
  cycles : List Cycle
  deadlocked_processes : List Nat
  deadlocked_resources : List Nat
deriving DecidableEq, Repr

/-- C `DFSState` (the `const RAG *` member is passed separately). The
output cycle written through the `output_cycle` pointer lives inline. -/
structure DFSState where
  process_colors : Nat → NodeColor
  resource_colors : Nat → NodeColor
  path : List GraphNode
  cycle_found : Bool
  output_cycle : Cycle

/-- `init_dfs_state`. -/
def init_dfs_state : DFSState :=
  { process_colors := fun _ => NodeColor.white
    resource_colors := fun _ => NodeColor.white
    path := []
    cycle_found := false
    output_cycle := { nodes := [], valid := false } }

/-- `extract_cycle`: copy the path suffix from the first occurrence of the
revisited node (at most MAX_CYCLE_LENGTH nodes) into the output cycle. -/
def extract_cycle (path : List GraphNode) (i : Nat) : Cycle :=
  { nodes := (path.drop i).take MAX_CYCLE_LENGTH, valid := true }

/-- The linear scan `for i in path: if match return i` used when a gray
node is revisited: index of the first matching entry. -/
def pathFindIdx (p : GraphNode → Bool) : List GraphNode → Option Nat
  | [] => none
  | x :: xs => if p x then some 0 else (pathFindIdx p xs).map (fun i => i + 1)

/-- Recursion depth is bounded in C by the node count (each recursive
descent grays a white node); the fuel argument makes that bound explicit. -/
def DFS_FUEL : Nat := 2 * (MAX_PROCESSES + MAX_RESOURCES) + 2

mutual

/-- `dfs_visit_process`. The C `process_id < 0` guard is vacuous here:
every call site passes a loop index, modelled as `Nat`. A gray node that
is absent from the path falls through to the re-push branch exactly as in
the C control flow. -/
def dfs_visit_process (g : RAG) (fuel : Nat) (s : DFSState) (pid : Nat) :
    Bool × DFSState :=
  match fuel with
  | 0 => (false, s)
  | Nat.succ f =>
    if s.cycle_found then (true, s)
    else if MAX_PROCESSES ≤ pid then (false, s)
    else if !(g.processes pid).active then (false, s)
    else
      match (if s.process_colors pid = NodeColor.gray then
              pathFindIdx (fun n => decide (n.type = NodeType.process ∧ n.id = pid)) s.path
            else none) with
      | some i =>
          (true, { s with cycle_found := true, output_cycle := extract_cycle s.path i })
      | none =>
        if s.process_colors pid = NodeColor.black then (false, s)
        else
          let s1 : DFSState :=
            { s with
              process_colors := fun j => if j = pid then NodeColor.gray else s.process_colors j
              path := if s.path.length < MAX_CYCLE_LENGTH
                      then s.path ++ [{ id := pid, type := NodeType.process }]
                      else s.path }
          match visit_requested_resources g f s1 pid (List.range MAX_RESOURCES) with
          | (true, s2) => (true, s2)
          | (false, s2) =>
              (false,
               { s2 with
                 path := s2.path.dropLast
                 process_colors := fun j =>
                   if j = pid then NodeColor.black else s2.process_colors j })
termination_by (fuel, 0, 0)

/-- The successor loop of `dfs_visit_process` (visit every requested
resource, stopping at the first call that reports a cycle). -/
def visit_requested_resources (g : RAG) (fuel : Nat) (s : DFSState) (pid : Nat)
    (l : List Nat) : Bool × DFSState :=
  match l with
  | [] => (false, s)
  | r :: rs =>
    if 0 < g.request_matrix pid r then
      match dfs_visit_resource g fuel s r with
      | (true, s2) => (true, s2)
      | (false, s2) => visit_requested_resources g fuel s2 pid rs
    else visit_requested_resources g fuel s pid rs
termination_by (fuel, 1, l.length)

/-- `dfs_visit_resource`. -/
def dfs_visit_resource (g : RAG) (fuel : Nat) (s : DFSState) (rid : Nat) :
    Bool × DFSState :=
  match fuel with
  | 0 => (false, s)
  | Nat.succ f =>
    if s.cycle_found then (true, s)
    else if MAX_RESOURCES ≤ rid then (false, s)
    else if !(g.resources rid).active then (false, s)
    else
      match (if s.resource_colors rid = NodeColor.gray then
              pathFindIdx (fun n => decide (n.type = NodeType.resource ∧ n.id = rid)) s.path
            else none) with
      | some i =>
          (true, { s with cycle_found := true, output_cycle := extract_cycle s.path i })
      | none =>
        if s.resource_colors rid = NodeColor.black then (false, s)
        else
          let s1 : DFSState :=
            { s with
              resource_colors := fun j => if j = rid then NodeColor.gray else s.resource_colors j
              path := if s.path.length < MAX_CYCLE_LENGTH
                      then s.path ++ [{ id := rid, type := NodeType.resource }]
                      else s.path }
          match visit_holding_processes g f s1 rid (List.range MAX_PROCESSES) with
          | (true, s2) => (true, s2)
          | (false, s2) =>
              (false,
               { s2 with
                 path := s2.path.dropLast
                 resource_colors := fun j =>
                   if j = rid then NodeColor.black else s2.resource_colors j })
termination_by (fuel, 0, 0)

/-- The successor loop of `dfs_visit_resource` (visit every process
holding at least one instance). -/
def visit_holding_processes (g : RAG) (fuel : Nat) (s : DFSState) (rid : Nat)
    (l : List Nat) : Bool × DFSState :=
  match l with
  | [] => (false, s)
  | p :: ps =>
    if 0 < g.assignment_matrix p rid then
      match dfs_visit_process g fuel s p with
      | (true, s2) => (true, s2)
      | (false, s2) => visit_holding_processes g fuel s2 rid ps
    else visit_holding_processes g fuel s rid ps
termination_by (fuel, 1, l.length)

end

/-! ## Detection driver (cycle_detector.c) -/

inductive DetectionAlgorithm
  | dfs
  | dfs_all_cycles
deriving DecidableEq

/-- The `has_request` scan of the detection root loop (and the identical
scans in `rag_cancel_request` / `rag_allocate_resource` use
`rowHasRequest`). -/
def process_has_request (g : RAG) (p : Nat) : Bool :=
  rowHasRequest g.request_matrix p

/-- The root loop of `detect_deadlock_with_algorithm`: start a DFS from
every active process that has a pending request and is still white; under
`DETECT_DFS` stop at the first cycle, under `DETECT_DFS_ALL_CYCLES` clear
the found flag and continue. Found cycles are appended (capped at
MAX_CYCLES); the boolean accumulates `deadlock_detected`. -/
def detect_loop (g : RAG) (alg : DetectionAlgorithm) (l : List Nat) (s : DFSState)
    (found : Bool) (cycles : List Cycle) : Bool × List Cycle :=
  match l with
  | [] => (found, cycles)
  | p :: ps =>
    if (g.processes p).active = true ∧ process_has_request g p = true ∧
       s.process_colors p = NodeColor.white then
      match dfs_visit_process g DFS_FUEL s p with
      | (true, s2) =>
          let cycles2 := if cycles.length < MAX_CYCLES then cycles ++ [s2.output_cycle]
                         else cycles
          match alg with
          | DetectionAlgorithm.dfs => (true, cycles2)
          | DetectionAlgorithm.dfs_all_cycles =>
              detect_loop g alg ps
                { s2 with cycle_found := false,
                          output_cycle := { s2.output_cycle with valid := false } }
                true cycles2
      | (false, s2) => detect_loop g alg ps s2 found cycles
    else detect_loop g alg ps s found cycles

/-- `detect_deadlock_with_algorithm`: run the root loop, then extract the
deduplicated deadlocked process/resource lists from the recorded cycles in
ascending slot order. -/
def detect_deadlock_with_algorithm (g : RAG) (alg : DetectionAlgorithm) : DeadlockResult :=
  match detect_loop g alg (List.range MAX_PROCESSES) init_dfs_state false [] with
  | (found, cycles) =>
    if found then
      { deadlock_detected := true
        cycles := cycles
        deadlocked_processes := (List.range MAX_PROCESSES).filter (fun p =>
          cycles.any (fun c => c.nodes.any (fun n =>
            decide (n.type = NodeType.process ∧ n.id = p))))
        deadlocked_resources := (List.range MAX_RESOURCES).filter (fun r =>
          cycles.any (fun c => c.nodes.any (fun n =>
            decide (n.type = NodeType.resource ∧ n.id = r)))) }
    else
      { deadlock_detected := false, cycles := cycles
        deadlocked_processes := [], deadlocked_resources := [] }

/-- `detect_deadlock`. -/
def detect_deadlock (g : RAG) : DeadlockResult :=
  detect_deadlock_with_algorithm g DetectionAlgorithm.dfs

/-- `detect_all_cycles` returns the cycle count of the all-cycles run. -/
def detect_all_cycles (g : RAG) : DeadlockResult :=
  detect_deadlock_with_algorithm g DetectionAlgorithm.dfs_all_cycles

/-- `is_process_deadlocked`: sentinel `false` for out-of-range or inactive
ids, otherwise a full detection plus membership scan. -/
def is_process_deadlocked (g : RAG) (pid : Int) : Bool :=
  if pid < 0 ∨ (MAX_PROCESSES : Int) ≤ pid then false
  else if !(g.processes pid.toNat).active then false
  else
    let result := detect_deadlock g
    if !result.deadlock_detected then false
    else result.deadlocked_processes.any (fun q => decide (q = pid.toNat))

/-! ## Wait-for graph (cycle_detector.c) -/

/-- `build_wait_for_graph`: entry `[p1][p2]` is 1 iff active `p1` requests
some resource of which `p2` holds an instance and `p1 ≠ p2`; the function
is the net effect of the clearing memset plus the nested set loops. -/
def build_wait_for_graph (g : RAG) : Nat → Nat → Int :=
  fun p1 p2 =>
    if p1 < MAX_PROCESSES ∧ p2 < MAX_PROCESSES ∧ (g.processes p1).active = true ∧
       p1 ≠ p2 ∧
       (List.range MAX_RESOURCES).any (fun r =>
         decide (0 < g.request_matrix p1 r ∧ 0 < g.assignment_matrix p2 r)) = true
    then 1 else 0

/-- One scan of the neighbour loop inside the wait-for while loop: skip
non-edges and black nodes, report the first gray neighbour, else push the
first white neighbour. -/
inductive WFScan
  | foundGray (next : Nat)
  | pushWhite (next : Nat)
  | nothingLeft
deriving DecidableEq

def wf_scan (m : Nat → Nat → Int) (colors : Nat → NodeColor) (current : Nat)
    (l : List Nat) : WFScan :=
  match l with
  | [] => WFScan.nothingLeft
  | nx :: rest =>
    if m current nx = 0 then wf_scan m colors current rest
    else if colors nx = NodeColor.gray then WFScan.foundGray nx
    else if colors nx = NodeColor.white then WFScan.pushWhite nx
    else wf_scan m colors current rest

/-- The cycle-extraction trace of `detect_cycle_in_wait_for`: follow
parent pointers from `current` back to `next`, guarded by the
MAX_PROCESSES length cap exactly as in the C `while`. (A -1 parent is
read as slot 0 here; on the chains produced by the search the parents are
always valid.) -/
def wf_extract_trace (parent : Nat → Int) (next : Int) (fuel : Nat) (trace : Int)
    (acc : List Nat) : List Nat :=
  match fuel with
  | 0 => acc
  | Nat.succ k =>
    if trace ≠ next ∧ acc.length < MAX_PROCESSES then
      wf_extract_trace parent next k (parent trace.toNat) (acc ++ [trace.toNat])
    else acc

/-- Machine state of the iterative wait-for DFS; the C stack with its top
at `stack[stack_size-1]` is a list with its top at the head. -/
structure WFMachine where
  colors : Nat → NodeColor
  parent : Nat → Int
  stack : List Nat

/-- Fuel bound for the wait-for while loop; the C loop terminates because
every iteration either pushes a never-pushed node or pops one. -/
def WF_FUEL : Nat := 6 * MAX_PROCESSES + 8

/-- The `while (stack_size > 0)` loop: gray a white top, scan neighbours,
and either return an extracted cycle (`Sum.inl`), push, or blacken and
pop. -/
def wf_while (m : Nat → Nat → Int) (n : Nat) (fuel : Nat) (st : WFMachine) :
    Sum (List Nat) WFMachine :=
  match fuel with
  | 0 => Sum.inr st
  | Nat.succ f =>
    match st.stack with
    | [] => Sum.inr st
    | current :: rest =>
      let colors1 : Nat → NodeColor :=
        if st.colors current = NodeColor.white then
          fun v => if v = current then NodeColor.gray else st.colors v
        else st.colors
      match wf_scan m colors1 current (List.range n) with
      | WFScan.foundGray nx =>
          Sum.inl (wf_extract_trace st.parent (Int.ofNat nx) (MAX_PROCESSES + 1)
            (Int.ofNat current) [nx])
      | WFScan.pushWhite nx =>
          wf_while m n f
            { colors := colors1
              parent := fun v => if v = nx then Int.ofNat current else st.parent v
              stack := nx :: current :: rest }
      | WFScan.nothingLeft =>
          wf_while m n f
            { colors := fun v => if v = current then NodeColor.black else colors1 v
              parent := st.parent
              stack := rest }

/-- The outer `for (start ...)` loop of `detect_cycle_in_wait_for`. -/
def wf_outer (m : Nat → Nat → Int) (n : Nat) (l : List Nat)
    (colors : Nat → NodeColor) (parent : Nat → Int) : Option (List Nat) :=
  match l with
  | [] => none
  | st :: ss =>
    if colors st ≠ NodeColor.white then wf_outer m n ss colors parent
    else
      match wf_while m n WF_FUEL { colors := colors, parent := parent, stack := [st] } with
      | Sum.inl cyc => some cyc
      | Sum.inr st2 => wf_outer m n ss st2.colors st2.parent

/-- `detect_cycle_in_wait_for`: true together with the extracted cycle
when some start finds a gray neighbour; false with an empty cycle
otherwise. -/
def detect_cycle_in_wait_for (m : Nat → Nat → Int) (process_count : Nat) :
    Bool × List Nat :=
  match wf_outer m process_count (List.range process_count)
      (fun _ => NodeColor.white) (fun _ => -1) with
  | some cyc => (true, cyc)
  | none => (false, [])

/-! ## Scenario builder (simulator.c) -/

/-- `setup_dining_philosophers` (the RAG part of the simulation state; the
event log is presentation only). One creation loop interleaves
`rag_add_process`/`rag_add_resource` keeping the returned ids, then each
philosopher allocates its left fork and requests its right fork. -/
def setup_dining_philosophers (n0 : Nat) : RAG :=
  if n0 < 2 then rag_init
  else
    let n := min n0 MAX_PROCESSES
    let created :=
      (List.range n).foldl (fun (acc : RAG × List Int × List Int) i =>
        let g := acc.1
        let phs := acc.2.1
        let fks := acc.2.2
        let pr := rag_add_process g ("Philosopher_" ++ toString (i + 1)) 50
        let fr := rag_add_resource pr.2 ("Fork_" ++ toString (i + 1)) 1
        (fr.2, phs ++ [pr.1], fks ++ [fr.1])) (rag_init, [], [])
    let g1 := created.1
    let philosophers := created.2.1
    let forks := created.2.2
    (List.range n).foldl (fun g i =>
      let left_fork := forks.getD i (-1)
      let right_fork := forks.getD ((i + 1) % n) (-1)
      let g2 := (rag_allocate_resource g (philosophers.getD i (-1)) left_fork).2
      (rag_request_resource g2 (philosophers.getD i (-1)) right_fork).2) g1

/-! ## Recovery engine (recovery.h / recovery.c) -/

inductive RecoveryStrategy
  | terminate_all
  | terminate_one
  | terminate_lowest
  | terminate_youngest
  | terminate_oldest
  | preempt_resources
  | rollback
deriving DecidableEq, Repr

inductive SelectionCriteria
  | lowest_priority
  | fewest_resources
  | most_resources
  | shortest_runtime
  | longest_runtime
  | minimum_cost
deriving DecidableEq, Repr

structure RecoveryConfig where
  strategy : RecoveryStrategy
  selection : SelectionCriteria
  max_terminations : Int
  preserve_critical : Bool
  critical_priority_threshold : Int
  verbose : Bool
deriving DecidableEq, Repr

/-- C `RecoveryAction` without the formatted description string. -/
structure RecoveryAction where
  process_id : Int
  resource_id : Int
  strategy : RecoveryStrategy
  success : Bool
deriving DecidableEq, Repr

/-- C `RecoveryResult` without the formatted summary string. -/
structure RecoveryResult where
  success : Bool
  actions : List RecoveryAction
  processes_terminated : Int
  resources_preempted : Int
  iterations : Int
deriving DecidableEq, Repr

/-- `recovery_result_init`. -/
def recovery_result_init : RecoveryResult :=
  { success := false, actions := [], processes_terminated := 0
    resources_preempted := 0, iterations := 0 }

/-- `recovery_config_init`. -/
def recovery_config_init : RecoveryConfig :=
  { strategy := RecoveryStrategy.terminate_lowest
    selection := SelectionCriteria.lowest_priority
    max_terminations := 0
    preserve_critical := true
    critical_priority_threshold := 90
    verbose := false }

/-- `calculate_termination_cost`: 10 per priority point, 20 per held
unit, 15 per request on a resource this process holds. -/
def calculate_termination_cost (g : RAG) (pid : Int) : Int :=
  if pid < 0 ∨ (MAX_PROCESSES : Int) ≤ pid then 0
  else if !(g.processes pid.toNat).active then 0
  else
    let p := pid.toNat
    (g.processes p).priority * 10
    + Finset.sum (Finset.range MAX_RESOURCES) (fun r => g.assignment_matrix p r * 20)
    + Finset.sum (Finset.range MAX_RESOURCES) (fun r =>
        if 0 < g.assignment_matrix p r then
          Finset.sum (Finset.range MAX_PROCESSES) (fun p2 =>
            if 0 < g.request_matrix p2 r then 15 else 0)
        else 0)

/-- The per-candidate score computed inline by the `switch` in
`select_victim_process`. -/
def victim_score (g : RAG) (crit : SelectionCriteria) (pid : Nat) : Int :=
  match crit with
  | SelectionCriteria.lowest_priority => 100 - (g.processes pid).priority
  | SelectionCriteria.fewest_resources =>
      (MAX_RESOURCES : Int) -
        Finset.sum (Finset.range MAX_RESOURCES) (fun r => g.assignment_matrix pid r)
  | SelectionCriteria.most_resources =>
      Finset.sum (Finset.range MAX_RESOURCES) (fun r => g.assignment_matrix pid r)
  | SelectionCriteria.shortest_runtime => Int.ofNat pid
  | SelectionCriteria.longest_runtime => (MAX_PROCESSES : Int) - Int.ofNat pid
  | SelectionCriteria.minimum_cost => 1000 - calculate_termination_cost g (Int.ofNat pid)

/-- The candidate loop of `select_victim_process` with its
`first || score > best_score` update (ties keep the earlier candidate). -/
def select_victim_loop (g : RAG) (crit : SelectionCriteria) (l : List Nat)
    (victim : Int) (best : Int) (first : Bool) : Int :=
  match l with
  | [] => victim
  | pid :: rest =>
    if !(g.processes pid).active then select_victim_loop g crit rest victim best first
    else
      let score := victim_score g crit pid
      if first = true ∨ best < score then
        select_victim_loop g crit rest (Int.ofNat pid) score false
      else select_victim_loop g crit rest victim best first

/-- `select_victim_process`: -1 for an empty deadlocked list, else the
first-seen candidate with the maximal score among active candidates. The
`preserve_critical` configuration switch is never consulted here (or
anywhere else in recovery.c). -/
def select_victim_process (g : RAG) (d : DeadlockResult) (crit : SelectionCriteria) : Int :=
  if d.deadlocked_processes.length = 0 then -1
  else select_victim_loop g crit d.deadlocked_processes (-1) 0 true

/-- `is_critical_process` (defined in recovery.c but never called). -/
def is_critical_process (g : RAG) (pid : Int) (priority_threshold : Int) : Bool :=
  if pid < 0 ∨ (MAX_PROCESSES : Int) ≤ pid then false
  else if !(g.processes pid.toNat).active then false
  else priority_threshold ≤ (g.processes pid.toNat).priority

/-- `recovery_terminate_all`: for every deadlocked process that is still
active, record an action, release all of its holdings and remove it;
success iff at least one was terminated. -/
def recovery_terminate_all (g : RAG) (d : DeadlockResult) : Bool × RAG × RecoveryResult :=
  let final := d.deadlocked_processes.foldl
    (fun (acc : RAG × List RecoveryAction × Int) pid =>
      let h := acc.1
      let acts := acc.2.1
      let term := acc.2.2
      match rag_get_process h (Int.ofNat pid) with
      | some _ =>
          let acts2 := if acts.length < MAX_PROCESSES then
              acts ++ [{ process_id := Int.ofNat pid, resource_id := -1,
                         strategy := RecoveryStrategy.terminate_all, success := true }]
            else acts
          let h1 := (rag_release_all_resources h (Int.ofNat pid)).2
          let h2 := (rag_remove_process h1 (Int.ofNat pid)).2
          (h2, acts2, term + 1)
      | none => (h, acts, term)) (g, [], 0)
  ( 0 < final.2.2, final.1,
    { success := 0 < final.2.2, actions := final.2.1
      processes_terminated := final.2.2, resources_preempted := 0, iterations := 0 } )

/-- `recovery_terminate_one`: select a victim, release its holdings and
remove it; fails only when no victim is found. -/
def recovery_terminate_one (g : RAG) (d : DeadlockResult) (crit : SelectionCriteria) :
    Bool × RAG × RecoveryResult :=
  let victim := select_victim_process g d crit
  if victim < 0 then (false, g, recovery_result_init)
  else
    match rag_get_process g victim with
    | none => (false, g, recovery_result_init)
    | some _ =>
        let act : RecoveryAction :=
          { process_id := victim, resource_id := -1
            strategy := RecoveryStrategy.terminate_one, success := true }
        let rel := rag_release_all_resources g victim
        let g2 := (rag_remove_process rel.2 victim).2
        ( true, g2,
          { success := true, actions := [act], processes_terminated := 1
            resources_preempted := rel.1, iterations := 0 } )

/-- `recovery_preempt_resources` in the `resource_ids == NULL` form used
by `recover_from_deadlock`: release every holding of the victim and move
it to Blocked. Returns the preempted count. -/
def recovery_preempt_resources_all (g : RAG) (pid : Int) (res : RecoveryResult) :
    Int × RAG × RecoveryResult :=
  if pid < 0 ∨ (MAX_PROCESSES : Int) ≤ pid then (0, g, res)
  else
    match rag_get_process g pid with
    | none => (0, g, res)
    | some _ =>
        let rel := rag_release_all_resources g pid
        let acts2 := if res.actions.length < MAX_PROCESSES then
            res.actions ++ [{ process_id := pid, resource_id := -1,
                              strategy := RecoveryStrategy.preempt_resources,
                              success := true }]
          else res.actions
        let g2 :=
          { rel.2 with
            processes := fun i =>
              if i = pid.toNat then
                { (rel.2).processes i with state := ProcessState.blocked }
              else (rel.2).processes i }
        ( rel.1, g2,
          { res with actions := acts2, resources_preempted := res.resources_preempted + rel.1 } )

/-- `recovery_rollback_process`: release all holdings, cancel every
request, reset the state to Running; the slot is preserved. -/
def recovery_rollback_process (g : RAG) (pid : Int) (res : RecoveryResult) :
    Bool × RAG × RecoveryResult :=
  if pid < 0 ∨ (MAX_PROCESSES : Int) ≤ pid then (false, g, res)
  else
    match rag_get_process g pid with
    | none => (false, g, res)
    | some _ =>
        let rel := rag_release_all_resources g pid
        let g2 := (List.range MAX_RESOURCES).foldl
          (fun h r => (rag_cancel_request h pid (Int.ofNat r)).2) rel.2
        let g3 :=
          { g2 with
            processes := fun i =>
              if i = pid.toNat then { g2.processes i with state := ProcessState.running }
              else g2.processes i }
        let acts2 := if res.actions.length < MAX_PROCESSES then
            res.actions ++ [{ process_id := pid, resource_id := -1,
                              strategy := RecoveryStrategy.rollback, success := true }]
          else res.actions
        ( true, g3,
          { res with
            actions := acts2
            success := true
            resources_preempted := res.resources_preempted + rel.1 } )

/-- `recover_from_deadlock`: trivial success when no deadlock was
detected, otherwise dispatch on the configured strategy. The
`preserve_critical` and `critical_priority_threshold` fields of the
configuration are never read. -/
def recover_from_deadlock (g : RAG) (d : DeadlockResult) (cfg : RecoveryConfig) :
    Bool × RAG × RecoveryResult :=
  if !d.deadlock_detected then (true, g, { recovery_result_init with success := true })
  else
    match cfg.strategy with
    | RecoveryStrategy.terminate_all => recovery_terminate_all g d
    | RecoveryStrategy.terminate_one => recovery_terminate_one g d cfg.selection
    | RecoveryStrategy.terminate_lowest => recovery_terminate_one g d cfg.selection
    | RecoveryStrategy.terminate_youngest => recovery_terminate_one g d cfg.selection
    | RecoveryStrategy.terminate_oldest => recovery_terminate_one g d cfg.selection
    | RecoveryStrategy.preempt_resources =>
        let victim := select_victim_process g d cfg.selection
        if 0 ≤ victim then
          let pre := recovery_preempt_resources_all g victim recovery_result_init
          (0 < pre.1, pre.2.1, { pre.2.2 with success := 0 < pre.1 })
        else (false, g, recovery_result_init)
    | RecoveryStrategy.rollback =>
        let victim := select_victim_process g d cfg.selection
        if 0 ≤ victim then
          let rb := recovery_rollback_process g victim recovery_result_init
          (rb.1, rb.2.1, rb.2.2)
        else (false, g, recovery_result_init)

/-! ## Specification-side predicates and operation sequences -/

/-- Sum of the assignment column of resource `r` over all process slots. -/
def sumAssignments (g : RAG) (r : Nat) : Int :=
  Finset.sum (Finset.range MAX_PROCESSES) (fun p => g.assignment_matrix p r)

/-- Instance accounting: assignments and availability are non-negative,
and for every active resource `available + Σ_p assignment = total`. -/
def RagAccounting (g : RAG) : Prop :=
  (∀ p, p < MAX_PROCESSES → ∀ r, r < MAX_RESOURCES → 0 ≤ g.assignment_matrix p r) ∧
  (∀ r, r < MAX_RESOURCES → 0 ≤ (g.resources r).available_instances) ∧
  (∀ r, r < MAX_RESOURCES → (g.resources r).active = true →
    (g.resources r).available_instances + sumAssignments g r
      = (g.resources r).total_instances)

/-- Edge well-formedness: request and assignment edges connect only
active slots. -/
def RagEdgesActive (g : RAG) : Prop :=
  ∀ p, p < MAX_PROCESSES → ∀ r, r < MAX_RESOURCES →
    (0 < g.request_matrix p r →
      (g.processes p).active = true ∧ (g.resources r).active = true) ∧
    (0 < g.assignment_matrix p r →
      (g.processes p).active = true ∧ (g.resources r).active = true)

/-- The invariant bundle maintained by every public Graph Store mutation. -/
def RagInv (g : RAG) : Prop := RagAccounting g ∧ RagEdgesActive g

/-- No process simultaneously holds and requests the same resource. -/
def NoSelfHoldReq (g : RAG) : Prop :=
  ∀ p, p < MAX_PROCESSES → ∀ r, r < MAX_RESOURCES →
    ¬(0 < g.request_matrix p r ∧ 0 < g.assignment_matrix p r)

/-- The public Graph Store mutations of section 4.A, as an operation
alphabet for reachability statements. -/
inductive GraphOp
  | addProcess (name : String) (priority : Int)
  | removeProcess (pid : Int)
  | addResource (name : String) (instances : Int)
  | removeResource (rid : Int)
  | request (pid rid : Int)
  | cancelRequest (pid rid : Int)
  | allocate (pid rid : Int)
  | release (pid rid : Int)
  | releaseAll (pid : Int)
  | setState (pid : Int) (st : ProcessState)

/-- Apply one public operation, keeping the resulting graph whether the
operation succeeded or failed. -/
def applyOp (g : RAG) : GraphOp → RAG
  | GraphOp.addProcess name priority => (rag_add_process g name priority).2
  | GraphOp.removeProcess pid => (rag_remove_process g pid).2
  | GraphOp.addResource name instances => (rag_add_resource g name instances).2
  | GraphOp.removeResource rid => (rag_remove_resource g rid).2
  | GraphOp.request pid rid => (rag_request_resource g pid rid).2
  | GraphOp.cancelRequest pid rid => (rag_cancel_request g pid rid).2
  | GraphOp.allocate pid rid => (rag_allocate_resource g pid rid).2
  | GraphOp.release pid rid => (rag_release_resource g pid rid).2
  | GraphOp.releaseAll pid => (rag_release_all_resources g pid).2
  | GraphOp.setState pid st => (rag_set_process_state g pid st).2

/-- The graph reached from an initialized empty store by a sequence of
public operations. -/
def applyOps (ops : List GraphOp) : RAG := ops.foldl applyOp rag_init

/-- The edge relation of the bipartite Resource Allocation Graph that the
DFS traverses: request edges process to resource, assignment edges
resource to process, both restricted to active in-range slots. -/
def bipE (g : RAG) : GraphNode → GraphNode → Prop := fun a b =>
  match a.type, b.type with
  | NodeType.process, NodeType.resource =>
      a.id < MAX_PROCESSES ∧ b.id < MAX_RESOURCES ∧
      (g.processes a.id).active = true ∧ (g.resources b.id).active = true ∧
      0 < g.request_matrix a.id b.id
  | NodeType.resource, NodeType.process =>
      a.id < MAX_RESOURCES ∧ b.id < MAX_PROCESSES ∧
      (g.resources a.id).active = true ∧ (g.processes b.id).active = true ∧
      0 < g.assignment_matrix b.id a.id
  | _, _ => False

/-- Existence of a (nonempty) closed walk in the bipartite RAG. -/
def hasBipCycle (g : RAG) : Prop := ∃ v, Relation.TransGen (bipE g) v v

/-- Edge relation of an integer adjacency matrix on `[0, n)`. -/
def matE (m : Nat → Nat → Int) (n : Nat) : Nat → Nat → Prop :=
  fun p q => p < n ∧ q < n ∧ m p q ≠ 0

/-- Wait-for edge relation of a graph (nonzero entries of
`build_wait_for_graph`). -/
def wfE (g : RAG) : Nat → Nat → Prop :=
  matE (build_wait_for_graph g) MAX_PROCESSES

/-- Existence of a (nonempty) closed walk in the wait-for graph. -/
def hasWFCycle (g : RAG) : Prop := ∃ p, Relation.TransGen (wfE g) p p

/-- Deactivate the listed process slots (used to state which cycles
survive a round of terminations). -/
def maskProcesses (g : RAG) (l : List Nat) : RAG :=
  { g with
    processes := fun i =>
      if i ∈ l then { g.processes i with active := false } else g.processes i }

/-! ## Concrete graphs for witnesses and counterexamples -/

/-- Scenario S1: two processes, two single-instance resources, crossed
hold/request. -/
def ragS1 : RAG :=
  let g := (rag_add_process rag_init "P1" 30).2
  let g := (rag_add_process g "P2" 70).2
  let g := (rag_add_resource g "R1" 1).2
  let g := (rag_add_resource g "R2" 1).2
  let g := (rag_allocate_resource g 0 0).2
  let g := (rag_allocate_resource g 1 1).2
  let g := (rag_request_resource g 0 1).2
  (rag_request_resource g 1 0).2

/-- A process that holds a resource and requests the same resource
again (reachable through the public API; allocate does not require a
request, and request does not exclude holders). -/
def ragSelfLoop : RAG :=
  let g := (rag_add_process rag_init "P" 50).2
  let g := (rag_add_resource g "R" 1).2
  let g := (rag_allocate_resource g 0 0).2
  (rag_request_resource g 0 0).2

/-- Scenario S6: two disjoint two-process cycles. -/
def ragTwoCycles : RAG :=
  let g := (rag_add_process rag_init "P0" 10).2
  let g := (rag_add_process g "P1" 20).2
  let g := (rag_add_process g "P2" 30).2
  let g := (rag_add_process g "P3" 40).2
  let g := (rag_add_resource g "R0" 1).2
  let g := (rag_add_resource g "R1" 1).2
  let g := (rag_add_resource g "R2" 1).2
  let g := (rag_add_resource g "R3" 1).2
  let g := (rag_allocate_resource g 0 0).2
  let g := (rag_allocate_resource g 1 1).2
  let g := (rag_allocate_resource g 2 2).2
  let g := (rag_allocate_resource g 3 3).2
  let g := (rag_request_resource g 0 1).2
  let g := (rag_request_resource g 1 0).2
  let g := (rag_request_resource g 2 3).2
  (rag_request_resource g 3 2).2

/-- A two-process deadlock in which both processes have priority at or
above the default critical threshold 90. -/
def ragCritical : RAG :=
  let g := (rag_add_process rag_init "A" 95).2
  let g := (rag_add_process g "B" 92).2
  let g := (rag_add_resource g "R0" 1).2
  let g := (rag_add_resource g "R1" 1).2
  let g := (rag_allocate_resource g 0 0).2
  let g := (rag_allocate_resource g 1 1).2
  let g := (rag_request_resource g 0 1).2
  (rag_request_resource g 1 0).2

/-- An active Blocked process with no pending request next to an active
resource (as left behind by a resource preemption). -/
def ragBlockedCE : RAG :=
  let g := (rag_add_process rag_init "P" 50).2
  let g := (rag_add_resource g "R" 1).2
  (rag_set_process_state g 0 ProcessState.blocked).2

/-- Two active processes of equal priority 50 in a deadlock list, for the
tie-break witness. -/
def ragTie : RAG :=
  let g := (rag_add_process rag_init "T0" 50).2
  (rag_add_process g "T1" 50).2

/-- The dining-philosophers graph for n = 5 (scenario S4). -/
def ragPhil5 : RAG := setup_dining_philosophers 5

/-- The alternating length-10 cycle the spec expects on the
5-philosopher graph. -/
def phil5ExpectedCycle : Cycle :=
  { nodes :=
      [ { id := 0, type := NodeType.process }, { id := 1, type := NodeType.resource },
        { id := 1, type := NodeType.process }, { id := 2, type := NodeType.resource },
        { id := 2, type := NodeType.process }, { id := 3, type := NodeType.resource },
        { id := 3, type := NodeType.process }, { id := 4, type := NodeType.resource },
        { id := 4, type := NodeType.process }, { id := 0, type := NodeType.resource } ]
    valid := true }


/-! ### DFS verification infrastructure -/

/-- The color of a node in a DFS state, dispatching on the node kind. -/
def colorOf (s : DFSState) (n : GraphNode) : NodeColor :=
  match n.type with
  | NodeType.process => s.process_colors n.id
  | NodeType.resource => s.resource_colors n.id

/-- A node the DFS may stand on: in range and active. -/
def nodeOK (g : RAG) (n : GraphNode) : Prop :=
  match n.type with
  | NodeType.process => n.id < MAX_PROCESSES ∧ (g.processes n.id).active = true
  | NodeType.resource => n.id < MAX_RESOURCES ∧ (g.resources n.id).active = true

/-- Injective code of a valid node (processes in [0,64), resources in
[64,128)). -/
def encodeNode (n : GraphNode) : Nat :=
  match n.type with
  | NodeType.process => n.id
  | NodeType.resource => MAX_PROCESSES + n.id

/-- Number of white nodes; the DFS recursion depth is bounded by it. -/
def whiteCount (s : DFSState) : Nat :=
  ((Finset.range MAX_PROCESSES).filter
      (fun p => s.process_colors p = NodeColor.white)).card
    + ((Finset.range MAX_RESOURCES).filter
      (fun r => s.resource_colors r = NodeColor.white)).card

/-- Between entry and a false-returning exit of a DFS visit, every node
keeps its color or moves white -> black. -/
def colorEvolve (s s2 : DFSState) : Prop :=
  (∀ p, s2.process_colors p = s.process_colors p ∨
    (s.process_colors p = NodeColor.white ∧ s2.process_colors p = NodeColor.black)) ∧
  (∀ r, s2.resource_colors r = s.resource_colors r ∨
    (s.resource_colors r = NodeColor.white ∧ s2.resource_colors r = NodeColor.black))

/-- The DFS state invariant: the path is an edge chain of distinct gray
active nodes, gray nodes are exactly the path members, black nodes are
closed under edges and lie on no cycle. -/
def DFSInv (g : RAG) (s : DFSState) : Prop :=
  List.Chain' (bipE g) s.path ∧
  s.path.Nodup ∧
  (∀ n ∈ s.path, nodeOK g n ∧ colorOf s n = NodeColor.gray) ∧
  (∀ p, p < MAX_PROCESSES → s.process_colors p = NodeColor.gray →
    ({ id := p, type := NodeType.process } : GraphNode) ∈ s.path) ∧
  (∀ r, r < MAX_RESOURCES → s.resource_colors r = NodeColor.gray →
    ({ id := r, type := NodeType.resource } : GraphNode) ∈ s.path) ∧
  (∀ n m, colorOf s n = NodeColor.black → bipE g n m → colorOf s m = NodeColor.black) ∧
  (∀ n, colorOf s n = NodeColor.black → ¬ Relation.TransGen (bipE g) n n)

/-- Precondition relating the path to the node about to be visited: if
the node is valid, the last path entry has an edge to it. -/
def edgeToNode (g : RAG) (path : List GraphNode) (m : GraphNode) : Prop :=
  nodeOK g m → ∀ l, path.getLast? = some l → bipE g l m


/-- What a false-returning DFS call guarantees: invariant and path
restored, found flag still clear, colors only moved white -> black. -/
def dfsFalsePost (g : RAG) (s s2 : DFSState) : Prop :=
  DFSInv g s2 ∧ s2.cycle_found = false ∧ s2.path = s.path ∧ colorEvolve s s2

/-- Correctness statement of `dfs_visit_process` at a given fuel. -/
def dfsVisitProcessSpec (g : RAG) (fuel : Nat) : Prop :=
  ∀ (s : DFSState) (pid : Nat),
    DFSInv g s → s.cycle_found = false →
    edgeToNode g s.path { id := pid, type := NodeType.process } →
    whiteCount s < fuel →
    ((dfs_visit_process g fuel s pid).1 = true → hasBipCycle g) ∧
    ((dfs_visit_process g fuel s pid).1 = false →
      dfsFalsePost g s (dfs_visit_process g fuel s pid).2 ∧
      (pid < MAX_PROCESSES → (g.processes pid).active = true →
        (dfs_visit_process g fuel s pid).2.process_colors pid = NodeColor.black))

/-- Correctness statement of `dfs_visit_resource` at a given fuel. -/
def dfsVisitResourceSpec (g : RAG) (fuel : Nat) : Prop :=
  ∀ (s : DFSState) (rid : Nat),
    DFSInv g s → s.cycle_found = false →
    edgeToNode g s.path { id := rid, type := NodeType.resource } →
    whiteCount s < fuel →
    ((dfs_visit_resource g fuel s rid).1 = true → hasBipCycle g) ∧
    ((dfs_visit_resource g fuel s rid).1 = false →
      dfsFalsePost g s (dfs_visit_resource g fuel s rid).2 ∧
      (rid < MAX_RESOURCES → (g.resources rid).active = true →
        (dfs_visit_resource g fuel s rid).2.resource_colors rid = NodeColor.black))

/-- Correctness statement of the requested-resources successor loop. -/
def visitResourcesSpec (g : RAG) (fuel : Nat) : Prop :=
  ∀ (s : DFSState) (pid : Nat) (l : List Nat),
    DFSInv g s → s.cycle_found = false →
    pid < MAX_PROCESSES → (g.processes pid).active = true →
    s.process_colors pid = NodeColor.gray →
    s.path.getLast? = some { id := pid, type := NodeType.process } →
    whiteCount s < fuel →
    ((visit_requested_resources g fuel s pid l).1 = true → hasBipCycle g) ∧
    ((visit_requested_resources g fuel s pid l).1 = false →
      dfsFalsePost g s (visit_requested_resources g fuel s pid l).2 ∧
      (∀ r ∈ l, 0 < g.request_matrix pid r → r < MAX_RESOURCES →
        (g.resources r).active = true →
        (visit_requested_resources g fuel s pid l).2.resource_colors r
          = NodeColor.black))

/-- Correctness statement of the holding-processes successor loop. -/
def visitProcessesSpec (g : RAG) (fuel : Nat) : Prop :=
  ∀ (s : DFSState) (rid : Nat) (l : List Nat),
    DFSInv g s → s.cycle_found = false →
    rid < MAX_RESOURCES → (g.resources rid).active = true →
    s.resource_colors rid = NodeColor.gray →
    s.path.getLast? = some { id := rid, type := NodeType.resource } →
    whiteCount s < fuel →
    ((visit_holding_processes g fuel s rid l).1 = true → hasBipCycle g) ∧
    ((visit_holding_processes g fuel s rid l).1 = false →
      dfsFalsePost g s (visit_holding_processes g fuel s rid l).2 ∧
      (∀ p ∈ l, 0 < g.assignment_matrix p rid → p < MAX_PROCESSES →
        (g.processes p).active = true →
        (visit_holding_processes g fuel s rid l).2.process_colors p
          = NodeColor.black))


/-- One "hop" of the wait-for abstraction: an active process requests a
resource of which another active process holds an instance. -/
def hopE (g : RAG) : Nat → Nat → Prop := fun p q =>
  p < MAX_PROCESSES ∧ q < MAX_PROCESSES ∧
  (g.processes p).active = true ∧ (g.processes q).active = true ∧
  ∃ r, r < MAX_RESOURCES ∧ (g.resources r).active = true ∧
    0 < g.request_matrix p r ∧ 0 < g.assignment_matrix q r


/-- Number of white nodes among the first `n` slots of a coloring. -/
def wfWhite (n : Nat) (colors : Nat → NodeColor) : Nat :=
  ((Finset.range n).filter (fun v => colors v = NodeColor.white)).card

/-- Termination potential of the wait-for while loop: it strictly
decreases at every iteration. -/
def wfPot (n : Nat) (st : WFMachine) : Nat :=
  4 * wfWhite n st.colors + st.stack.length +
    (match st.stack with
     | [] => 0
     | c :: _ => if st.colors c = NodeColor.white then 0 else 2)

/-- Loop invariant of the iterative wait-for DFS: the stack is a distinct
chain of in-range nodes with edges pointing from deeper to shallower
entries, every non-top entry is gray, the top is not black, gray nodes
all sit on the stack, and black nodes are edge-closed and cycle-free. -/
def WFInv (m : Nat → Nat → Int) (n : Nat) (st : WFMachine) : Prop :=
  st.stack.Nodup ∧
  (∀ v ∈ st.stack, v < n) ∧
  List.Chain' (fun a b => matE m n b a) st.stack ∧
  (∀ v ∈ st.stack.drop 1, st.colors v = NodeColor.gray) ∧
  (∀ c ∈ st.stack.head?, st.colors c ≠ NodeColor.black) ∧
  (∀ v, st.colors v = NodeColor.gray → v ∈ st.stack) ∧
  (∀ v w, st.colors v = NodeColor.black → matE m n v w →
    st.colors w = NodeColor.black) ∧
  (∀ v, st.colors v = NodeColor.black → ¬ Relation.TransGen (matE m n) v v)

/-! ## Theorems -/

/-- C10: `is_process_deadlocked` answers false (never an error) for a
negative, too-large, or inactive process id, and `rag_is_requesting` /
`rag_is_holding` answer false for any out-of-range process or resource
id. -/
theorem C10_invalid_id_queries_return_false :
    (∀ (g : RAG) (pid : Int),
        pid < 0 ∨ (MAX_PROCESSES : Int) ≤ pid ∨ (g.processes pid.toNat).active = false →
        is_process_deadlocked g pid = false) ∧
    (∀ (g : RAG) (pid rid : Int),
        pid < 0 ∨ (MAX_PROCESSES : Int) ≤ pid ∨ rid < 0 ∨ (MAX_RESOURCES : Int) ≤ rid →
        rag_is_requesting g pid rid = false ∧ rag_is_holding g pid rid = false) := by
  constructor
  · intro g pid h
    unfold is_process_deadlocked
    by_cases h1 : pid < 0 ∨ (MAX_PROCESSES : Int) ≤ pid
    · simp [h1]
    · have hact : (g.processes pid.toNat).active = false := by tauto
      simp [h1, hact]
  · intro g pid rid h
    unfold rag_is_requesting rag_is_holding
    by_cases h1 : pid < 0 ∨ (MAX_PROCESSES : Int) ≤ pid
    · simp [h1]
    · have h2 : rid < 0 ∨ (MAX_RESOURCES : Int) ≤ rid := by tauto
      simp [h1, h2]

/-- C10 witness: concrete invalid ids answer false. -/
theorem C10_invalid_id_queries_return_false_witness :
    is_process_deadlocked rag_init (-1) = false ∧
    rag_is_requesting rag_init 64 0 = false ∧
    rag_is_holding rag_init 0 (-2) = false := by
  refine ⟨C10_invalid_id_queries_return_false.1 rag_init (-1) (Or.inl (by decide)), ?_, ?_⟩
  · exact (C10_invalid_id_queries_return_false.2 rag_init 64 0
      (Or.inr (Or.inl (by decide)))).1
  · exact (C10_invalid_id_queries_return_false.2 rag_init 0 (-2)
      (Or.inr (Or.inr (Or.inl (by decide))))).2

/-- C2: the code never consults `preserve_critical` or
`is_critical_process`. On a deadlock in which every process is critical
(priorities 95 and 92, threshold 90, `preserve_critical = true`), victim
selection still returns process 1 and the terminate-one strategy succeeds
and removes it, contradicting the claim that selection returns no victim
and the strategy fails. -/
theorem C2_critical_filter_not_enforced :
    recovery_config_init.preserve_critical = true ∧
    recovery_config_init.critical_priority_threshold = 90 ∧
    (detect_deadlock ragCritical).deadlocked_processes = [0, 1] ∧
    is_critical_process ragCritical 0 90 = true ∧
    is_critical_process ragCritical 1 90 = true ∧
    select_victim_process ragCritical (detect_deadlock ragCritical)
      SelectionCriteria.lowest_priority = 1 ∧
    (recover_from_deadlock ragCritical (detect_deadlock ragCritical)
      { recovery_config_init with strategy := RecoveryStrategy.terminate_one }).1 = true ∧
    ((recover_from_deadlock ragCritical (detect_deadlock ragCritical)
      { recovery_config_init with strategy := RecoveryStrategy.terminate_one }).2.1.processes
        1).active = false := by
  with_unfolding_all exact ⟨rfl, rfl, rfl, rfl, rfl, rfl, rfl, rfl⟩

/-- C9: on the 5-philosopher graph the detector reports one cycle of
length 10 alternating the 5 process nodes with the 5 resource nodes. -/
theorem C9_dining_philosophers_cycle :
    detect_deadlock ragPhil5 =
      { deadlock_detected := true
        cycles := [phil5ExpectedCycle]
        deadlocked_processes := [0, 1, 2, 3, 4]
        deadlocked_resources := [0, 1, 2, 3, 4] } := by
  with_unfolding_all rfl

/-- C3 counterexample: a process holding and re-requesting the same
resource is a bipartite cycle the wait-for projection cannot represent;
the two detectors disagree on this reachable graph. -/
theorem C3_counterexample_self_loop :
    (detect_deadlock ragSelfLoop).deadlock_detected = true ∧
    (detect_cycle_in_wait_for (build_wait_for_graph ragSelfLoop) MAX_PROCESSES).1 = false := by
  with_unfolding_all exact ⟨rfl, rfl⟩

/-- C4 counterexample: `detect_deadlock` stops at the first cycle, so on
two disjoint cycles `terminate_all` removes only the first cycle and
re-detection still reports deadlock. -/
theorem C4_counterexample_two_cycles :
    (detect_deadlock ragTwoCycles).deadlocked_processes = [0, 1] ∧
    (recovery_terminate_all ragTwoCycles (detect_deadlock ragTwoCycles)).1 = true ∧
    (detect_deadlock
      (recovery_terminate_all ragTwoCycles (detect_deadlock ragTwoCycles)).2.1
      ).deadlock_detected = true := by
  with_unfolding_all exact ⟨rfl, rfl, rfl⟩

/-- C7 counterexample: an active Blocked process with no pending request
is left Running by `request; cancel_request`; its state is not
restored. -/
theorem C7_counterexample_blocked :
    (ragBlockedCE.processes 0).active = true ∧
    (ragBlockedCE.resources 0).active = true ∧
    ragBlockedCE.request_matrix 0 0 = 0 ∧
    (ragBlockedCE.processes 0).state = ProcessState.blocked ∧
    ((rag_cancel_request (rag_request_resource ragBlockedCE 0 0).2 0 0).2.processes 0).state
      = ProcessState.running ∧
    ProcessState.running ≠ ProcessState.blocked := by
  with_unfolding_all
    exact ⟨rfl, rfl, rfl, rfl, rfl, fun h => ProcessState.noConfusion h⟩

/-! ### Getter characterizations -/

theorem rag_get_process_eq_none_iff {g : RAG} {pid : Int} :
    rag_get_process g pid = none ↔
      pid < 0 ∨ (MAX_PROCESSES : Int) ≤ pid ∨ (g.processes pid.toNat).active = false := by
  unfold rag_get_process
  by_cases h1 : pid < 0 ∨ (MAX_PROCESSES : Int) ≤ pid
  · simp [h1]; tauto
  · cases hA : (g.processes pid.toNat).active <;> simp [h1, hA]

theorem rag_get_resource_eq_none_iff {g : RAG} {rid : Int} :
    rag_get_resource g rid = none ↔
      rid < 0 ∨ (MAX_RESOURCES : Int) ≤ rid ∨ (g.resources rid.toNat).active = false := by
  unfold rag_get_resource
  by_cases h1 : rid < 0 ∨ (MAX_RESOURCES : Int) ≤ rid
  · simp [h1]; tauto
  · cases hA : (g.resources rid.toNat).active <;> simp [h1, hA]

theorem rag_get_process_eq_some {g : RAG} {pid : Int} {p : Process}
    (h : rag_get_process g pid = some p) :
    ¬(pid < 0 ∨ (MAX_PROCESSES : Int) ≤ pid) ∧
      (g.processes pid.toNat).active = true ∧ p = g.processes pid.toNat := by
  unfold rag_get_process at h
  by_cases h1 : pid < 0 ∨ (MAX_PROCESSES : Int) ≤ pid
  · simp [h1] at h
  · cases hA : (g.processes pid.toNat).active <;> simp [h1, hA] at h
    exact ⟨h1, rfl, h.symm⟩

theorem rag_get_resource_eq_some {g : RAG} {rid : Int} {res : Resource}
    (h : rag_get_resource g rid = some res) :
    ¬(rid < 0 ∨ (MAX_RESOURCES : Int) ≤ rid) ∧
      (g.resources rid.toNat).active = true ∧ res = g.resources rid.toNat := by
  unfold rag_get_resource at h
  by_cases h1 : rid < 0 ∨ (MAX_RESOURCES : Int) ≤ rid
  · simp [h1] at h
  · cases hA : (g.resources rid.toNat).active <;> simp [h1, hA] at h
    exact ⟨h1, rfl, h.symm⟩

theorem rag_get_process_some_of {g : RAG} {pid : Int}
    (h0 : 0 ≤ pid) (h1 : pid < (MAX_PROCESSES : Int))
    (hA : (g.processes pid.toNat).active = true) :
    rag_get_process g pid = some (g.processes pid.toNat) := by
  unfold rag_get_process
  have hor : ¬(pid < 0 ∨ (MAX_PROCESSES : Int) ≤ pid) := by omega
  simp [hor, hA]

theorem rag_get_resource_some_of {g : RAG} {rid : Int}
    (h0 : 0 ≤ rid) (h1 : rid < (MAX_RESOURCES : Int))
    (hA : (g.resources rid.toNat).active = true) :
    rag_get_resource g rid = some (g.resources rid.toNat) := by
  unfold rag_get_resource
  have hor : ¬(rid < 0 ∨ (MAX_RESOURCES : Int) ≤ rid) := by omega
  simp [hor, hA]

/-- C6: every public Graph Store mutator that reports failure leaves the
graph exactly as it was: all failure checks precede the first write. -/
theorem C6_failed_mutators_leave_state_unchanged :
    ∀ (g : RAG) (name : String) (k pid rid : Int),
      ((rag_add_process g name k).1 = -1 → (rag_add_process g name k).2 = g) ∧
      ((rag_remove_process g pid).1 = false → (rag_remove_process g pid).2 = g) ∧
      ((rag_add_resource g name k).1 = -1 → (rag_add_resource g name k).2 = g) ∧
      ((rag_remove_resource g rid).1 = false → (rag_remove_resource g rid).2 = g) ∧
      ((rag_request_resource g pid rid).1 = false → (rag_request_resource g pid rid).2 = g) ∧
      ((rag_cancel_request g pid rid).1 = false → (rag_cancel_request g pid rid).2 = g) ∧
      ((rag_allocate_resource g pid rid).1 = false → (rag_allocate_resource g pid rid).2 = g) ∧
      ((rag_release_resource g pid rid).1 = false → (rag_release_resource g pid rid).2 = g) := by
  intro g name k pid rid
  refine ⟨?_, ?_, ?_, ?_, ?_, ?_, ?_, ?_⟩
  · unfold rag_add_process
    rcases hf : (List.range MAX_PROCESSES).find? (fun i => !(g.processes i).active) with _ | slot
    · intro _; rfl
    · intro h; exact absurd h (by simp)
  · unfold rag_remove_process
    split
    · intro _; rfl
    · split
      · intro _; rfl
      · intro h; exact Bool.noConfusion h
  · unfold rag_add_resource
    split
    · intro _; rfl
    · rcases hf : (List.range MAX_RESOURCES).find? (fun i => !(g.resources i).active) with _ | slot
      · intro _; rfl
      · intro h; exact absurd h (by simp)
  · unfold rag_remove_resource
    split
    · intro _; rfl
    · split
      · intro _; rfl
      · split
        · intro _; rfl
        · intro h; exact Bool.noConfusion h
  · unfold rag_request_resource
    rcases hP : rag_get_process g pid with _ | p <;> rcases hR : rag_get_resource g rid with _ | res
    · intro _; rfl
    · intro _; rfl
    · intro _; rfl
    · simp only []
      split
      · intro h; exact Bool.noConfusion h
      · intro h; exact Bool.noConfusion h
  · unfold rag_cancel_request
    dsimp only
    split
    · intro _; rfl
    · split
      · intro _; rfl
      · split
        · intro _; rfl
        · split
          · intro h; exact Bool.noConfusion h
          · intro h; exact Bool.noConfusion h
  · unfold rag_allocate_resource
    rcases hP : rag_get_process g pid with _ | p <;> rcases hR : rag_get_resource g rid with _ | res
    · intro _; rfl
    · intro _; rfl
    · intro _; rfl
    · dsimp only
      split
      · intro _; rfl
      · split
        · intro h; exact Bool.noConfusion h
        · intro h; exact Bool.noConfusion h
  · unfold rag_release_resource
    split
    · intro _; rfl
    · split
      · intro _; rfl
      · split
        · intro _; rfl
        · intro h; exact Bool.noConfusion h

/-- C6 witness: a failing allocate (inactive ids on the empty store) and
a failing cancel leave the store untouched. -/
theorem C6_failed_mutators_leave_state_unchanged_witness :
    (rag_allocate_resource rag_init 0 0).1 = false ∧
    (rag_allocate_resource rag_init 0 0).2 = rag_init ∧
    (rag_remove_resource rag_init 3).1 = false ∧
    (rag_remove_resource rag_init 3).2 = rag_init := by
  refine ⟨by with_unfolding_all rfl, ?_, by with_unfolding_all rfl, ?_⟩
  · exact (C6_failed_mutators_leave_state_unchanged rag_init "" 0 0 0).2.2.2.2.2.2.1
      (by with_unfolding_all rfl)
  · exact (C6_failed_mutators_leave_state_unchanged rag_init "" 0 0 3).2.2.2.1
      (by with_unfolding_all rfl)

/-- C5: `allocate(p, r)` fails exactly when an id is inactive (or out of
range) or no instance is available; on success it increments the
assignment, decrements availability, clears the request bit, and resets
the state to Running when no request remains. No prior request is
required: the failure condition does not mention the request matrix. The
non-negativity hypothesis holds in every reachable store. -/
theorem C5_allocate_contract :
    ∀ (g : RAG) (pid rid : Int),
      0 ≤ (g.resources rid.toNat).available_instances →
      (((rag_allocate_resource g pid rid).1 = false ↔
        (rag_get_process g pid = none ∨ rag_get_resource g rid = none ∨
         (g.resources rid.toNat).available_instances = 0)) ∧
       ((rag_allocate_resource g pid rid).1 = true →
        ((rag_allocate_resource g pid rid).2.assignment_matrix pid.toNat rid.toNat
            = g.assignment_matrix pid.toNat rid.toNat + 1 ∧
         ((rag_allocate_resource g pid rid).2.resources rid.toNat).available_instances
            = (g.resources rid.toNat).available_instances - 1 ∧
         (rag_allocate_resource g pid rid).2.request_matrix pid.toNat rid.toNat = 0 ∧
         (rowHasRequest (rag_allocate_resource g pid rid).2.request_matrix pid.toNat = false →
           ((rag_allocate_resource g pid rid).2.processes pid.toNat).state
             = ProcessState.running)))) := by
  intro g pid rid havail
  rcases hP : rag_get_process g pid with _ | p
  · constructor
    · simp [rag_allocate_resource, hP]
    · intro h
      rw [rag_allocate_resource] at h
      simp [hP] at h
  · rcases hR : rag_get_resource g rid with _ | res
    · constructor
      · simp [rag_allocate_resource, hP, hR]
      · intro h
        rw [rag_allocate_resource] at h
        simp [hP, hR] at h
    · obtain ⟨hrb, hract, hres⟩ := rag_get_resource_eq_some hR
      by_cases h0 : res.available_instances ≤ 0
      · have h0g : (g.resources rid.toNat).available_instances ≤ 0 := hres ▸ h0
        have hz : (g.resources rid.toNat).available_instances = 0 := by omega
        constructor
        · simp [rag_allocate_resource, hP, hR, h0]
          tauto
        · intro h
          rw [rag_allocate_resource] at h
          simp [hP, hR, h0] at h
      · have htrue : (rag_allocate_resource g pid rid).1 = true := by
          rw [rag_allocate_resource]
          simp only [hP, hR, if_neg h0]
          split <;> rfl
        constructor
        · constructor
          · intro hc
            exact absurd (htrue.symm.trans hc) (by simp)
          · intro hc
            exfalso
            rcases hc with hc | hc | hc
            · exact Option.noConfusion hc
            · exact Option.noConfusion hc
            · rw [← hres] at hc; omega
        · intro _
          rw [rag_allocate_resource]
          simp only [hP, hR, if_neg h0]
          refine ⟨?_, ?_, ?_, ?_⟩
          · split <;> simp
          · split <;> simp
          · split <;> simp
          · intro hrow
            revert hrow
            split
            · intro _; simp
            · rename_i hcond
              intro hrow
              simp [hrow] at hcond

/-- C5 witness: a concrete allocate with no prior request succeeds with
the stated effects. -/
theorem C5_allocate_contract_witness :
    0 ≤ (ragBlockedCE.resources 0).available_instances ∧
    (((rag_allocate_resource ragBlockedCE 0 0).1 = false ↔
      (rag_get_process ragBlockedCE 0 = none ∨ rag_get_resource ragBlockedCE 0 = none ∨
       (ragBlockedCE.resources (0 : Int).toNat).available_instances = 0)) ∧
     ((rag_allocate_resource ragBlockedCE 0 0).1 = true →
      ((rag_allocate_resource ragBlockedCE 0 0).2.assignment_matrix (0 : Int).toNat (0 : Int).toNat
          = ragBlockedCE.assignment_matrix (0 : Int).toNat (0 : Int).toNat + 1 ∧
       ((rag_allocate_resource ragBlockedCE 0 0).2.resources (0 : Int).toNat).available_instances
          = (ragBlockedCE.resources (0 : Int).toNat).available_instances - 1 ∧
       (rag_allocate_resource ragBlockedCE 0 0).2.request_matrix (0 : Int).toNat (0 : Int).toNat = 0 ∧
       (rowHasRequest (rag_allocate_resource ragBlockedCE 0 0).2.request_matrix (0 : Int).toNat = false →
         ((rag_allocate_resource ragBlockedCE 0 0).2.processes (0 : Int).toNat).state
           = ProcessState.running)))) :=
  ⟨by with_unfolding_all exact of_decide_eq_true rfl,
   C5_allocate_contract ragBlockedCE 0 0 (by with_unfolding_all exact of_decide_eq_true rfl)⟩

/-- C7 (amended): for active in-range ids with no pending request bit,
`request; cancel_request` always restores the whole request matrix; the
final state is Waiting when another request is pending and Running
otherwise, so the process state is restored exactly when the process was
Waiting with another pending request or Running with none (a Blocked
process is not restored). -/
theorem C7_request_cancel_roundtrip :
    ∀ (g : RAG) (pid rid : Int),
      0 ≤ pid → pid < (MAX_PROCESSES : Int) → 0 ≤ rid → rid < (MAX_RESOURCES : Int) →
      (g.processes pid.toNat).active = true →
      (g.resources rid.toNat).active = true →
      g.request_matrix pid.toNat rid.toNat = 0 →
      ((rag_cancel_request (rag_request_resource g pid rid).2 pid rid).2.request_matrix
          = g.request_matrix ∧
       ((rag_cancel_request (rag_request_resource g pid rid).2 pid rid).2.processes
            pid.toNat).state
          = (if rowHasRequest g.request_matrix pid.toNat then ProcessState.waiting
             else ProcessState.running) ∧
       (((rag_cancel_request (rag_request_resource g pid rid).2 pid rid).2.processes
            pid.toNat).state = (g.processes pid.toNat).state ↔
         ((g.processes pid.toNat).state = ProcessState.waiting ∧
            rowHasRequest g.request_matrix pid.toNat = true) ∨
         ((g.processes pid.toNat).state = ProcessState.running ∧
            rowHasRequest g.request_matrix pid.toNat = false))) := by
  intro g pid rid h0 h1 h2 h3 hPact hRact hreq
  have hP := rag_get_process_some_of h0 h1 hPact
  have hR := rag_get_resource_some_of h2 h3 hRact
  have hg1 : (rag_request_resource g pid rid).2 =
      { g with
        request_matrix := fun q r =>
          if q = pid.toNat ∧ r = rid.toNat then 1 else g.request_matrix q r
        processes := fun i =>
          if i = pid.toNat then { g.processes i with state := ProcessState.waiting }
          else g.processes i } := by
    rw [rag_request_resource]
    simp only [hP, hR, hreq]
    rw [if_neg (by omega : ¬ (0 : Int) < 0)]
  have hm1 : (fun q r => if q = pid.toNat ∧ r = rid.toNat then (0 : Int)
      else if q = pid.toNat ∧ r = rid.toNat then 1 else g.request_matrix q r)
      = g.request_matrix := by
    funext q r
    by_cases hqr : q = pid.toNat ∧ r = rid.toNat
    · simp only [hqr, and_self, if_true]
      exact hreq.symm
    · simp only [hqr, if_false]
  rw [hg1]
  rw [rag_cancel_request]
  rw [if_neg (by omega : ¬(pid < 0 ∨ (MAX_PROCESSES : Int) ≤ pid))]
  rw [if_neg (by omega : ¬(rid < 0 ∨ (MAX_RESOURCES : Int) ≤ rid))]
  rw [if_neg (show ¬(if pid.toNat = pid.toNat ∧ rid.toNat = rid.toNat then (1 : Int)
        else g.request_matrix pid.toNat rid.toNat) = 0 by simp)]
  dsimp only
  rw [hm1]
  cases hrow : rowHasRequest g.request_matrix pid.toNat
  · rw [if_pos (by simp [hrow, hPact])]
    refine ⟨rfl, by simp, ?_⟩
    simp [hrow, eq_comm]
  · rw [if_neg (by simp [hrow])]
    refine ⟨rfl, by simp, ?_⟩
    simp [hrow, eq_comm]

/-- C7 witness: on a concrete store with an active process and resource
and a clear request bit, the pair of calls restores the request matrix,
and the final state follows the stated rule. -/
theorem C7_request_cancel_roundtrip_witness :
    (ragBlockedCE.processes (0 : Int).toNat).active = true ∧
    ((rag_cancel_request (rag_request_resource ragBlockedCE 0 0).2 0 0).2.request_matrix
        = ragBlockedCE.request_matrix ∧
     ((rag_cancel_request (rag_request_resource ragBlockedCE 0 0).2 0 0).2.processes
          (0 : Int).toNat).state
        = (if rowHasRequest ragBlockedCE.request_matrix (0 : Int).toNat then ProcessState.waiting
           else ProcessState.running) ∧
     (((rag_cancel_request (rag_request_resource ragBlockedCE 0 0).2 0 0).2.processes
          (0 : Int).toNat).state = (ragBlockedCE.processes (0 : Int).toNat).state ↔
       ((ragBlockedCE.processes (0 : Int).toNat).state = ProcessState.waiting ∧
          rowHasRequest ragBlockedCE.request_matrix (0 : Int).toNat = true) ∨
       ((ragBlockedCE.processes (0 : Int).toNat).state = ProcessState.running ∧
          rowHasRequest ragBlockedCE.request_matrix (0 : Int).toNat = false))) :=
  ⟨by with_unfolding_all rfl,
   C7_request_cancel_roundtrip ragBlockedCE 0 0
     (by with_unfolding_all exact of_decide_eq_true rfl)
     (by with_unfolding_all exact of_decide_eq_true rfl)
     (by with_unfolding_all exact of_decide_eq_true rfl)
     (by with_unfolding_all exact of_decide_eq_true rfl)
     (by with_unfolding_all rfl)
     (by with_unfolding_all rfl)
     (by with_unfolding_all rfl)⟩

/-! ### Victim selection (C8) -/

/-- Once the running maximum is at least every remaining active score,
the selection loop keeps its current victim (ties never displace it). -/
theorem select_victim_loop_stable (g : RAG) (crit : SelectionCriteria) :
    ∀ (l : List Nat) (victim best : Int),
      (∀ q ∈ l, (g.processes q).active = true → victim_score g crit q ≤ best) →
      select_victim_loop g crit l victim best false = victim := by
  intro l
  induction l with
  | nil => intro victim best _; rfl
  | cons q t ih =>
    intro victim best hle
    rw [select_victim_loop]
    cases hA : (g.processes q).active
    · simp only [hA, Bool.not_false, if_pos rfl]
      exact ih victim best (fun x hx => hle x (List.mem_cons_of_mem q hx))
    · simp only [hA, Bool.not_true]
      rw [if_neg (by simp)]
      rw [if_neg ?hc]
      case hc =>
        have := hle q (List.mem_cons_self q t) hA
        simp
        omega
      exact ih victim best (fun x hx => hle x (List.mem_cons_of_mem q hx))

/-- The selection loop returns the first-seen active candidate whose
score is maximal: strictly greater than every earlier active score and at
least every later one. -/
theorem select_victim_loop_first_max (g : RAG) (crit : SelectionCriteria) :
    ∀ (l1 : List Nat) (pid : Nat) (l2 : List Nat) (victim best : Int) (first : Bool),
      (g.processes pid).active = true →
      (∀ q ∈ l1, (g.processes q).active = true →
        victim_score g crit q < victim_score g crit pid) →
      (∀ q ∈ l2, (g.processes q).active = true →
        victim_score g crit q ≤ victim_score g crit pid) →
      (first = true ∨ best < victim_score g crit pid) →
      select_victim_loop g crit (l1 ++ pid :: l2) victim best first = Int.ofNat pid := by
  intro l1
  induction l1 with
  | nil =>
    intro pid l2 victim best first hact _ hl2 hcond
    rw [List.nil_append, select_victim_loop]
    simp only [hact, Bool.not_true]
    rw [if_neg (by simp)]
    rw [if_pos (by simpa using hcond)]
    exact select_victim_loop_stable g crit l2 (Int.ofNat pid) (victim_score g crit pid) hl2
  | cons q t ih =>
    intro pid l2 victim best first hact hl1 hl2 hcond
    rw [List.cons_append, select_victim_loop]
    cases hA : (g.processes q).active
    · simp only [hA, Bool.not_false, if_pos rfl]
      exact ih pid l2 victim best first hact
        (fun x hx => hl1 x (List.mem_cons_of_mem q hx)) hl2 hcond
    · have hqlt : victim_score g crit q < victim_score g crit pid :=
        hl1 q (List.mem_cons_self q t) hA
      simp only [hA, Bool.not_true]
      rw [if_neg (by simp)]
      by_cases hc : first = true ∨ best < victim_score g crit q
      · rw [if_pos hc]
        exact ih pid l2 (Int.ofNat q) (victim_score g crit q) false hact
          (fun x hx => hl1 x (List.mem_cons_of_mem q hx)) hl2 (Or.inr hqlt)
      · rw [if_neg hc]
        have hfirst : first = false := by
          cases first
          · rfl
          · exact absurd (Or.inl rfl) hc
        have hbest : best < victim_score g crit pid := by
          rcases hcond with h | h
          · rw [hfirst] at h; exact Bool.noConfusion h
          · exact h
        exact ih pid l2 victim best first hact
          (fun x hx => hl1 x (List.mem_cons_of_mem q hx)) hl2 (Or.inr hbest)

/-- Split a list at the first occurrence of a member. -/
theorem exists_first_split {a : Nat} :
    ∀ {l : List Nat}, a ∈ l → ∃ l1 l2, l = l1 ++ a :: l2 ∧ a ∉ l1 := by
  intro l
  induction l with
  | nil => intro h; cases h
  | cons b t ih =>
    intro h
    by_cases hb : b = a
    · exact ⟨[], t, by rw [hb]; simp, by simp⟩
    · have hmem : a ∈ t := by
        rcases List.mem_cons.mp h with h1 | h1
        · exact absurd h1.symm hb
        · exact h1
      rcases ih hmem with ⟨l1, l2, hsplit, hnot⟩
      refine ⟨b :: l1, l2, by rw [List.cons_append, hsplit], ?_⟩
      intro hmem2
      rcases List.mem_cons.mp hmem2 with h2 | h2
      · exact hb h2.symm
      · exact hnot h2

/-- C8: under the lowest-priority criterion a unique strict minimum of
priority among the active deadlocked candidates is always selected; and
for every criterion the victim is the first-seen candidate achieving the
maximal score, so on ties the earlier (for detection results: lower-id)
candidate is kept. -/
theorem C8_victim_selection :
    (∀ (g : RAG) (d : DeadlockResult) (pid : Nat),
      pid ∈ d.deadlocked_processes →
      (g.processes pid).active = true →
      (∀ q ∈ d.deadlocked_processes, (g.processes q).active = true → q ≠ pid →
        (g.processes pid).priority < (g.processes q).priority) →
      select_victim_process g d SelectionCriteria.lowest_priority = Int.ofNat pid) ∧
    (∀ (g : RAG) (crit : SelectionCriteria) (d : DeadlockResult) (l1 l2 : List Nat)
        (pid : Nat),
      d.deadlocked_processes = l1 ++ pid :: l2 →
      (g.processes pid).active = true →
      (∀ q ∈ d.deadlocked_processes, (g.processes q).active = true →
        victim_score g crit q ≤ victim_score g crit pid) →
      (∀ q ∈ l1, (g.processes q).active = true →
        victim_score g crit q < victim_score g crit pid) →
      select_victim_process g d crit = Int.ofNat pid) := by
  constructor
  · intro g d pid hmem hact hmin
    rcases exists_first_split hmem with ⟨l1, l2, hsplit, hnotin⟩
    have hscore : ∀ q ∈ d.deadlocked_processes, (g.processes q).active = true →
        victim_score g SelectionCriteria.lowest_priority q
          ≤ victim_score g SelectionCriteria.lowest_priority pid := by
      intro q hq hqa
      by_cases hqp : q = pid
      · rw [hqp]
      · have := hmin q hq hqa hqp
        have e1 : victim_score g SelectionCriteria.lowest_priority q
            = 100 - (g.processes q).priority := rfl
        have e2 : victim_score g SelectionCriteria.lowest_priority pid
            = 100 - (g.processes pid).priority := rfl
        rw [e1, e2]
        omega
    have hstrict : ∀ q ∈ l1, (g.processes q).active = true →
        victim_score g SelectionCriteria.lowest_priority q
          < victim_score g SelectionCriteria.lowest_priority pid := by
      intro q hq hqa
      have hqp : q ≠ pid := fun h => hnotin (h ▸ hq)
      have := hmin q (hsplit ▸ (List.mem_append.mpr (Or.inl hq))) hqa hqp
      have e1 : victim_score g SelectionCriteria.lowest_priority q
          = 100 - (g.processes q).priority := rfl
      have e2 : victim_score g SelectionCriteria.lowest_priority pid
          = 100 - (g.processes pid).priority := rfl
      rw [e1, e2]
      omega
    unfold select_victim_process
    rw [if_neg (by rw [hsplit]; simp)]
    rw [hsplit]
    exact select_victim_loop_first_max g SelectionCriteria.lowest_priority l1 pid l2 (-1) 0
      true hact hstrict
      (fun q hq => hscore q (hsplit ▸ List.mem_append.mpr (Or.inr (List.mem_cons_of_mem pid hq))))
      (Or.inl rfl)
  · intro g crit d l1 l2 pid hsplit hact hle hlt
    unfold select_victim_process
    rw [if_neg (by rw [hsplit]; simp)]
    rw [hsplit]
    exact select_victim_loop_first_max g crit l1 pid l2 (-1) 0 true hact hlt
      (fun q hq => hle q (hsplit ▸ List.mem_append.mpr (Or.inr (List.mem_cons_of_mem pid hq))))
      (Or.inl rfl)

/-- C8 witness: on a concrete deadlock list the unique lowest-priority
process is selected, and with equal scores the first-seen candidate of
the list is kept. -/
theorem C8_victim_selection_witness :
    select_victim_process ragCritical
      { deadlock_detected := true, cycles := [], deadlocked_processes := [0, 1]
        deadlocked_resources := [] } SelectionCriteria.lowest_priority = Int.ofNat 1 ∧
    select_victim_process ragTie
      { deadlock_detected := true, cycles := [], deadlocked_processes := [1, 0]
        deadlocked_resources := [] } SelectionCriteria.lowest_priority = Int.ofNat 1 := by
  constructor
  · exact C8_victim_selection.1 ragCritical _ 1 (by simp)
      (by with_unfolding_all rfl)
      (by
        intro q hq hqa hqne
        fin_cases hq
        · with_unfolding_all exact of_decide_eq_true rfl
        · exact absurd rfl hqne)
  · exact C8_victim_selection.2 ragTie SelectionCriteria.lowest_priority _ [] [0] 1 rfl
      (by with_unfolding_all rfl)
      (by
        intro q hq hqa
        fin_cases hq
        · with_unfolding_all exact of_decide_eq_true rfl
        · with_unfolding_all exact of_decide_eq_true rfl)
      (by intro q hq hqa; cases hq)

/-! ### Instance accounting invariant (C1) -/

theorem find?_range_lt {n : Nat} {p : Nat → Bool} {x : Nat}
    (h : (List.range n).find? p = some x) : x < n ∧ p x = true :=
  ⟨List.mem_range.mp (List.mem_of_find?_eq_some h), List.find?_some h⟩

theorem sum_range_congr {n : Nat} {f h : Nat → Int} (he : ∀ p, p < n → f p = h p) :
    Finset.sum (Finset.range n) f = Finset.sum (Finset.range n) h :=
  Finset.sum_congr rfl (fun p hp => he p (Finset.mem_range.mp hp))

theorem sum_range_update_add {n : Nat} (f : Nat → Int) (p0 : Nat) (c : Int)
    (hp : p0 < n) :
    Finset.sum (Finset.range n) (fun p => if p = p0 then f p + c else f p)
      = Finset.sum (Finset.range n) f + c := by
  have hpt : ∀ p, (if p = p0 then f p + c else f p) = f p + (if p = p0 then c else 0) := by
    intro p; split <;> simp
  rw [Finset.sum_congr rfl (fun p _ => hpt p), Finset.sum_add_distrib]
  congr 1
  rw [Finset.sum_ite_eq' (Finset.range n) p0 (fun _ => c)]
  rw [if_pos (Finset.mem_range.mpr hp)]

theorem sum_range_update_cond_zero {n : Nat} (f : Nat → Int) (p0 : Nat)
    (C : Nat → Prop) [DecidablePred C] (hp : p0 < n) :
    Finset.sum (Finset.range n) (fun p => if p = p0 ∧ C p then 0 else f p)
      = Finset.sum (Finset.range n) f - (if C p0 then f p0 else 0) := by
  have hpt : ∀ p, (if p = p0 ∧ C p then 0 else f p)
      = f p + (if p = p0 then (if C p0 then -f p0 else 0) else 0) := by
    intro p
    by_cases h1 : p = p0
    · subst h1
      by_cases h2 : C p <;> simp [h2]
    · simp [h1]
  rw [Finset.sum_congr rfl (fun p _ => hpt p), Finset.sum_add_distrib]
  rw [Finset.sum_ite_eq' (Finset.range n) p0 (fun _ => if C p0 then -f p0 else 0)]
  rw [if_pos (Finset.mem_range.mpr hp)]
  split <;> ring

theorem ragInv_init : RagInv rag_init := by
  refine ⟨⟨?_, ?_, ?_⟩, ?_⟩
  · intro p _ r _; simp [rag_init]
  · intro r _; simp [rag_init]
  · intro r _ hact; simp [rag_init] at hact
  · intro p _ r _
    constructor <;> intro h <;> simp [rag_init] at h

theorem ragInv_add_process (g : RAG) (name : String) (pri : Int) (h : RagInv g) :
    RagInv (rag_add_process g name pri).2 := by
  obtain ⟨⟨hA1, hA2, hA3⟩, hE⟩ := h
  rcases hf : (List.range MAX_PROCESSES).find? (fun i => !(g.processes i).active)
    with _ | slot
  · simpa [rag_add_process, hf] using ⟨⟨hA1, hA2, hA3⟩, hE⟩
  · obtain ⟨hslt, hsact⟩ := find?_range_lt hf
    have hinact : (g.processes slot).active = false := by
      simpa using hsact
    have hzero : ∀ r, r < MAX_RESOURCES → g.assignment_matrix slot r = 0 := by
      intro r hr
      by_contra hne
      have hpos : 0 < g.assignment_matrix slot r := by
        have := hA1 slot hslt r hr
        omega
      have := ((hE slot hslt r hr).2 hpos).1
      rw [hinact] at this
      exact Bool.noConfusion this
    rw [rag_add_process, hf]
    refine ⟨⟨?_, ?_, ?_⟩, ?_⟩
    · intro p hp r hr
      by_cases hps : p = slot <;> simp only [hps, if_true, if_false]
      · omega
      · exact hA1 p hp r hr
    · intro r hr
      exact hA2 r hr
    · intro r hr hact
      have hsum : Finset.sum (Finset.range MAX_PROCESSES)
          (fun p => if p = slot then 0 else g.assignment_matrix p r)
          = sumAssignments g r := by
        apply sum_range_congr
        intro p hp
        by_cases hps : p = slot
        · subst hps
          rw [if_pos rfl]
          exact (hzero r hr).symm
        · rw [if_neg hps]
      unfold sumAssignments
      simp only
      rw [hsum]
      exact hA3 r hr hact
    · intro p hp r hr
      by_cases hps : p = slot
      · subst hps
        constructor
        · intro hpos
          simp at hpos
        · intro hpos
          simp at hpos
      · simp only [hps, if_false]
        constructor
        · intro hpos
          exact ⟨((hE p hp r hr).1 hpos).1, ((hE p hp r hr).1 hpos).2⟩
        · intro hpos
          exact ⟨((hE p hp r hr).2 hpos).1, ((hE p hp r hr).2 hpos).2⟩

theorem ragInv_release (g : RAG) (pid rid : Int) (h : RagInv g) :
    RagInv (rag_release_resource g pid rid).2 := by
  obtain ⟨⟨hA1, hA2, hA3⟩, hE⟩ := h
  rw [rag_release_resource]
  by_cases hb1 : pid < 0 ∨ (MAX_PROCESSES : Int) ≤ pid
  · rw [if_pos hb1]; exact ⟨⟨hA1, hA2, hA3⟩, hE⟩
  rw [if_neg hb1]
  by_cases hb2 : rid < 0 ∨ (MAX_RESOURCES : Int) ≤ rid
  · rw [if_pos hb2]; exact ⟨⟨hA1, hA2, hA3⟩, hE⟩
  rw [if_neg hb2]
  by_cases hb3 : g.assignment_matrix pid.toNat rid.toNat ≤ 0
  · rw [if_pos hb3]; exact ⟨⟨hA1, hA2, hA3⟩, hE⟩
  rw [if_neg hb3]
  dsimp only
  have hplt : pid.toNat < MAX_PROCESSES := by
    unfold MAX_PROCESSES at hb1 ⊢; omega
  have hrlt : rid.toNat < MAX_RESOURCES := by
    unfold MAX_RESOURCES at hb2 ⊢; omega
  refine ⟨⟨?_, ?_, ?_⟩, ?_⟩
  · intro p hp r hr
    dsimp only
    by_cases hc : p = pid.toNat ∧ r = rid.toNat
    · rw [if_pos hc]
      rw [hc.1, hc.2]
      omega
    · rw [if_neg hc]
      exact hA1 p hp r hr
  · intro r hr
    dsimp only
    by_cases hc : r = rid.toNat ∧ (g.resources r).active
    · simp only [if_pos hc]
      have := hA2 r hr
      omega
    · simp only [if_neg hc]
      exact hA2 r hr
  · intro r hr
    dsimp only
    by_cases hc : r = rid.toNat ∧ (g.resources r).active
    · simp only [if_pos hc]
      intro _
      have hcol : Finset.sum (Finset.range MAX_PROCESSES)
          (fun p => if p = pid.toNat ∧ r = rid.toNat then
            g.assignment_matrix p r - 1 else g.assignment_matrix p r)
          = sumAssignments g r - 1 := by
        have hpt : ∀ p, (if p = pid.toNat ∧ r = rid.toNat then
            g.assignment_matrix p r - 1 else g.assignment_matrix p r)
            = (if p = pid.toNat then g.assignment_matrix p r + (-1)
               else g.assignment_matrix p r) := by
          intro p
          by_cases hp1 : p = pid.toNat <;> simp [hp1, hc.1] <;> ring
        rw [Finset.sum_congr rfl (fun p _ => hpt p)]
        rw [sum_range_update_add (fun p => g.assignment_matrix p r) pid.toNat (-1) hplt]
        rfl
      unfold sumAssignments
      simp only
      rw [hcol]
      have := hA3 r hr hc.2
      omega
    · simp only [if_neg hc]
      intro hact
      have hcne : ¬(r = rid.toNat) := by
        intro hre
        exact hc ⟨hre, hact⟩
      have hcol : Finset.sum (Finset.range MAX_PROCESSES)
          (fun p => if p = pid.toNat ∧ r = rid.toNat then
            g.assignment_matrix p r - 1 else g.assignment_matrix p r)
          = sumAssignments g r := by
        apply sum_range_congr
        intro p hp
        rw [if_neg (fun hand => hcne hand.2)]
      unfold sumAssignments
      simp only
      rw [hcol]
      exact hA3 r hr hact
  · intro p hp r hr
    dsimp only
    constructor
    · intro hpos
      have := (hE p hp r hr).1 hpos
      refine ⟨this.1, ?_⟩
      by_cases hc : r = rid.toNat ∧ (g.resources r).active
      · simp only [if_pos hc]
        exact this.2
      · simp only [if_neg hc]
        exact this.2
    · intro hpos
      have hold : 0 < g.assignment_matrix p r := by
        by_cases hc : p = pid.toNat ∧ r = rid.toNat
        · rw [if_pos hc] at hpos; omega
        · rwa [if_neg hc] at hpos
      have := (hE p hp r hr).2 hold
      refine ⟨this.1, ?_⟩
      by_cases hc : r = rid.toNat ∧ (g.resources r).active
      · simp only [if_pos hc]
        exact this.2
      · simp only [if_neg hc]
        exact this.2

theorem ragInv_release_all (g : RAG) (pid : Int) (h : RagInv g) :
    RagInv (rag_release_all_resources g pid).2 := by
  obtain ⟨⟨hA1, hA2, hA3⟩, hE⟩ := h
  rw [rag_release_all_resources]
  by_cases hb1 : pid < 0 ∨ (MAX_PROCESSES : Int) ≤ pid
  · rw [if_pos hb1]; exact ⟨⟨hA1, hA2, hA3⟩, hE⟩
  rw [if_neg hb1]
  have hplt : pid.toNat < MAX_PROCESSES := by
    unfold MAX_PROCESSES at hb1 ⊢; omega
  refine ⟨⟨?_, ?_, ?_⟩, ?_⟩
  · intro p hp r hr
    dsimp only
    by_cases hc : p = pid.toNat ∧ r < MAX_RESOURCES ∧ 0 < g.assignment_matrix p r
    · rw [if_pos hc]
    · rw [if_neg hc]
      exact hA1 p hp r hr
  · intro r hr
    dsimp only
    by_cases hc : r < MAX_RESOURCES ∧ (g.resources r).active
        ∧ 0 < g.assignment_matrix pid.toNat r
    · simp only [if_pos hc]
      have := hA2 r hr
      omega
    · simp only [if_neg hc]
      exact hA2 r hr
  · intro r hr
    dsimp only
    have hcol : Finset.sum (Finset.range MAX_PROCESSES)
        (fun q => if q = pid.toNat ∧ r < MAX_RESOURCES ∧ 0 < g.assignment_matrix q r
          then 0 else g.assignment_matrix q r)
        = sumAssignments g r
          - (if r < MAX_RESOURCES ∧ 0 < g.assignment_matrix pid.toNat r
             then g.assignment_matrix pid.toNat r else 0) := by
      exact sum_range_update_cond_zero (fun q => g.assignment_matrix q r) pid.toNat
        (fun q => r < MAX_RESOURCES ∧ 0 < g.assignment_matrix q r) hplt
    by_cases hc : r < MAX_RESOURCES ∧ (g.resources r).active
        ∧ 0 < g.assignment_matrix pid.toNat r
    · simp only [if_pos hc]
      intro hact
      unfold sumAssignments
      simp only
      rw [hcol]
      rw [if_pos ⟨hc.1, hc.2.2⟩]
      have := hA3 r hr hc.2.1
      omega
    · simp only [if_neg hc]
      intro hact
      unfold sumAssignments
      simp only
      rw [hcol]
      rw [if_neg (fun hand => hc ⟨hand.1, hact, hand.2⟩)]
      have := hA3 r hr hact
      omega
  · intro p hp r hr
    dsimp only
    constructor
    · intro hpos
      have := (hE p hp r hr).1 hpos
      refine ⟨this.1, ?_⟩
      by_cases hc : r < MAX_RESOURCES ∧ (g.resources r).active
          ∧ 0 < g.assignment_matrix pid.toNat r
      · simp only [if_pos hc]
        exact this.2
      · simp only [if_neg hc]
        exact this.2
    · intro hpos
      have hold : 0 < g.assignment_matrix p r := by
        by_cases hc : p = pid.toNat ∧ r < MAX_RESOURCES ∧ 0 < g.assignment_matrix p r
        · rw [if_pos hc] at hpos; omega
        · rwa [if_neg hc] at hpos
      have := (hE p hp r hr).2 hold
      refine ⟨this.1, ?_⟩
      by_cases hc : r < MAX_RESOURCES ∧ (g.resources r).active
          ∧ 0 < g.assignment_matrix pid.toNat r
      · simp only [if_pos hc]
        exact this.2
      · simp only [if_neg hc]
        exact this.2

theorem ragInv_remove_process (g : RAG) (pid : Int) (h : RagInv g) :
    RagInv (rag_remove_process g pid).2 := by
  have hA1old := h.1.1
  rw [rag_remove_process]
  by_cases hb1 : pid < 0 ∨ (MAX_PROCESSES : Int) ≤ pid
  · rw [if_pos hb1]; exact h
  rw [if_neg hb1]
  by_cases hb2 : (g.processes pid.toNat).active = false
  · rw [if_pos (by simp [hb2])]; exact h
  rw [if_neg (by simp at hb2 ⊢; exact hb2)]
  dsimp only
  have hg1 := ragInv_release_all g pid h
  obtain ⟨⟨hA1, hA2, hA3⟩, hE⟩ := hg1
  have hplt : pid.toNat < MAX_PROCESSES := by
    unfold MAX_PROCESSES at hb1 ⊢; omega
  have hrow0 : ∀ r, r < MAX_RESOURCES →
      (rag_release_all_resources g pid).2.assignment_matrix pid.toNat r = 0 := by
    intro r hr
    rw [rag_release_all_resources]
    rw [if_neg hb1]
    dsimp only
    by_cases hc : 0 < g.assignment_matrix pid.toNat r
    · rw [if_pos ⟨rfl, hr, hc⟩]
    · rw [if_neg (fun hand => hc hand.2.2)]
      have := hA1old pid.toNat hplt r hr
      omega
  refine ⟨⟨?_, ?_, ?_⟩, ?_⟩
  · intro p hp r hr
    exact hA1 p hp r hr
  · intro r hr
    exact hA2 r hr
  · intro r hr hact
    exact hA3 r hr hact
  · intro p hp r hr
    dsimp only
    constructor
    · intro hpos
      by_cases hcp : p = pid.toNat
      · subst hcp
        rw [if_pos] at hpos
        · omega
        · refine ⟨rfl, hr, ?_⟩
          by_contra hnr
          rw [if_neg (fun hand => hnr hand.2.2)] at hpos
          omega
      · rw [if_neg (fun hand => hcp hand.1)] at hpos
        have := (hE p hp r hr).1 hpos
        rw [if_neg hcp]
        exact this
    · intro hpos
      by_cases hcp : p = pid.toNat
      · subst hcp
        rw [hrow0 r hr] at hpos
        omega
      · have := (hE p hp r hr).2 hpos
        rw [if_neg hcp]
        exact this

theorem ragInv_add_resource (g : RAG) (name : String) (inst : Int) (h : RagInv g) :
    RagInv (rag_add_resource g name inst).2 := by
  obtain ⟨⟨hA1, hA2, hA3⟩, hE⟩ := h
  rw [rag_add_resource]
  by_cases hi : inst ≤ 0
  · rw [if_pos hi]; exact ⟨⟨hA1, hA2, hA3⟩, hE⟩
  rw [if_neg hi]
  rcases hf : (List.range MAX_RESOURCES).find? (fun i => !(g.resources i).active)
    with _ | slot
  · exact ⟨⟨hA1, hA2, hA3⟩, hE⟩
  obtain ⟨hslt, hsact⟩ := find?_range_lt hf
  have hinact : (g.resources slot).active = false := by simpa using hsact
  dsimp only
  refine ⟨⟨?_, ?_, ?_⟩, ?_⟩
  · intro p hp r hr
    dsimp only
    by_cases hrs : r = slot
    · rw [if_pos hrs]
    · rw [if_neg hrs]
      exact hA1 p hp r hr
  · intro r hr
    dsimp only
    by_cases hrs : r = slot
    · rw [if_pos hrs]
      dsimp only
      omega
    · rw [if_neg hrs]
      exact hA2 r hr
  · intro r hr
    dsimp only
    by_cases hrs : r = slot
    · rw [if_pos hrs]
      intro _
      dsimp only
      have hcol : Finset.sum (Finset.range MAX_PROCESSES)
          (fun p => if r = slot then 0 else g.assignment_matrix p r) = 0 := by
        rw [sum_range_congr (fun p _ => if_pos hrs)]
        simp
      unfold sumAssignments
      simp only
      rw [hcol]
      omega
    · rw [if_neg hrs]
      intro hact
      have hcol : Finset.sum (Finset.range MAX_PROCESSES)
          (fun p => if r = slot then 0 else g.assignment_matrix p r)
          = sumAssignments g r := by
        exact sum_range_congr (fun p _ => if_neg hrs)
      unfold sumAssignments
      simp only
      rw [hcol]
      exact hA3 r hr hact
  · intro p hp r hr
    dsimp only
    by_cases hrs : r = slot
    · rw [if_pos hrs, if_pos hrs, if_pos hrs]
      constructor <;> intro hpos <;> omega
    · rw [if_neg hrs, if_neg hrs, if_neg hrs]
      exact hE p hp r hr

theorem ragInv_remove_resource (g : RAG) (rid : Int) (h : RagInv g) :
    RagInv (rag_remove_resource g rid).2 := by
  obtain ⟨⟨hA1, hA2, hA3⟩, hE⟩ := h
  rw [rag_remove_resource]
  by_cases hb1 : rid < 0 ∨ (MAX_RESOURCES : Int) ≤ rid
  · rw [if_pos hb1]; exact ⟨⟨hA1, hA2, hA3⟩, hE⟩
  rw [if_neg hb1]
  by_cases hb2 : (g.resources rid.toNat).active = false
  · rw [if_pos (by simp [hb2])]; exact ⟨⟨hA1, hA2, hA3⟩, hE⟩
  rw [if_neg (by simp at hb2 ⊢; exact hb2)]
  by_cases hb3 : (List.range MAX_PROCESSES).any
      (fun p => decide (0 < g.assignment_matrix p rid.toNat)) = true
  · rw [if_pos hb3]; exact ⟨⟨hA1, hA2, hA3⟩, hE⟩
  rw [if_neg hb3]
  dsimp only
  refine ⟨⟨?_, ?_, ?_⟩, ?_⟩
  · intro p hp r hr
    exact hA1 p hp r hr
  · intro r hr
    dsimp only
    by_cases hrs : r = rid.toNat
    · rw [if_pos hrs]
      dsimp only
      exact hA2 r hr
    · rw [if_neg hrs]
      exact hA2 r hr
  · intro r hr
    dsimp only
    by_cases hrs : r = rid.toNat
    · rw [if_pos hrs]
      intro hact
      simp at hact
    · rw [if_neg hrs]
      intro hact
      exact hA3 r hr hact
  · intro p hp r hr
    dsimp only
    constructor
    · intro hpos
      by_cases hrs : r = rid.toNat
      · rw [if_pos ⟨hrs, hp⟩] at hpos
        omega
      · rw [if_neg (fun hand => hrs hand.1)] at hpos
        have := (hE p hp r hr).1 hpos
        rw [if_neg hrs]
        exact this
    · intro hpos
      by_cases hrs : r = rid.toNat
      · exfalso
        subst hrs
        simp only [List.any_eq_true, List.mem_range, decide_eq_true_eq] at hb3
        exact hb3 ⟨p, hp, hpos⟩
      · have := (hE p hp r hr).2 hpos
        rw [if_neg hrs]
        exact this

theorem ragInv_request (g : RAG) (pid rid : Int) (h : RagInv g) :
    RagInv (rag_request_resource g pid rid).2 := by
  obtain ⟨⟨hA1, hA2, hA3⟩, hE⟩ := h
  rw [rag_request_resource]
  rcases hP : rag_get_process g pid with _ | p
  · exact ⟨⟨hA1, hA2, hA3⟩, hE⟩
  rcases hR : rag_get_resource g rid with _ | res
  · exact ⟨⟨hA1, hA2, hA3⟩, hE⟩
  obtain ⟨hpb, hpact, _⟩ := rag_get_process_eq_some hP
  obtain ⟨hrb, hract, _⟩ := rag_get_resource_eq_some hR
  by_cases hc : 0 < g.request_matrix pid.toNat rid.toNat
  · rw [if_pos hc]; exact ⟨⟨hA1, hA2, hA3⟩, hE⟩
  rw [if_neg hc]
  dsimp only
  refine ⟨⟨?_, ?_, ?_⟩, ?_⟩
  · intro p1 hp r hr
    exact hA1 p1 hp r hr
  · intro r hr
    exact hA2 r hr
  · intro r hr hact
    exact hA3 r hr hact
  · intro p1 hp r hr
    dsimp only
    constructor
    · intro hpos
      have hacts : (g.processes p1).active = true ∧ (g.resources r).active = true := by
        by_cases hc2 : p1 = pid.toNat ∧ r = rid.toNat
        · rw [hc2.1, hc2.2]
          exact ⟨hpact, hract⟩
        · rw [if_neg hc2] at hpos
          exact (hE p1 hp r hr).1 hpos
      constructor
      · by_cases hp1 : p1 = pid.toNat
        · rw [if_pos hp1]
          exact hacts.1
        · rw [if_neg hp1]
          exact hacts.1
      · exact hacts.2
    · intro hpos
      have hacts := (hE p1 hp r hr).2 hpos
      constructor
      · by_cases hp1 : p1 = pid.toNat
        · rw [if_pos hp1]
          exact hacts.1
        · rw [if_neg hp1]
          exact hacts.1
      · exact hacts.2

theorem ragInv_cancel (g : RAG) (pid rid : Int) (h : RagInv g) :
    RagInv (rag_cancel_request g pid rid).2 := by
  obtain ⟨⟨hA1, hA2, hA3⟩, hE⟩ := h
  rw [rag_cancel_request]
  by_cases hb1 : pid < 0 ∨ (MAX_PROCESSES : Int) ≤ pid
  · rw [if_pos hb1]; exact ⟨⟨hA1, hA2, hA3⟩, hE⟩
  rw [if_neg hb1]
  by_cases hb2 : rid < 0 ∨ (MAX_RESOURCES : Int) ≤ rid
  · rw [if_pos hb2]; exact ⟨⟨hA1, hA2, hA3⟩, hE⟩
  rw [if_neg hb2]
  by_cases hb3 : g.request_matrix pid.toNat rid.toNat = 0
  · rw [if_pos hb3]; exact ⟨⟨hA1, hA2, hA3⟩, hE⟩
  rw [if_neg hb3]
  dsimp only
  have hcore : ∀ (procs : Nat → Process),
      (∀ i, (procs i).active = (g.processes i).active) →
      RagInv { g with
        request_matrix := fun q r =>
          if q = pid.toNat ∧ r = rid.toNat then 0 else g.request_matrix q r
        processes := procs } := by
    intro procs hpr
    refine ⟨⟨?_, ?_, ?_⟩, ?_⟩
    · intro p hp r hr; exact hA1 p hp r hr
    · intro r hr; exact hA2 r hr
    · intro r hr hact; exact hA3 r hr hact
    · intro p hp r hr
      dsimp only
      constructor
      · intro hpos
        by_cases hc2 : p = pid.toNat ∧ r = rid.toNat
        · rw [if_pos hc2] at hpos; omega
        · rw [if_neg hc2] at hpos
          have := (hE p hp r hr).1 hpos
          rw [hpr p]
          exact this
      · intro hpos
        have := (hE p hp r hr).2 hpos
        rw [hpr p]
        exact this
  split
  · exact hcore _ (by
      intro i
      by_cases hip : i = pid.toNat
      · rw [if_pos hip, hip]
      · rw [if_neg hip])
  · exact hcore _ (fun i => rfl)

theorem ragInv_set_state (g : RAG) (pid : Int) (st : ProcessState) (h : RagInv g) :
    RagInv (rag_set_process_state g pid st).2 := by
  obtain ⟨⟨hA1, hA2, hA3⟩, hE⟩ := h
  rw [rag_set_process_state]
  rcases hP : rag_get_process g pid with _ | p
  · exact ⟨⟨hA1, hA2, hA3⟩, hE⟩
  dsimp only
  refine ⟨⟨?_, ?_, ?_⟩, ?_⟩
  · intro p1 hp r hr; exact hA1 p1 hp r hr
  · intro r hr; exact hA2 r hr
  · intro r hr hact; exact hA3 r hr hact
  · intro p1 hp r hr
    dsimp only
    have hact : ∀ i, ((fun i => if i = pid.toNat then
        { g.processes i with state := st } else g.processes i) i).active
        = (g.processes i).active := by
      intro i
      by_cases hip : i = pid.toNat <;> simp [hip]
    constructor
    · intro hpos
      have := (hE p1 hp r hr).1 hpos
      rw [hact p1]
      exact this
    · intro hpos
      have := (hE p1 hp r hr).2 hpos
      rw [hact p1]
      exact this

theorem ragInv_allocate (g : RAG) (pid rid : Int) (h : RagInv g) :
    RagInv (rag_allocate_resource g pid rid).2 := by
  obtain ⟨⟨hA1, hA2, hA3⟩, hE⟩ := h
  rw [rag_allocate_resource]
  rcases hP : rag_get_process g pid with _ | p
  · exact ⟨⟨hA1, hA2, hA3⟩, hE⟩
  rcases hR : rag_get_resource g rid with _ | res
  · exact ⟨⟨hA1, hA2, hA3⟩, hE⟩
  obtain ⟨hpb, hpact, _⟩ := rag_get_process_eq_some hP
  obtain ⟨hrb, hract, hres⟩ := rag_get_resource_eq_some hR
  dsimp only
  by_cases h0 : res.available_instances ≤ 0
  · rw [if_pos h0]; exact ⟨⟨hA1, hA2, hA3⟩, hE⟩
  rw [if_neg h0]
  have hplt : pid.toNat < MAX_PROCESSES := by
    unfold MAX_PROCESSES at hpb ⊢; omega
  have hrlt : rid.toNat < MAX_RESOURCES := by
    unfold MAX_RESOURCES at hrb ⊢; omega
  have havail : 0 < (g.resources rid.toNat).available_instances := by
    rw [← hres]; omega
  have hcore : ∀ (procs : Nat → Process),
      (∀ i, (procs i).active = (g.processes i).active) →
      RagInv { g with
        request_matrix := fun q r =>
          if q = pid.toNat ∧ r = rid.toNat then 0 else g.request_matrix q r
        assignment_matrix := fun q r =>
          if q = pid.toNat ∧ r = rid.toNat then g.assignment_matrix q r + 1
          else g.assignment_matrix q r
        resources := fun r =>
          if r = rid.toNat then
            { g.resources r with
              available_instances := (g.resources r).available_instances - 1 }
          else g.resources r
        processes := procs } := by
    intro procs hpr
    refine ⟨⟨?_, ?_, ?_⟩, ?_⟩
    · intro p1 hp r hr
      dsimp only
      by_cases hc : p1 = pid.toNat ∧ r = rid.toNat
      · rw [if_pos hc]
        have := hA1 p1 hp r hr
        omega
      · rw [if_neg hc]
        exact hA1 p1 hp r hr
    · intro r hr
      dsimp only
      by_cases hrs : r = rid.toNat
      · rw [if_pos hrs]
        dsimp only
        rw [hrs]
        omega
      · rw [if_neg hrs]
        exact hA2 r hr
    · intro r hr
      dsimp only
      by_cases hrs : r = rid.toNat
      · rw [if_pos hrs]
        intro hact
        dsimp only at hact
        have hactg : (g.resources r).active = true := hact
        have hpt : ∀ q, (if q = pid.toNat ∧ r = rid.toNat
            then g.assignment_matrix q r + 1 else g.assignment_matrix q r)
            = (if q = pid.toNat then g.assignment_matrix q r + 1
               else g.assignment_matrix q r) := by
          intro q
          by_cases hq : q = pid.toNat <;> simp [hq, hrs]
        have hcol : Finset.sum (Finset.range MAX_PROCESSES)
            (fun q => if q = pid.toNat ∧ r = rid.toNat
              then g.assignment_matrix q r + 1 else g.assignment_matrix q r)
            = sumAssignments g r + 1 := by
          rw [Finset.sum_congr rfl (fun q _ => hpt q)]
          exact sum_range_update_add (fun q => g.assignment_matrix q r) pid.toNat 1 hplt
        unfold sumAssignments
        dsimp only
        rw [hcol]
        have := hA3 r hr hactg
        omega
      · rw [if_neg hrs]
        intro hact
        have hcol : Finset.sum (Finset.range MAX_PROCESSES)
            (fun q => if q = pid.toNat ∧ r = rid.toNat
              then g.assignment_matrix q r + 1 else g.assignment_matrix q r)
            = sumAssignments g r := by
          exact sum_range_congr (fun q _ => if_neg (fun hand => hrs hand.2))
        unfold sumAssignments
        dsimp only
        rw [hcol]
        exact hA3 r hr hact
    · intro p1 hp r hr
      dsimp only
      constructor
      · intro hpos
        have hold : 0 < g.request_matrix p1 r := by
          by_cases hc : p1 = pid.toNat ∧ r = rid.toNat
          · rw [if_pos hc] at hpos; omega
          · rwa [if_neg hc] at hpos
        have hacts := (hE p1 hp r hr).1 hold
        rw [hpr p1]
        refine ⟨hacts.1, ?_⟩
        by_cases hrs : r = rid.toNat
        · rw [if_pos hrs]
          dsimp only
          exact hacts.2
        · rw [if_neg hrs]
          exact hacts.2
      · intro hpos
        have hacts : (g.processes p1).active = true ∧ (g.resources r).active = true := by
          by_cases hc : p1 = pid.toNat ∧ r = rid.toNat
          · rw [hc.1, hc.2]
            exact ⟨hpact, hract⟩
          · rw [if_neg hc] at hpos
            exact (hE p1 hp r hr).2 hpos
        rw [hpr p1]
        refine ⟨hacts.1, ?_⟩
        by_cases hrs : r = rid.toNat
        · rw [if_pos hrs]
          dsimp only
          exact hacts.2
        · rw [if_neg hrs]
          exact hacts.2
  split
  · exact hcore _ (by
      intro i
      by_cases hip : i = pid.toNat <;> simp [hip])
  · exact hcore _ (fun i => rfl)

/-- Every public operation preserves the invariant bundle. -/
theorem ragInv_applyOp (g : RAG) (op : GraphOp) (h : RagInv g) :
    RagInv (applyOp g op) := by
  cases op with
  | addProcess name pri => exact ragInv_add_process g name pri h
  | removeProcess pid => exact ragInv_remove_process g pid h
  | addResource name inst => exact ragInv_add_resource g name inst h
  | removeResource rid => exact ragInv_remove_resource g rid h
  | request pid rid => exact ragInv_request g pid rid h
  | cancelRequest pid rid => exact ragInv_cancel g pid rid h
  | allocate pid rid => exact ragInv_allocate g pid rid h
  | release pid rid => exact ragInv_release g pid rid h
  | releaseAll pid => exact ragInv_release_all g pid h
  | setState pid st => exact ragInv_set_state g pid st h

/-- The invariant holds in every store reachable from `rag_init` by
public operations. -/
theorem ragInv_applyOps (ops : List GraphOp) : RagInv (applyOps ops) := by
  unfold applyOps
  induction ops using List.reverseRecOn with
  | nil => exact ragInv_init
  | append_singleton ops op ih =>
    rw [List.foldl_append, List.foldl_cons, List.foldl_nil]
    exact ragInv_applyOp _ op ih

/-- C1: after any sequence of public Graph Store operations (successful
or failed) from an initialized empty store, every active resource
satisfies `available + Σ_p assignment[p][r] = total` and
`0 ≤ available ≤ total`. -/
theorem C1_instance_accounting :
    ∀ (ops : List GraphOp) (r : Nat), r < MAX_RESOURCES →
      ((applyOps ops).resources r).active = true →
      ((applyOps ops).resources r).available_instances + sumAssignments (applyOps ops) r
          = ((applyOps ops).resources r).total_instances ∧
      0 ≤ ((applyOps ops).resources r).available_instances ∧
      ((applyOps ops).resources r).available_instances
        ≤ ((applyOps ops).resources r).total_instances := by
  intro ops r hr hact
  obtain ⟨⟨hA1, hA2, hA3⟩, hE⟩ := ragInv_applyOps ops
  refine ⟨hA3 r hr hact, hA2 r hr, ?_⟩
  have hsum : 0 ≤ sumAssignments (applyOps ops) r := by
    unfold sumAssignments
    apply Finset.sum_nonneg
    intro p hp
    exact hA1 p (Finset.mem_range.mp hp) r hr
  have := hA3 r hr hact
  omega

/-- C1 witness: a concrete operation sequence (create a 2-instance
resource, create a process, allocate one unit) satisfies the accounting
equation with available = 1 and total = 2. -/
theorem C1_instance_accounting_witness :
    (0 : Nat) < MAX_RESOURCES ∧
    ((applyOps [GraphOp.addResource "R" 2, GraphOp.addProcess "P" 5,
        GraphOp.allocate 0 0]).resources 0).active = true ∧
    (((applyOps [GraphOp.addResource "R" 2, GraphOp.addProcess "P" 5,
        GraphOp.allocate 0 0]).resources 0).available_instances
        + sumAssignments (applyOps [GraphOp.addResource "R" 2, GraphOp.addProcess "P" 5,
            GraphOp.allocate 0 0]) 0
        = ((applyOps [GraphOp.addResource "R" 2, GraphOp.addProcess "P" 5,
            GraphOp.allocate 0 0]).resources 0).total_instances ∧
     0 ≤ ((applyOps [GraphOp.addResource "R" 2, GraphOp.addProcess "P" 5,
            GraphOp.allocate 0 0]).resources 0).available_instances ∧
     ((applyOps [GraphOp.addResource "R" 2, GraphOp.addProcess "P" 5,
            GraphOp.allocate 0 0]).resources 0).available_instances
        ≤ ((applyOps [GraphOp.addResource "R" 2, GraphOp.addProcess "P" 5,
            GraphOp.allocate 0 0]).resources 0).total_instances) :=
  ⟨by decide, by with_unfolding_all rfl,
   C1_instance_accounting [GraphOp.addResource "R" 2, GraphOp.addProcess "P" 5,
      GraphOp.allocate 0 0] 0 (by decide) (by with_unfolding_all rfl)⟩

/-! ### List and relation helpers for the DFS proof -/

theorem pathFindIdx_some_spec {p : GraphNode → Bool} :
    ∀ {l : List GraphNode} {i : Nat}, pathFindIdx p l = some i →
      ∃ hi : i < l.length, p (l.get ⟨i, hi⟩) = true := by
  intro l
  induction l with
  | nil => intro i h; cases h
  | cons x xs ih =>
    intro i h
    rw [pathFindIdx] at h
    by_cases hx : p x = true
    · rw [if_pos hx] at h
      cases h
      exact ⟨by simp, hx⟩
    · rw [if_neg hx] at h
      rcases Option.map_eq_some'.mp h with ⟨j, hj, hji⟩
      rcases ih hj with ⟨hjl, hget⟩
      subst hji
      exact ⟨by simp; omega, by simpa using hget⟩

theorem pathFindIdx_isSome_of_mem {p : GraphNode → Bool} {a : GraphNode} :
    ∀ {l : List GraphNode}, a ∈ l → p a = true → (pathFindIdx p l).isSome := by
  intro l
  induction l with
  | nil => intro h; cases h
  | cons x xs ih =>
    intro hmem hpa
    rw [pathFindIdx]
    by_cases hx : p x = true
    · rw [if_pos hx]; rfl
    · rw [if_neg hx]
      rcases List.mem_cons.mp hmem with he | hm
      · subst he; exact absurd hpa hx
      · rcases Option.isSome_iff_exists.mp (ih hm hpa) with ⟨j, hj⟩
        rw [hj]
        rfl

theorem encodeNode_lt {g : RAG} {n : GraphNode} (h : nodeOK g n) :
    encodeNode n < MAX_CYCLE_LENGTH := by
  rcases n with ⟨i, t⟩
  cases t
  · show i < MAX_CYCLE_LENGTH
    have h1 : i < MAX_PROCESSES := h.1
    unfold MAX_CYCLE_LENGTH
    unfold MAX_PROCESSES at h1
    omega
  · show MAX_PROCESSES + i < MAX_CYCLE_LENGTH
    have h1 : i < MAX_RESOURCES := h.1
    unfold MAX_CYCLE_LENGTH MAX_PROCESSES
    unfold MAX_RESOURCES at h1
    omega

theorem encodeNode_inj {g : RAG} {n m : GraphNode}
    (hn : nodeOK g n) (hm : nodeOK g m) (he : encodeNode n = encodeNode m) : n = m := by
  rcases n with ⟨i, t⟩
  rcases m with ⟨j, u⟩
  cases t <;> cases u
  · have hij : i = j := he
    rw [hij]
  · exfalso
    have h1 : i < MAX_PROCESSES := hn.1
    have h2 : i = MAX_PROCESSES + j := he
    omega
  · exfalso
    have h1 : j < MAX_PROCESSES := hm.1
    have h2 : MAX_PROCESSES + i = j := he
    omega
  · have h2 : MAX_PROCESSES + i = MAX_PROCESSES + j := he
    have hij : i = j := by omega
    rw [hij]

theorem path_length_lt_of_not_mem {g : RAG} {path : List GraphNode} {m : GraphNode}
    (hnd : path.Nodup) (hok : ∀ n ∈ path, nodeOK g n)
    (hm : nodeOK g m) (hnm : m ∉ path) : path.length < MAX_CYCLE_LENGTH := by
  have hmapnd : (path.map encodeNode).Nodup :=
    hnd.map_on (fun a ha b hb he => encodeNode_inj (hok a ha) (hok b hb) he)
  have hsub : (path.map encodeNode).toFinset ⊆ Finset.range MAX_CYCLE_LENGTH := by
    intro x hx
    rw [List.mem_toFinset] at hx
    rcases List.mem_map.mp hx with ⟨n, hn, he⟩
    rw [Finset.mem_range, ← he]
    exact encodeNode_lt (hok n hn)
  have hcard : (path.map encodeNode).toFinset.card = path.length := by
    rw [List.toFinset_card_of_nodup hmapnd, List.length_map]
  have hle : path.length ≤ MAX_CYCLE_LENGTH := by
    have := Finset.card_le_card hsub
    rw [hcard] at this
    simpa using this
  rcases Nat.lt_or_ge path.length MAX_CYCLE_LENGTH with hlt | hge
  · exact hlt
  · exfalso
    have heq : path.length = MAX_CYCLE_LENGTH := by omega
    have hfeq : (path.map encodeNode).toFinset = Finset.range MAX_CYCLE_LENGTH := by
      apply Finset.eq_of_subset_of_card_le hsub
      rw [hcard, heq]
      simp
    have hmem : encodeNode m ∈ (path.map encodeNode).toFinset := by
      rw [hfeq, Finset.mem_range]
      exact encodeNode_lt hm
    rw [List.mem_toFinset] at hmem
    rcases List.mem_map.mp hmem with ⟨n, hn, he⟩
    exact hnm (encodeNode_inj (hok n hn) hm he ▸ hn)

theorem chain_head_last_rtg {e : GraphNode → GraphNode → Prop} :
    ∀ {l : List GraphNode}, List.Chain' e l → ∀ {a b : GraphNode},
      l.head? = some a → l.getLast? = some b → Relation.ReflTransGen e a b := by
  intro l
  induction l with
  | nil => intro _ a b h; cases h
  | cons x xs ih =>
    intro hc a b ha hb
    cases ha
    cases xs with
    | nil =>
      cases hb
      exact Relation.ReflTransGen.refl
    | cons y ys =>
      have hxy : e x y := (List.chain'_cons.mp hc).1
      have hc2 : List.Chain' e (y :: ys) := (List.chain'_cons.mp hc).2
      have hb2 : (y :: ys).getLast? = some b := by
        rwa [List.getLast?_cons_cons] at hb
      exact Relation.ReflTransGen.head hxy (ih hc2 rfl hb2)

theorem black_of_reflTransGen {g : RAG} {s : DFSState}
    (hcl : ∀ n m, colorOf s n = NodeColor.black → bipE g n m →
      colorOf s m = NodeColor.black)
    {a b : GraphNode} (hr : Relation.ReflTransGen (bipE g) a b)
    (hb : colorOf s a = NodeColor.black) : colorOf s b = NodeColor.black := by
  induction hr with
  | refl => exact hb
  | tail _ he ih => exact hcl _ _ ih he

theorem rowHasRequest_of_pos {g : RAG} {p r : Nat}
    (hr : r < MAX_RESOURCES) (hpos : 0 < g.request_matrix p r) :
    rowHasRequest g.request_matrix p = true := by
  unfold rowHasRequest
  rw [List.any_eq_true]
  exact ⟨r, List.mem_range.mpr hr, by simpa using hpos⟩

/-- Every closed bipartite walk passes through a process node with an
outgoing request edge. -/
theorem hasBipCycle_process_form {g : RAG} (h : hasBipCycle g) :
    ∃ p : Nat, p < MAX_PROCESSES ∧ (g.processes p).active = true ∧
      rowHasRequest g.request_matrix p = true ∧
      Relation.TransGen (bipE g)
        { id := p, type := NodeType.process } { id := p, type := NodeType.process } := by
  rcases h with ⟨v, hv⟩
  have hproc : ∃ w : GraphNode, w.type = NodeType.process ∧
      Relation.TransGen (bipE g) w w := by
    rcases v with ⟨i, t⟩
    cases t with
    | process => exact ⟨⟨i, NodeType.process⟩, rfl, hv⟩
    | resource =>
      rcases (Relation.TransGen.head'_iff).mp hv with ⟨w, hew, hrw⟩
      refine ⟨w, ?_, Relation.TransGen.tail' hrw hew⟩
      rcases w with ⟨j, u⟩
      cases u
      · rfl
      · exact absurd hew (by unfold bipE; simp)
  rcases hproc with ⟨w, hwt, hww⟩
  rcases w with ⟨p, _⟩
  simp only at hwt
  subst hwt
  rcases (Relation.TransGen.head'_iff).mp hww with ⟨c, hec, _⟩
  have hbe := hec
  unfold bipE at hbe
  rcases c with ⟨r, u⟩
  cases u
  · simp at hbe
  · simp only at hbe
    exact ⟨p, hbe.1, hbe.2.2.1,
      rowHasRequest_of_pos hbe.2.1 hbe.2.2.2.2, hww⟩

/-! ### Color evolution lemmas -/

theorem colorEvolve_refl (s : DFSState) : colorEvolve s s :=
  ⟨fun p => Or.inl rfl, fun r => Or.inl rfl⟩

theorem colorEvolve_trans {s1 s2 s3 : DFSState}
    (h12 : colorEvolve s1 s2) (h23 : colorEvolve s2 s3) : colorEvolve s1 s3 := by
  constructor
  · intro p
    rcases h23.1 p with h | ⟨hw, hb⟩
    · rcases h12.1 p with h2 | ⟨hw2, hb2⟩
      · exact Or.inl (h.trans h2)
      · exact Or.inr ⟨hw2, h ▸ hb2⟩
    · rcases h12.1 p with h2 | ⟨hw2, hb2⟩
      · exact Or.inr ⟨h2 ▸ hw, hb⟩
      · rw [hb2] at hw
        cases hw
  · intro r
    rcases h23.2 r with h | ⟨hw, hb⟩
    · rcases h12.2 r with h2 | ⟨hw2, hb2⟩
      · exact Or.inl (h.trans h2)
      · exact Or.inr ⟨hw2, h ▸ hb2⟩
    · rcases h12.2 r with h2 | ⟨hw2, hb2⟩
      · exact Or.inr ⟨h2 ▸ hw, hb⟩
      · rw [hb2] at hw
        cases hw

theorem colorEvolve_black_proc {s1 s2 : DFSState} (h : colorEvolve s1 s2) {p : Nat}
    (hb : s1.process_colors p = NodeColor.black) :
    s2.process_colors p = NodeColor.black := by
  rcases h.1 p with h2 | ⟨hw, hb2⟩
  · rw [h2, hb]
  · exact hb2

theorem colorEvolve_black_res {s1 s2 : DFSState} (h : colorEvolve s1 s2) {r : Nat}
    (hb : s1.resource_colors r = NodeColor.black) :
    s2.resource_colors r = NodeColor.black := by
  rcases h.2 r with h2 | ⟨hw, hb2⟩
  · rw [h2, hb]
  · exact hb2

theorem colorEvolve_gray_proc {s1 s2 : DFSState} (h : colorEvolve s1 s2) (p : Nat) :
    s2.process_colors p = NodeColor.gray ↔ s1.process_colors p = NodeColor.gray := by
  rcases h.1 p with h2 | ⟨hw, hb2⟩
  · rw [h2]
  · rw [hw, hb2]
    constructor <;> intro hx <;> cases hx

theorem colorEvolve_gray_res {s1 s2 : DFSState} (h : colorEvolve s1 s2) (r : Nat) :
    s2.resource_colors r = NodeColor.gray ↔ s1.resource_colors r = NodeColor.gray := by
  rcases h.2 r with h2 | ⟨hw, hb2⟩
  · rw [h2]
  · rw [hw, hb2]
    constructor <;> intro hx <;> cases hx

theorem colorEvolve_white_back {s1 s2 : DFSState} (h : colorEvolve s1 s2) {p : Nat}
    (hw : s2.process_colors p = NodeColor.white) :
    s1.process_colors p = NodeColor.white := by
  rcases h.1 p with h2 | ⟨hw2, hb2⟩
  · rw [← h2, hw]
  · exact hw2

theorem colorEvolve_white_back_res {s1 s2 : DFSState} (h : colorEvolve s1 s2) {r : Nat}
    (hw : s2.resource_colors r = NodeColor.white) :
    s1.resource_colors r = NodeColor.white := by
  rcases h.2 r with h2 | ⟨hw2, hb2⟩
  · rw [← h2, hw]
  · exact hw2

theorem whiteCount_mono {s1 s2 : DFSState} (h : colorEvolve s1 s2) :
    whiteCount s2 ≤ whiteCount s1 := by
  unfold whiteCount
  have h1 : (Finset.range MAX_PROCESSES).filter
      (fun p => s2.process_colors p = NodeColor.white)
      ⊆ (Finset.range MAX_PROCESSES).filter
      (fun p => s1.process_colors p = NodeColor.white) := by
    intro p hp
    rw [Finset.mem_filter] at hp ⊢
    exact ⟨hp.1, colorEvolve_white_back h hp.2⟩
  have h2 : (Finset.range MAX_RESOURCES).filter
      (fun r => s2.resource_colors r = NodeColor.white)
      ⊆ (Finset.range MAX_RESOURCES).filter
      (fun r => s1.resource_colors r = NodeColor.white) := by
    intro r hr
    rw [Finset.mem_filter] at hr ⊢
    exact ⟨hr.1, colorEvolve_white_back_res h hr.2⟩
  exact Nat.add_le_add (Finset.card_le_card h1) (Finset.card_le_card h2)

/-- Graying a white process decreases the white count by exactly one. -/
theorem whiteCount_gray_proc (s : DFSState) (pid : Nat) (hp : pid < MAX_PROCESSES)
    (hw : s.process_colors pid = NodeColor.white) (newpath : List GraphNode) :
    whiteCount { s with
        process_colors := fun j => if j = pid then NodeColor.gray else s.process_colors j,
        path := newpath }
      + 1 = whiteCount s := by
  unfold whiteCount
  simp only
  have hfil : (Finset.range MAX_PROCESSES).filter
      (fun p => (if p = pid then NodeColor.gray else s.process_colors p) = NodeColor.white)
      = ((Finset.range MAX_PROCESSES).filter
          (fun p => s.process_colors p = NodeColor.white)).erase pid := by
    ext p
    rw [Finset.mem_filter, Finset.mem_erase, Finset.mem_filter]
    by_cases hpp : p = pid
    · subst hpp
      simp
    · rw [if_neg hpp]
      constructor
      · intro ⟨ha, hb⟩; exact ⟨hpp, ha, hb⟩
      · intro ⟨_, ha, hb⟩; exact ⟨ha, hb⟩
  rw [hfil]
  have hmem : pid ∈ (Finset.range MAX_PROCESSES).filter
      (fun p => s.process_colors p = NodeColor.white) :=
    Finset.mem_filter.mpr ⟨Finset.mem_range.mpr hp, hw⟩
  rw [Finset.card_erase_of_mem hmem]
  have hpos : 0 < ((Finset.range MAX_PROCESSES).filter
      (fun p => s.process_colors p = NodeColor.white)).card :=
    Finset.card_pos.mpr ⟨pid, hmem⟩
  omega

/-- Graying a white resource decreases the white count by exactly one. -/
theorem whiteCount_gray_res (s : DFSState) (rid : Nat) (hr : rid < MAX_RESOURCES)
    (hw : s.resource_colors rid = NodeColor.white) (newpath : List GraphNode) :
    whiteCount { s with
        resource_colors := fun j => if j = rid then NodeColor.gray else s.resource_colors j,
        path := newpath }
      + 1 = whiteCount s := by
  unfold whiteCount
  have hfil : (Finset.range MAX_RESOURCES).filter
      (fun r => (if r = rid then NodeColor.gray else s.resource_colors r) = NodeColor.white)
      = ((Finset.range MAX_RESOURCES).filter
          (fun r => s.resource_colors r = NodeColor.white)).erase rid := by
    ext r
    rw [Finset.mem_filter, Finset.mem_erase, Finset.mem_filter]
    by_cases hrr : r = rid
    · subst hrr
      simp
    · rw [if_neg hrr]
      constructor
      · intro ⟨ha, hb⟩; exact ⟨hrr, ha, hb⟩
      · intro ⟨_, ha, hb⟩; exact ⟨ha, hb⟩
  simp only [hfil]
  have hmem : rid ∈ (Finset.range MAX_RESOURCES).filter
      (fun r => s.resource_colors r = NodeColor.white) :=
    Finset.mem_filter.mpr ⟨Finset.mem_range.mpr hr, hw⟩
  rw [Finset.card_erase_of_mem hmem]
  have hpos : 0 < ((Finset.range MAX_RESOURCES).filter
      (fun r => s.resource_colors r = NodeColor.white)).card :=
    Finset.card_pos.mpr ⟨rid, hmem⟩
  omega

theorem visitResources_step (g : RAG) (f : Nat) (hR : dfsVisitResourceSpec g f) :
    visitResourcesSpec g f := by
  intro s pid l
  induction l generalizing s with
  | nil =>
    intro hInv hcf hplt hact hgray hlast hwf
    rw [visit_requested_resources]
    refine ⟨fun h => Bool.noConfusion h, fun _ => ?_⟩
    exact ⟨⟨hInv, hcf, rfl, colorEvolve_refl s⟩, fun r hr => absurd hr (List.not_mem_nil r)⟩
  | cons r0 rs ih =>
    intro hInv hcf hplt hact hgray hlast hwf
    rw [visit_requested_resources]
    by_cases hreq : 0 < g.request_matrix pid r0
    · rw [if_pos hreq]
      have hedge : edgeToNode g s.path { id := r0, type := NodeType.resource } := by
        intro hok lnode hlnode
        rw [hlast] at hlnode
        cases hlnode
        exact ⟨hplt, hok.1, hact, hok.2, hreq⟩
      have hchild := hR s r0 hInv hcf hedge hwf
      rcases hres : dfs_visit_resource g f s r0 with ⟨b, s2⟩
      rw [hres] at hchild
      cases b
      · obtain ⟨hpost, hblack⟩ := hchild.2 rfl
        obtain ⟨hInv2, hcf2, hpath2, hev2⟩ := hpost
        have hrest := ih s2 hInv2 hcf2 hplt hact
          ((colorEvolve_gray_proc hev2 pid).mpr hgray)
          (by rw [hpath2]; exact hlast)
          (Nat.lt_of_le_of_lt (whiteCount_mono hev2) hwf)
        refine ⟨hrest.1, fun hfal => ?_⟩
        obtain ⟨⟨hInv3, hcf3, hpath3, hev3⟩, hblack3⟩ := hrest.2 hfal
        refine ⟨⟨hInv3, hcf3, by rw [hpath3, hpath2], colorEvolve_trans hev2 hev3⟩, ?_⟩
        intro r hr hrq hrlt hract
        rcases List.mem_cons.mp hr with he | hm
        · subst he
          exact colorEvolve_black_res hev3 (hblack hrlt hract)
        · exact hblack3 r hm hrq hrlt hract
      · refine ⟨fun _ => hchild.1 rfl, fun hfal => ?_⟩
        exact Bool.noConfusion hfal
    · rw [if_neg hreq]
      have hrest := ih s hInv hcf hplt hact hgray hlast hwf
      refine ⟨hrest.1, fun hfal => ?_⟩
      obtain ⟨hpost3, hblack3⟩ := hrest.2 hfal
      refine ⟨hpost3, ?_⟩
      intro r hr hrq hrlt hract
      rcases List.mem_cons.mp hr with he | hm
      · subst he
        exact absurd hrq hreq
      · exact hblack3 r hm hrq hrlt hract

theorem visitProcesses_step (g : RAG) (f : Nat) (hP : dfsVisitProcessSpec g f) :
    visitProcessesSpec g f := by
  intro s rid l
  induction l generalizing s with
  | nil =>
    intro hInv hcf hrlt hact hgray hlast hwf
    rw [visit_holding_processes]
    refine ⟨fun h => Bool.noConfusion h, fun _ => ?_⟩
    exact ⟨⟨hInv, hcf, rfl, colorEvolve_refl s⟩, fun p hp => absurd hp (List.not_mem_nil p)⟩
  | cons p0 ps ih =>
    intro hInv hcf hrlt hact hgray hlast hwf
    rw [visit_holding_processes]
    by_cases hasg : 0 < g.assignment_matrix p0 rid
    · rw [if_pos hasg]
      have hedge : edgeToNode g s.path { id := p0, type := NodeType.process } := by
        intro hok lnode hlnode
        rw [hlast] at hlnode
        cases hlnode
        exact ⟨hrlt, hok.1, hact, hok.2, hasg⟩
      have hchild := hP s p0 hInv hcf hedge hwf
      rcases hres : dfs_visit_process g f s p0 with ⟨b, s2⟩
      rw [hres] at hchild
      cases b
      · obtain ⟨hpost, hblack⟩ := hchild.2 rfl
        obtain ⟨hInv2, hcf2, hpath2, hev2⟩ := hpost
        have hrest := ih s2 hInv2 hcf2 hrlt hact
          ((colorEvolve_gray_res hev2 rid).mpr hgray)
          (by rw [hpath2]; exact hlast)
          (Nat.lt_of_le_of_lt (whiteCount_mono hev2) hwf)
        refine ⟨hrest.1, fun hfal => ?_⟩
        obtain ⟨⟨hInv3, hcf3, hpath3, hev3⟩, hblack3⟩ := hrest.2 hfal
        refine ⟨⟨hInv3, hcf3, by rw [hpath3, hpath2], colorEvolve_trans hev2 hev3⟩, ?_⟩
        intro p hp hpq hplt hpact
        rcases List.mem_cons.mp hp with he | hm
        · subst he
          exact colorEvolve_black_proc hev3 (hblack hplt hpact)
        · exact hblack3 p hm hpq hplt hpact
      · refine ⟨fun _ => hchild.1 rfl, fun hfal => ?_⟩
        exact Bool.noConfusion hfal
    · rw [if_neg hasg]
      have hrest := ih s hInv hcf hrlt hact hgray hlast hwf
      refine ⟨hrest.1, fun hfal => ?_⟩
      obtain ⟨hpost3, hblack3⟩ := hrest.2 hfal
      refine ⟨hpost3, ?_⟩
      intro p hp hpq hplt hpact
      rcases List.mem_cons.mp hp with he | hm
      · subst he
        exact absurd hpq hasg
      · exact hblack3 p hm hpq hplt hpact

/-! ### Small structural lemmas about bipE and list suffixes -/

theorem bipE_from_proc {g : RAG} {pid : Nat} {m : GraphNode}
    (h : bipE g { id := pid, type := NodeType.process } m) :
    m.type = NodeType.resource ∧ pid < MAX_PROCESSES ∧ m.id < MAX_RESOURCES ∧
      (g.processes pid).active = true ∧ (g.resources m.id).active = true ∧
      0 < g.request_matrix pid m.id := by
  rcases m with ⟨i, u⟩
  cases u
  · exact absurd h (by unfold bipE; simp)
  · obtain ⟨h1, h2, h3, h4, h5⟩ := h
    exact ⟨rfl, h1, h2, h3, h4, h5⟩

theorem bipE_from_res {g : RAG} {rid : Nat} {m : GraphNode}
    (h : bipE g { id := rid, type := NodeType.resource } m) :
    m.type = NodeType.process ∧ rid < MAX_RESOURCES ∧ m.id < MAX_PROCESSES ∧
      (g.resources rid).active = true ∧ (g.processes m.id).active = true ∧
      0 < g.assignment_matrix m.id rid := by
  rcases m with ⟨i, u⟩
  cases u
  · obtain ⟨h1, h2, h3, h4, h5⟩ := h
    exact ⟨rfl, h1, h2, h3, h4, h5⟩
  · exact absurd h (by unfold bipE; simp)

theorem chain_drop {e : GraphNode → GraphNode → Prop} :
    ∀ (i : Nat) {l : List GraphNode}, List.Chain' e l → List.Chain' e (l.drop i)
  | 0, _, h => h
  | _ + 1, [], _ => trivial
  | i + 1, _ :: xs, h => chain_drop i h.tail

theorem head?_drop {α : Type} : ∀ (i : Nat) (l : List α), (l.drop i).head? = l.get? i
  | 0, [] => rfl
  | 0, _ :: _ => rfl
  | _ + 1, [] => rfl
  | i + 1, _ :: xs => head?_drop i xs

theorem getLast?_drop_of_lt {α : Type} :
    ∀ (i : Nat) (l : List α), i < l.length → (l.drop i).getLast? = l.getLast?
  | 0, _, _ => rfl
  | i + 1, [], h => absurd h (by simp)
  | i + 1, x :: xs, h => by
    rw [List.drop_succ_cons]
    rw [getLast?_drop_of_lt i xs (by simpa using h)]
    cases xs with
    | nil => simp at h
    | cons y ys => rw [List.getLast?_cons_cons]

/-- A gray node found on the path closes a cycle: the path suffix from its
first occurrence, plus the back edge, is a closed walk. -/
theorem hasBipCycle_of_path_revisit {g : RAG} {path : List GraphNode} {nd : GraphNode}
    {i : Nat} (hch : List.Chain' (bipE g) path) (hi : i < path.length)
    (hget : path.get ⟨i, hi⟩ = nd) (hok : nodeOK g nd)
    (hedge : edgeToNode g path nd) : hasBipCycle g := by
  have hchd : List.Chain' (bipE g) (path.drop i) := chain_drop i hch
  have hhead : (path.drop i).head? = some nd := by
    rw [head?_drop i path, List.get?_eq_get hi, hget]
  obtain ⟨b, hb⟩ : ∃ b, path.getLast? = some b := by
    cases hp : path with
    | nil => subst hp; simp at hi
    | cons x xs =>
      exact ⟨(x :: xs).getLast (by simp), List.getLast?_eq_getLast _ _⟩
  have hlastd : (path.drop i).getLast? = some b := by
    rw [getLast?_drop_of_lt i path hi]
    exact hb
  have hrtg := chain_head_last_rtg hchd hhead hlastd
  exact ⟨nd, Relation.TransGen.tail' hrtg (hedge hok b hb)⟩

/-- Pushing a fresh white process node keeps the DFS invariant. -/
theorem dfs_push_proc_inv {g : RAG} {s : DFSState} {pid : Nat}
    (hInv : DFSInv g s) (hplt : pid < MAX_PROCESSES)
    (hact : (g.processes pid).active = true)
    (hwhite : s.process_colors pid = NodeColor.white)
    (hedge : edgeToNode g s.path { id := pid, type := NodeType.process })
    (hnmem : ({ id := pid, type := NodeType.process } : GraphNode) ∉ s.path) :
    DFSInv g { s with
      process_colors := fun j => if j = pid then NodeColor.gray else s.process_colors j,
      path := s.path ++ [{ id := pid, type := NodeType.process }] } := by
  obtain ⟨h1, h2, h3, h4, h5, h6, h7⟩ := hInv
  have hcol : ∀ x, colorOf { s with
      process_colors := fun j => if j = pid then NodeColor.gray else s.process_colors j,
      path := s.path ++ [{ id := pid, type := NodeType.process }] } x = NodeColor.black
      ↔ colorOf s x = NodeColor.black := by
    intro x
    rcases x with ⟨j, u⟩
    cases u
    · show (if j = pid then NodeColor.gray else s.process_colors j) = NodeColor.black
        ↔ s.process_colors j = NodeColor.black
      by_cases hj : j = pid
      · subst hj
        rw [if_pos rfl, hwhite]
        constructor
        · intro h; exact NodeColor.noConfusion h
        · intro h; exact NodeColor.noConfusion h
      · rw [if_neg hj]
    · exact Iff.rfl
  refine ⟨?_, ?_, ?_, ?_, ?_, ?_, ?_⟩
  · show List.Chain' (bipE g) (s.path ++ [{ id := pid, type := NodeType.process }])
    rw [List.chain'_append]
    refine ⟨h1, List.chain'_singleton _, ?_⟩
    intro x hx y hy
    have hy' : ({ id := pid, type := NodeType.process } : GraphNode) = y := by
      simpa using hy
    subst hy'
    exact hedge ⟨hplt, hact⟩ x (by simpa using hx)
  · show List.Nodup (s.path ++ [({ id := pid, type := NodeType.process } : GraphNode)])
    rw [List.nodup_append]
    refine ⟨h2, List.nodup_singleton _, ?_⟩
    intro a ha hb
    have ha' : a = { id := pid, type := NodeType.process } := by simpa using hb
    subst ha'
    exact hnmem ha
  · intro n hn
    have hn' : n ∈ s.path ++ [{ id := pid, type := NodeType.process }] := hn
    rcases List.mem_append.mp hn' with hm | hm
    · obtain ⟨hok, hgr⟩ := h3 n hm
      refine ⟨hok, ?_⟩
      rcases n with ⟨j, u⟩
      cases u
      · have hjne : j ≠ pid := by
          intro hj
          subst hj
          exact hnmem hm
        show (if j = pid then NodeColor.gray else s.process_colors j) = NodeColor.gray
        rw [if_neg hjne]
        exact hgr
      · show s.resource_colors j = NodeColor.gray
        exact hgr
    · have hn2 : n = { id := pid, type := NodeType.process } := by simpa using hm
      subst hn2
      refine ⟨⟨hplt, hact⟩, ?_⟩
      show (if pid = pid then NodeColor.gray else s.process_colors pid) = NodeColor.gray
      rw [if_pos rfl]
  · intro p hp hgp
    have hgp' : (if p = pid then NodeColor.gray else s.process_colors p)
        = NodeColor.gray := hgp
    show _ ∈ s.path ++ [{ id := pid, type := NodeType.process }]
    by_cases hpe : p = pid
    · subst hpe
      exact List.mem_append.mpr (Or.inr (by simp))
    · rw [if_neg hpe] at hgp'
      exact List.mem_append.mpr (Or.inl (h4 p hp hgp'))
  · intro r hr hgr
    have hgr' : s.resource_colors r = NodeColor.gray := hgr
    show _ ∈ s.path ++ [{ id := pid, type := NodeType.process }]
    exact List.mem_append.mpr (Or.inl (h5 r hr hgr'))
  · intro n m hbn he
    exact (hcol m).mpr (h6 n m ((hcol n).mp hbn) he)
  · intro n hbn
    exact h7 n ((hcol n).mp hbn)

/-- Popping the process node and blackening it restores the DFS invariant,
provided all its requested-resource successors are black. -/
theorem dfs_pop_proc_inv {g : RAG} {s s2 : DFSState} {pid : Nat}
    (hnmem : ({ id := pid, type := NodeType.process } : GraphNode) ∉ s.path)
    (hInv2 : DFSInv g s2)
    (hpath2 : s2.path = s.path ++ [{ id := pid, type := NodeType.process }])
    (hgray2 : s2.process_colors pid = NodeColor.gray)
    (hsucc : ∀ r, r < MAX_RESOURCES → (g.resources r).active = true →
      0 < g.request_matrix pid r → s2.resource_colors r = NodeColor.black) :
    DFSInv g { s2 with
      path := s2.path.dropLast,
      process_colors := fun j => if j = pid then NodeColor.black
        else s2.process_colors j }
    ∧ s2.path.dropLast = s.path := by
  obtain ⟨h1, h2, h3, h4, h5, h6, h7⟩ := hInv2
  have hdrop : s2.path.dropLast = s.path := by
    rw [hpath2]
    exact List.dropLast_concat
  have hcol23 : ∀ x, colorOf s2 x = NodeColor.black →
      colorOf { s2 with
        path := s2.path.dropLast,
        process_colors := fun j => if j = pid then NodeColor.black
          else s2.process_colors j } x = NodeColor.black := by
    intro x hx
    rcases x with ⟨j, u⟩
    cases u
    · show (if j = pid then NodeColor.black else s2.process_colors j) = NodeColor.black
      by_cases hj : j = pid
      · rw [if_pos hj]
      · rw [if_neg hj]
        exact hx
    · exact hx
  refine ⟨⟨?_, ?_, ?_, ?_, ?_, ?_, ?_⟩, hdrop⟩
  · show List.Chain' (bipE g) s2.path.dropLast
    rw [hdrop]
    have hc := h1
    rw [hpath2] at hc
    exact (List.chain'_append.mp hc).1
  · show s2.path.dropLast.Nodup
    rw [hdrop]
    have hc := h2
    rw [hpath2] at hc
    exact (List.nodup_append.mp hc).1
  · intro n hn
    have hn' : n ∈ s2.path.dropLast := hn
    rw [hdrop] at hn'
    have hn2 : n ∈ s2.path := by
      rw [hpath2]
      exact List.mem_append.mpr (Or.inl hn')
    obtain ⟨hok, hgr⟩ := h3 n hn2
    refine ⟨hok, ?_⟩
    rcases n with ⟨j, u⟩
    cases u
    · have hjne : j ≠ pid := by
        intro hj
        subst hj
        exact hnmem hn'
      show (if j = pid then NodeColor.black else s2.process_colors j) = NodeColor.gray
      rw [if_neg hjne]
      exact hgr
    · show s2.resource_colors j = NodeColor.gray
      exact hgr
  · intro p hp hgp
    have hgp' : (if p = pid then NodeColor.black else s2.process_colors p)
        = NodeColor.gray := hgp
    show _ ∈ s2.path.dropLast
    rw [hdrop]
    by_cases hpe : p = pid
    · rw [if_pos hpe] at hgp'
      exact absurd hgp' (fun h => NodeColor.noConfusion h)
    · rw [if_neg hpe] at hgp'
      have hmem2 := h4 p hp hgp'
      rw [hpath2] at hmem2
      rcases List.mem_append.mp hmem2 with hm | hm
      · exact hm
      · exfalso
        have he : ({ id := p, type := NodeType.process } : GraphNode)
            = { id := pid, type := NodeType.process } := by simpa using hm
        exact hpe (congrArg GraphNode.id he)
  · intro r hr hgr
    have hgr' : s2.resource_colors r = NodeColor.gray := hgr
    show _ ∈ s2.path.dropLast
    rw [hdrop]
    have hmem2 := h5 r hr hgr'
    rw [hpath2] at hmem2
    rcases List.mem_append.mp hmem2 with hm | hm
    · exact hm
    · exfalso
      have he : ({ id := r, type := NodeType.resource } : GraphNode)
          = { id := pid, type := NodeType.process } := by simpa using hm
      exact NodeType.noConfusion (congrArg GraphNode.type he)
  · intro n m hbn he
    rcases n with ⟨j, u⟩
    cases u
    · by_cases hj : j = pid
      · rw [hj] at he
        obtain ⟨hmt, _, hmlt, _, hmact, hmreq⟩ := bipE_from_proc he
        rcases m with ⟨r, w⟩
        cases w
        · exact NodeType.noConfusion hmt
        · exact hcol23 ⟨r, NodeType.resource⟩ (hsucc r hmlt hmact hmreq)
      · have hbn' : s2.process_colors j = NodeColor.black := by
          have hb2 : (if j = pid then NodeColor.black else s2.process_colors j)
              = NodeColor.black := hbn
          rwa [if_neg hj] at hb2
        exact hcol23 m (h6 ⟨j, NodeType.process⟩ m hbn' he)
    · have hbn' : s2.resource_colors j = NodeColor.black := hbn
      exact hcol23 m (h6 ⟨j, NodeType.resource⟩ m hbn' he)
  · intro n hbn hcyc
    rcases n with ⟨j, u⟩
    cases u
    · by_cases hj : j = pid
      · rw [hj] at hcyc
        rcases (Relation.TransGen.head'_iff).mp hcyc with ⟨c, hec, hrtg⟩
        obtain ⟨hct, _, hclt, _, hcact, hcreq⟩ := bipE_from_proc hec
        rcases c with ⟨r, w⟩
        cases w
        · exact NodeType.noConfusion hct
        · have hcb : colorOf s2 ⟨r, NodeType.resource⟩ = NodeColor.black :=
            hsucc r hclt hcact hcreq
          have hfin : s2.process_colors pid = NodeColor.black :=
            black_of_reflTransGen h6 hrtg hcb
          rw [hgray2] at hfin
          exact NodeColor.noConfusion hfin
      · have hbn' : s2.process_colors j = NodeColor.black := by
          have hb2 : (if j = pid then NodeColor.black else s2.process_colors j)
              = NodeColor.black := hbn
          rwa [if_neg hj] at hb2
        exact h7 ⟨j, NodeType.process⟩ hbn' hcyc
    · exact h7 ⟨j, NodeType.resource⟩ hbn hcyc

/-- One unfolding of `dfs_visit_process` is correct, given the correctness
of the successor loop at the next lower fuel. -/
theorem dfsProcess_step (g : RAG) (f : Nat) (hLoop : visitResourcesSpec g f) :
    dfsVisitProcessSpec g (Nat.succ f) := by
  intro s pid hInv hcf hedge hwf
  have hInv0 := hInv
  obtain ⟨hI1, hI2, hI3, hI4, hI5, hI6, hI7⟩ := hInv
  rw [dfs_visit_process]
  rw [if_neg (show ¬(s.cycle_found = true) by simp [hcf])]
  by_cases hpb : MAX_PROCESSES ≤ pid
  · rw [if_pos hpb]
    refine ⟨fun h => Bool.noConfusion h, fun _ => ?_⟩
    exact ⟨⟨hInv0, hcf, rfl, colorEvolve_refl s⟩, fun hlt _ => absurd hpb (by omega)⟩
  · rw [if_neg hpb]
    have hplt : pid < MAX_PROCESSES := Nat.lt_of_not_le hpb
    by_cases hact : (g.processes pid).active = true
    · rw [if_neg (show ¬((!(g.processes pid).active) = true) by simp [hact])]
      by_cases hgray : s.process_colors pid = NodeColor.gray
      · have hmem : ({ id := pid, type := NodeType.process } : GraphNode) ∈ s.path :=
          hI4 pid hplt hgray
        have hpred : (fun n => decide (n.type = NodeType.process ∧ n.id = pid))
            ({ id := pid, type := NodeType.process } : GraphNode) = true := by
          simp
        obtain ⟨i, hfind⟩ := Option.isSome_iff_exists.mp
          (@pathFindIdx_isSome_of_mem
            (fun n => decide (n.type = NodeType.process ∧ n.id = pid))
            { id := pid, type := NodeType.process } s.path hmem hpred)
        rw [if_pos hgray, hfind]
        refine ⟨fun _ => ?_, fun h => Bool.noConfusion h⟩
        obtain ⟨hi, hget⟩ := pathFindIdx_some_spec hfind
        have hdec := of_decide_eq_true hget
        have hnd : s.path.get ⟨i, hi⟩ = { id := pid, type := NodeType.process } := by
          rcases hnode : s.path.get ⟨i, hi⟩ with ⟨j, u⟩
          rw [hnode] at hdec
          dsimp only at hdec
          obtain ⟨ht, hid⟩ := hdec
          subst ht
          subst hid
          rfl
        exact hasBipCycle_of_path_revisit hI1 hi hnd
          (show nodeOK g { id := pid, type := NodeType.process } from ⟨hplt, hact⟩) hedge
      · rw [if_neg hgray]
        by_cases hblack : s.process_colors pid = NodeColor.black
        · rw [if_pos hblack]
          refine ⟨fun h => Bool.noConfusion h, fun _ => ?_⟩
          exact ⟨⟨hInv0, hcf, rfl, colorEvolve_refl s⟩, fun _ _ => hblack⟩
        · rw [if_neg hblack]
          have hwhite : s.process_colors pid = NodeColor.white := by
            cases hc : s.process_colors pid
            · rfl
            · exact absurd hc hgray
            · exact absurd hc hblack
          have hnmem : ({ id := pid, type := NodeType.process } : GraphNode) ∉ s.path := by
            intro hmem
            exact hgray ((hI3 _ hmem).2)
          have hlen : s.path.length < MAX_CYCLE_LENGTH :=
            path_length_lt_of_not_mem hI2 (fun n hn => (hI3 n hn).1)
              (show nodeOK g { id := pid, type := NodeType.process } from ⟨hplt, hact⟩) hnmem
          dsimp only
          rw [if_pos hlen]
          have hInv1 : DFSInv g { s with
              process_colors := fun j => if j = pid then NodeColor.gray
                else s.process_colors j,
              path := s.path ++ [{ id := pid, type := NodeType.process }] } :=
            dfs_push_proc_inv hInv0 hplt hact hwhite hedge hnmem
          have hgray1 : ({ s with
              process_colors := fun j => if j = pid then NodeColor.gray
                else s.process_colors j,
              path := s.path ++ [{ id := pid, type := NodeType.process }] }
                : DFSState).process_colors pid = NodeColor.gray := by
            simp
          have hlast1 : ({ s with
              process_colors := fun j => if j = pid then NodeColor.gray
                else s.process_colors j,
              path := s.path ++ [{ id := pid, type := NodeType.process }] }
                : DFSState).path.getLast?
              = some { id := pid, type := NodeType.process } := by
            show List.getLast?
              (s.path ++ [({ id := pid, type := NodeType.process } : GraphNode)]) = _
            rw [List.getLast?_concat]
          have hwc := whiteCount_gray_proc s pid hplt hwhite
            (s.path ++ [{ id := pid, type := NodeType.process }])
          have hwf1 : whiteCount { s with
              process_colors := fun j => if j = pid then NodeColor.gray
                else s.process_colors j,
              path := s.path ++ [{ id := pid, type := NodeType.process }] } < f := by
            omega
          have hmain := hLoop
            { s with
              process_colors := fun j => if j = pid then NodeColor.gray
                else s.process_colors j,
              path := s.path ++ [{ id := pid, type := NodeType.process }] }
            pid (List.range MAX_RESOURCES) hInv1 hcf hplt hact hgray1 hlast1 hwf1
          rcases hvr : visit_requested_resources g f
              { s with
                process_colors := fun j => if j = pid then NodeColor.gray
                  else s.process_colors j,
                path := s.path ++ [{ id := pid, type := NodeType.process }] }
              pid (List.range MAX_RESOURCES) with ⟨b, s2⟩
          rw [hvr] at hmain
          cases b
          · obtain ⟨⟨hInv2, hcf2, hpath2, hev2⟩, hblack2⟩ := hmain.2 rfl
            have hpath2' : s2.path
                = s.path ++ [{ id := pid, type := NodeType.process }] := hpath2
            have hgray2 : s2.process_colors pid = NodeColor.gray :=
              (colorEvolve_gray_proc hev2 pid).mpr hgray1
            have hsucc : ∀ r, r < MAX_RESOURCES → (g.resources r).active = true →
                0 < g.request_matrix pid r →
                s2.resource_colors r = NodeColor.black :=
              fun r hr hra hrq => hblack2 r (List.mem_range.mpr hr) hrq hr hra
            obtain ⟨hInv3, hdrop⟩ :=
              dfs_pop_proc_inv hnmem hInv2 hpath2' hgray2 hsucc
            refine ⟨fun h => Bool.noConfusion h, fun _ => ?_⟩
            refine ⟨⟨hInv3, hcf2, hdrop, ?_⟩, ?_⟩
            · constructor
              · intro p
                by_cases hpe : p = pid
                · refine Or.inr ⟨?_, ?_⟩
                  · rw [hpe]
                    exact hwhite
                  · show (if p = pid then NodeColor.black else s2.process_colors p)
                      = NodeColor.black
                    rw [if_pos hpe]
                · have hstep : ({ s2 with
                      path := s2.path.dropLast,
                      process_colors := fun j => if j = pid then NodeColor.black
                        else s2.process_colors j } : DFSState).process_colors p
                      = s2.process_colors p := by
                    show (if p = pid then NodeColor.black else s2.process_colors p) = _
                    rw [if_neg hpe]
                  rw [hstep]
                  rcases hev2.1 p with h | ⟨hw, hb⟩
                  · refine Or.inl ?_
                    rw [h]
                    show (if p = pid then NodeColor.gray else s.process_colors p) = _
                    rw [if_neg hpe]
                  · refine Or.inr ⟨?_, hb⟩
                    have hw' : (if p = pid then NodeColor.gray else s.process_colors p)
                        = NodeColor.white := hw
                    rwa [if_neg hpe] at hw'
              · intro r
                rcases hev2.2 r with h | ⟨hw, hb⟩
                · exact Or.inl h
                · exact Or.inr ⟨hw, hb⟩
            · intro _ _
              show (if pid = pid then NodeColor.black else s2.process_colors pid)
                = NodeColor.black
              simp
          · refine ⟨fun _ => hmain.1 rfl, fun h => Bool.noConfusion h⟩
    · have hact' : (g.processes pid).active = false := by
        cases h : (g.processes pid).active
        · rfl
        · exact absurd h hact
      rw [if_pos (show (!(g.processes pid).active) = true by simp [hact'])]
      refine ⟨fun h => Bool.noConfusion h, fun _ => ?_⟩
      exact ⟨⟨hInv0, hcf, rfl, colorEvolve_refl s⟩, fun _ ha => absurd ha hact⟩

/-- Pushing a fresh white resource node keeps the DFS invariant. -/
theorem dfs_push_res_inv {g : RAG} {s : DFSState} {rid : Nat}
    (hInv : DFSInv g s) (hrlt : rid < MAX_RESOURCES)
    (hact : (g.resources rid).active = true)
    (hwhite : s.resource_colors rid = NodeColor.white)
    (hedge : edgeToNode g s.path { id := rid, type := NodeType.resource })
    (hnmem : ({ id := rid, type := NodeType.resource } : GraphNode) ∉ s.path) :
    DFSInv g { s with
      resource_colors := fun j => if j = rid then NodeColor.gray else s.resource_colors j,
      path := s.path ++ [{ id := rid, type := NodeType.resource }] } := by
  obtain ⟨h1, h2, h3, h4, h5, h6, h7⟩ := hInv
  have hcol : ∀ x, colorOf { s with
      resource_colors := fun j => if j = rid then NodeColor.gray else s.resource_colors j,
      path := s.path ++ [{ id := rid, type := NodeType.resource }] } x = NodeColor.black
      ↔ colorOf s x = NodeColor.black := by
    intro x
    rcases x with ⟨j, u⟩
    cases u
    · exact Iff.rfl
    · show (if j = rid then NodeColor.gray else s.resource_colors j) = NodeColor.black
        ↔ s.resource_colors j = NodeColor.black
      by_cases hj : j = rid
      · subst hj
        rw [if_pos rfl, hwhite]
        constructor
        · intro h; exact NodeColor.noConfusion h
        · intro h; exact NodeColor.noConfusion h
      · rw [if_neg hj]
  refine ⟨?_, ?_, ?_, ?_, ?_, ?_, ?_⟩
  · show List.Chain' (bipE g) (s.path ++ [{ id := rid, type := NodeType.resource }])
    rw [List.chain'_append]
    refine ⟨h1, List.chain'_singleton _, ?_⟩
    intro x hx y hy
    have hy' : ({ id := rid, type := NodeType.resource } : GraphNode) = y := by
      simpa using hy
    subst hy'
    exact hedge ⟨hrlt, hact⟩ x (by simpa using hx)
  · show List.Nodup (s.path ++ [({ id := rid, type := NodeType.resource } : GraphNode)])
    rw [List.nodup_append]
    refine ⟨h2, List.nodup_singleton _, ?_⟩
    intro a ha hb
    have ha' : a = { id := rid, type := NodeType.resource } := by simpa using hb
    subst ha'
    exact hnmem ha
  · intro n hn
    have hn' : n ∈ s.path ++ [{ id := rid, type := NodeType.resource }] := hn
    rcases List.mem_append.mp hn' with hm | hm
    · obtain ⟨hok, hgr⟩ := h3 n hm
      refine ⟨hok, ?_⟩
      rcases n with ⟨j, u⟩
      cases u
      · show s.process_colors j = NodeColor.gray
        exact hgr
      · have hjne : j ≠ rid := by
          intro hj
          subst hj
          exact hnmem hm
        show (if j = rid then NodeColor.gray else s.resource_colors j) = NodeColor.gray
        rw [if_neg hjne]
        exact hgr
    · have hn2 : n = { id := rid, type := NodeType.resource } := by simpa using hm
      subst hn2
      refine ⟨⟨hrlt, hact⟩, ?_⟩
      show (if rid = rid then NodeColor.gray else s.resource_colors rid) = NodeColor.gray
      rw [if_pos rfl]
  · intro p hp hgp
    have hgp' : s.process_colors p = NodeColor.gray := hgp
    show _ ∈ s.path ++ [{ id := rid, type := NodeType.resource }]
    exact List.mem_append.mpr (Or.inl (h4 p hp hgp'))
  · intro r hr hgr
    have hgr' : (if r = rid then NodeColor.gray else s.resource_colors r)
        = NodeColor.gray := hgr
    show _ ∈ s.path ++ [{ id := rid, type := NodeType.resource }]
    by_cases hre : r = rid
    · subst hre
      exact List.mem_append.mpr (Or.inr (by simp))
    · rw [if_neg hre] at hgr'
      exact List.mem_append.mpr (Or.inl (h5 r hr hgr'))
  · intro n m hbn he
    exact (hcol m).mpr (h6 n m ((hcol n).mp hbn) he)
  · intro n hbn
    exact h7 n ((hcol n).mp hbn)

/-- Popping the resource node and blackening it restores the DFS invariant,
provided all its holding-process successors are black. -/
theorem dfs_pop_res_inv {g : RAG} {s s2 : DFSState} {rid : Nat}
    (hnmem : ({ id := rid, type := NodeType.resource } : GraphNode) ∉ s.path)
    (hInv2 : DFSInv g s2)
    (hpath2 : s2.path = s.path ++ [{ id := rid, type := NodeType.resource }])
    (hgray2 : s2.resource_colors rid = NodeColor.gray)
    (hsucc : ∀ p, p < MAX_PROCESSES → (g.processes p).active = true →
      0 < g.assignment_matrix p rid → s2.process_colors p = NodeColor.black) :
    DFSInv g { s2 with
      path := s2.path.dropLast,
      resource_colors := fun j => if j = rid then NodeColor.black
        else s2.resource_colors j }
    ∧ s2.path.dropLast = s.path := by
  obtain ⟨h1, h2, h3, h4, h5, h6, h7⟩ := hInv2
  have hdrop : s2.path.dropLast = s.path := by
    rw [hpath2]
    exact List.dropLast_concat
  have hcol23 : ∀ x, colorOf s2 x = NodeColor.black →
      colorOf { s2 with
        path := s2.path.dropLast,
        resource_colors := fun j => if j = rid then NodeColor.black
          else s2.resource_colors j } x = NodeColor.black := by
    intro x hx
    rcases x with ⟨j, u⟩
    cases u
    · exact hx
    · show (if j = rid then NodeColor.black else s2.resource_colors j) = NodeColor.black
      by_cases hj : j = rid
      · rw [if_pos hj]
      · rw [if_neg hj]
        exact hx
  refine ⟨⟨?_, ?_, ?_, ?_, ?_, ?_, ?_⟩, hdrop⟩
  · show List.Chain' (bipE g) s2.path.dropLast
    rw [hdrop]
    have hc := h1
    rw [hpath2] at hc
    exact (List.chain'_append.mp hc).1
  · show s2.path.dropLast.Nodup
    rw [hdrop]
    have hc := h2
    rw [hpath2] at hc
    exact (List.nodup_append.mp hc).1
  · intro n hn
    have hn' : n ∈ s2.path.dropLast := hn
    rw [hdrop] at hn'
    have hn2 : n ∈ s2.path := by
      rw [hpath2]
      exact List.mem_append.mpr (Or.inl hn')
    obtain ⟨hok, hgr⟩ := h3 n hn2
    refine ⟨hok, ?_⟩
    rcases n with ⟨j, u⟩
    cases u
    · show s2.process_colors j = NodeColor.gray
      exact hgr
    · have hjne : j ≠ rid := by
        intro hj
        subst hj
        exact hnmem hn'
      show (if j = rid then NodeColor.black else s2.resource_colors j) = NodeColor.gray
      rw [if_neg hjne]
      exact hgr
  · intro p hp hgp
    have hgp' : s2.process_colors p = NodeColor.gray := hgp
    show _ ∈ s2.path.dropLast
    rw [hdrop]
    have hmem2 := h4 p hp hgp'
    rw [hpath2] at hmem2
    rcases List.mem_append.mp hmem2 with hm | hm
    · exact hm
    · exfalso
      have he : ({ id := p, type := NodeType.process } : GraphNode)
          = { id := rid, type := NodeType.resource } := by simpa using hm
      exact NodeType.noConfusion (congrArg GraphNode.type he)
  · intro r hr hgr
    have hgr' : (if r = rid then NodeColor.black else s2.resource_colors r)
        = NodeColor.gray := hgr
    show _ ∈ s2.path.dropLast
    rw [hdrop]
    by_cases hre : r = rid
    · rw [if_pos hre] at hgr'
      exact absurd hgr' (fun h => NodeColor.noConfusion h)
    · rw [if_neg hre] at hgr'
      have hmem2 := h5 r hr hgr'
      rw [hpath2] at hmem2
      rcases List.mem_append.mp hmem2 with hm | hm
      · exact hm
      · exfalso
        have he : ({ id := r, type := NodeType.resource } : GraphNode)
            = { id := rid, type := NodeType.resource } := by simpa using hm
        exact hre (congrArg GraphNode.id he)
  · intro n m hbn he
    rcases n with ⟨j, u⟩
    cases u
    · have hbn' : s2.process_colors j = NodeColor.black := hbn
      exact hcol23 m (h6 ⟨j, NodeType.process⟩ m hbn' he)
    · by_cases hj : j = rid
      · rw [hj] at he
        obtain ⟨hmt, _, hmlt, _, hmact, hmreq⟩ := bipE_from_res he
        rcases m with ⟨p, w⟩
        cases w
        · exact hcol23 ⟨p, NodeType.process⟩ (hsucc p hmlt hmact hmreq)
        · exact NodeType.noConfusion hmt
      · have hbn' : s2.resource_colors j = NodeColor.black := by
          have hb2 : (if j = rid then NodeColor.black else s2.resource_colors j)
              = NodeColor.black := hbn
          rwa [if_neg hj] at hb2
        exact hcol23 m (h6 ⟨j, NodeType.resource⟩ m hbn' he)
  · intro n hbn hcyc
    rcases n with ⟨j, u⟩
    cases u
    · exact h7 ⟨j, NodeType.process⟩ hbn hcyc
    · by_cases hj : j = rid
      · rw [hj] at hcyc
        rcases (Relation.TransGen.head'_iff).mp hcyc with ⟨c, hec, hrtg⟩
        obtain ⟨hct, _, hclt, _, hcact, hcreq⟩ := bipE_from_res hec
        rcases c with ⟨p, w⟩
        cases w
        · have hcb : colorOf s2 ⟨p, NodeType.process⟩ = NodeColor.black :=
            hsucc p hclt hcact hcreq
          have hfin : s2.resource_colors rid = NodeColor.black :=
            black_of_reflTransGen h6 hrtg hcb
          rw [hgray2] at hfin
          exact NodeColor.noConfusion hfin
        · exact NodeType.noConfusion hct
      · have hbn' : s2.resource_colors j = NodeColor.black := by
          have hb2 : (if j = rid then NodeColor.black else s2.resource_colors j)
              = NodeColor.black := hbn
          rwa [if_neg hj] at hb2
        exact h7 ⟨j, NodeType.resource⟩ hbn' hcyc

/-- One unfolding of `dfs_visit_resource` is correct, given the correctness
of the successor loop at the next lower fuel. -/
theorem dfsResource_step (g : RAG) (f : Nat) (hLoop : visitProcessesSpec g f) :
    dfsVisitResourceSpec g (Nat.succ f) := by
  intro s rid hInv hcf hedge hwf
  have hInv0 := hInv
  obtain ⟨hI1, hI2, hI3, hI4, hI5, hI6, hI7⟩ := hInv
  rw [dfs_visit_resource]
  rw [if_neg (show ¬(s.cycle_found = true) by simp [hcf])]
  by_cases hrb : MAX_RESOURCES ≤ rid
  · rw [if_pos hrb]
    refine ⟨fun h => Bool.noConfusion h, fun _ => ?_⟩
    exact ⟨⟨hInv0, hcf, rfl, colorEvolve_refl s⟩, fun hlt _ => absurd hrb (by omega)⟩
  · rw [if_neg hrb]
    have hrlt : rid < MAX_RESOURCES := Nat.lt_of_not_le hrb
    by_cases hact : (g.resources rid).active = true
    · rw [if_neg (show ¬((!(g.resources rid).active) = true) by simp [hact])]
      by_cases hgray : s.resource_colors rid = NodeColor.gray
      · have hmem : ({ id := rid, type := NodeType.resource } : GraphNode) ∈ s.path :=
          hI5 rid hrlt hgray
        have hpred : (fun n => decide (n.type = NodeType.resource ∧ n.id = rid))
            ({ id := rid, type := NodeType.resource } : GraphNode) = true := by
          simp
        obtain ⟨i, hfind⟩ := Option.isSome_iff_exists.mp
          (@pathFindIdx_isSome_of_mem
            (fun n => decide (n.type = NodeType.resource ∧ n.id = rid))
            { id := rid, type := NodeType.resource } s.path hmem hpred)
        rw [if_pos hgray, hfind]
        refine ⟨fun _ => ?_, fun h => Bool.noConfusion h⟩
        obtain ⟨hi, hget⟩ := pathFindIdx_some_spec hfind
        have hdec := of_decide_eq_true hget
        have hnd : s.path.get ⟨i, hi⟩ = { id := rid, type := NodeType.resource } := by
          rcases hnode : s.path.get ⟨i, hi⟩ with ⟨j, u⟩
          rw [hnode] at hdec
          dsimp only at hdec
          obtain ⟨ht, hid⟩ := hdec
          subst ht
          subst hid
          rfl
        exact hasBipCycle_of_path_revisit hI1 hi hnd
          (show nodeOK g { id := rid, type := NodeType.resource } from ⟨hrlt, hact⟩) hedge
      · rw [if_neg hgray]
        by_cases hblack : s.resource_colors rid = NodeColor.black
        · rw [if_pos hblack]
          refine ⟨fun h => Bool.noConfusion h, fun _ => ?_⟩
          exact ⟨⟨hInv0, hcf, rfl, colorEvolve_refl s⟩, fun _ _ => hblack⟩
        · rw [if_neg hblack]
          have hwhite : s.resource_colors rid = NodeColor.white := by
            cases hc : s.resource_colors rid
            · rfl
            · exact absurd hc hgray
            · exact absurd hc hblack
          have hnmem : ({ id := rid, type := NodeType.resource } : GraphNode) ∉ s.path := by
            intro hmem
            exact hgray ((hI3 _ hmem).2)
          have hlen : s.path.length < MAX_CYCLE_LENGTH :=
            path_length_lt_of_not_mem hI2 (fun n hn => (hI3 n hn).1)
              (show nodeOK g { id := rid, type := NodeType.resource } from ⟨hrlt, hact⟩)
              hnmem
          dsimp only
          rw [if_pos hlen]
          have hInv1 : DFSInv g { s with
              resource_colors := fun j => if j = rid then NodeColor.gray
                else s.resource_colors j,
              path := s.path ++ [{ id := rid, type := NodeType.resource }] } :=
            dfs_push_res_inv hInv0 hrlt hact hwhite hedge hnmem
          have hgray1 : ({ s with
              resource_colors := fun j => if j = rid then NodeColor.gray
                else s.resource_colors j,
              path := s.path ++ [{ id := rid, type := NodeType.resource }] }
                : DFSState).resource_colors rid = NodeColor.gray := by
            simp
          have hlast1 : ({ s with
              resource_colors := fun j => if j = rid then NodeColor.gray
                else s.resource_colors j,
              path := s.path ++ [{ id := rid, type := NodeType.resource }] }
                : DFSState).path.getLast?
              = some { id := rid, type := NodeType.resource } := by
            show List.getLast?
              (s.path ++ [({ id := rid, type := NodeType.resource } : GraphNode)]) = _
            rw [List.getLast?_concat]
          have hwc := whiteCount_gray_res s rid hrlt hwhite
            (s.path ++ [{ id := rid, type := NodeType.resource }])
          have hwf1 : whiteCount { s with
              resource_colors := fun j => if j = rid then NodeColor.gray
                else s.resource_colors j,
              path := s.path ++ [{ id := rid, type := NodeType.resource }] } < f := by
            omega
          have hmain := hLoop
            { s with
              resource_colors := fun j => if j = rid then NodeColor.gray
                else s.resource_colors j,
              path := s.path ++ [{ id := rid, type := NodeType.resource }] }
            rid (List.range MAX_PROCESSES) hInv1 hcf hrlt hact hgray1 hlast1 hwf1
          rcases hvr : visit_holding_processes g f
              { s with
                resource_colors := fun j => if j = rid then NodeColor.gray
                  else s.resource_colors j,
                path := s.path ++ [{ id := rid, type := NodeType.resource }] }
              rid (List.range MAX_PROCESSES) with ⟨b, s2⟩
          rw [hvr] at hmain
          cases b
          · obtain ⟨⟨hInv2, hcf2, hpath2, hev2⟩, hblack2⟩ := hmain.2 rfl
            have hpath2' : s2.path
                = s.path ++ [{ id := rid, type := NodeType.resource }] := hpath2
            have hgray2 : s2.resource_colors rid = NodeColor.gray :=
              (colorEvolve_gray_res hev2 rid).mpr hgray1
            have hsucc : ∀ p, p < MAX_PROCESSES → (g.processes p).active = true →
                0 < g.assignment_matrix p rid →
                s2.process_colors p = NodeColor.black :=
              fun p hp hpa hpq => hblack2 p (List.mem_range.mpr hp) hpq hp hpa
            obtain ⟨hInv3, hdrop⟩ :=
              dfs_pop_res_inv hnmem hInv2 hpath2' hgray2 hsucc
            refine ⟨fun h => Bool.noConfusion h, fun _ => ?_⟩
            refine ⟨⟨hInv3, hcf2, hdrop, ?_⟩, ?_⟩
            · constructor
              · intro p
                rcases hev2.1 p with h | ⟨hw, hb⟩
                · exact Or.inl h
                · exact Or.inr ⟨hw, hb⟩
              · intro r
                by_cases hre : r = rid
                · refine Or.inr ⟨?_, ?_⟩
                  · rw [hre]
                    exact hwhite
                  · show (if r = rid then NodeColor.black else s2.resource_colors r)
                      = NodeColor.black
                    rw [if_pos hre]
                · have hstep : ({ s2 with
                      path := s2.path.dropLast,
                      resource_colors := fun j => if j = rid then NodeColor.black
                        else s2.resource_colors j } : DFSState).resource_colors r
                      = s2.resource_colors r := by
                    show (if r = rid then NodeColor.black else s2.resource_colors r) = _
                    rw [if_neg hre]
                  rw [hstep]
                  rcases hev2.2 r with h | ⟨hw, hb⟩
                  · refine Or.inl ?_
                    rw [h]
                    show (if r = rid then NodeColor.gray else s.resource_colors r) = _
                    rw [if_neg hre]
                  · refine Or.inr ⟨?_, hb⟩
                    have hw' : (if r = rid then NodeColor.gray else s.resource_colors r)
                        = NodeColor.white := hw
                    rwa [if_neg hre] at hw'
            · intro _ _
              show (if rid = rid then NodeColor.black else s2.resource_colors rid)
                = NodeColor.black
              simp
          · refine ⟨fun _ => hmain.1 rfl, fun h => Bool.noConfusion h⟩
    · have hact' : (g.resources rid).active = false := by
        cases h : (g.resources rid).active
        · rfl
        · exact absurd h hact
      rw [if_pos (show (!(g.resources rid).active) = true by simp [hact'])]
      refine ⟨fun h => Bool.noConfusion h, fun _ => ?_⟩
      exact ⟨⟨hInv0, hcf, rfl, colorEvolve_refl s⟩, fun _ ha => absurd ha hact⟩

/-- Joint correctness of the two DFS visit functions at every fuel. -/
theorem dfs_specs (g : RAG) :
    ∀ f : Nat, dfsVisitProcessSpec g f ∧ dfsVisitResourceSpec g f := by
  intro f
  induction f with
  | zero =>
    constructor
    · intro s pid _ _ _ hwf
      exact absurd hwf (Nat.not_lt_zero _)
    · intro s rid _ _ _ hwf
      exact absurd hwf (Nat.not_lt_zero _)
  | succ f ih =>
    exact ⟨dfsProcess_step g f (visitResources_step g f ih.2),
           dfsResource_step g f (visitProcesses_step g f ih.1)⟩

theorem whiteCount_le (s : DFSState) :
    whiteCount s ≤ MAX_PROCESSES + MAX_RESOURCES := by
  unfold whiteCount
  have h1 := Finset.card_filter_le (Finset.range MAX_PROCESSES)
    (fun p => s.process_colors p = NodeColor.white)
  have h2 := Finset.card_filter_le (Finset.range MAX_RESOURCES)
    (fun r => s.resource_colors r = NodeColor.white)
  rw [Finset.card_range] at h1 h2
  omega

/-- The all-white initial state satisfies the DFS invariant. -/
theorem DFSInv_init (g : RAG) : DFSInv g init_dfs_state := by
  refine ⟨List.chain'_nil, List.nodup_nil, ?_, ?_, ?_, ?_, ?_⟩
  · intro n hn
    exact absurd hn (List.not_mem_nil n)
  · intro p _ hg
    exact absurd hg (fun h => NodeColor.noConfusion h)
  · intro r _ hg
    exact absurd hg (fun h => NodeColor.noConfusion h)
  · intro n m hb
    exfalso
    rcases n with ⟨j, u⟩
    cases u
    · exact NodeColor.noConfusion hb
    · exact NodeColor.noConfusion hb
  · intro n hb
    exfalso
    rcases n with ⟨j, u⟩
    cases u
    · exact NodeColor.noConfusion hb
    · exact NodeColor.noConfusion hb

/-- Correctness of the root loop under `DETECT_DFS`: a true answer is a
real closed walk; a false answer leaves a final coloring that blackens
every active requesting process it scanned. -/
theorem detect_loop_dfs_spec (g : RAG) (l : List Nat) :
    ∀ (s : DFSState) (cycles : List Cycle),
      DFSInv g s → s.cycle_found = false → s.path = [] →
      ((detect_loop g DetectionAlgorithm.dfs l s false cycles).1 = true →
        hasBipCycle g) ∧
      ((detect_loop g DetectionAlgorithm.dfs l s false cycles).1 = false →
        ∃ s3 : DFSState, DFSInv g s3 ∧ colorEvolve s s3 ∧
          ∀ p ∈ l, p < MAX_PROCESSES → (g.processes p).active = true →
            process_has_request g p = true →
            s3.process_colors p = NodeColor.black) := by
  induction l with
  | nil =>
    intro s cycles hInv hcf hpath
    rw [detect_loop]
    exact ⟨fun h => Bool.noConfusion h,
      fun _ => ⟨s, hInv, colorEvolve_refl s,
        fun p hp => absurd hp (List.not_mem_nil p)⟩⟩
  | cons p0 ps ih =>
    intro s cycles hInv hcf hpath
    rw [detect_loop]
    have hedge : edgeToNode g s.path { id := p0, type := NodeType.process } := by
      intro _ lnode hl
      rw [hpath] at hl
      exact Option.noConfusion hl
    have hwfuel : whiteCount s < DFS_FUEL := by
      have := whiteCount_le s
      unfold DFS_FUEL
      omega
    have hspec := (dfs_specs g DFS_FUEL).1 s p0 hInv hcf hedge hwfuel
    by_cases hcond : (g.processes p0).active = true ∧ process_has_request g p0 = true ∧
        s.process_colors p0 = NodeColor.white
    · rw [if_pos hcond]
      rcases hdv : dfs_visit_process g DFS_FUEL s p0 with ⟨b, s2⟩
      rw [hdv] at hspec
      cases b
      · obtain ⟨⟨hInv2, hcf2, hpath2, hev2⟩, hblackc⟩ := hspec.2 rfl
        have hrest := ih s2 cycles hInv2 hcf2 (by rw [hpath2, hpath])
        refine ⟨hrest.1, fun hfal => ?_⟩
        obtain ⟨s3, hInv3, hev3, hblack3⟩ := hrest.2 hfal
        refine ⟨s3, hInv3, colorEvolve_trans hev2 hev3, ?_⟩
        intro p hp hplt hpact hpreq
        rcases List.mem_cons.mp hp with he | hm
        · rw [he]
          exact colorEvolve_black_proc hev3 (hblackc (he ▸ hplt) (he ▸ hpact))
        · exact hblack3 p hm hplt hpact hpreq
      · refine ⟨fun _ => hspec.1 rfl, fun h => ?_⟩
        exact Bool.noConfusion h
    · rw [if_neg hcond]
      have hrest := ih s cycles hInv hcf hpath
      refine ⟨hrest.1, fun hfal => ?_⟩
      obtain ⟨s3, hInv3, hev3, hblack3⟩ := hrest.2 hfal
      refine ⟨s3, hInv3, hev3, ?_⟩
      intro p hp hplt hpact hpreq
      rcases List.mem_cons.mp hp with he | hm
      · subst he
        have hnw : s.process_colors p ≠ NodeColor.white := by
          intro hw
          exact hcond ⟨hpact, hpreq, hw⟩
        have hng : s.process_colors p ≠ NodeColor.gray := by
          intro hg
          have hmem := hInv.2.2.2.1 p hplt hg
          rw [hpath] at hmem
          exact absurd hmem (List.not_mem_nil _)
        have hb : s.process_colors p = NodeColor.black := by
          cases hc : s.process_colors p
          · exact absurd hc hnw
          · exact absurd hc hng
          · rfl
        exact colorEvolve_black_proc hev3 hb
      · exact hblack3 p hm hplt hpact hpreq

/-- `detect_deadlock` (single-cycle DFS) answers true exactly when the
bipartite RAG has a closed walk. -/
theorem detect_deadlock_iff_bip (g : RAG) :
    (detect_deadlock g).deadlock_detected = true ↔ hasBipCycle g := by
  have hloop := detect_loop_dfs_spec g (List.range MAX_PROCESSES) init_dfs_state []
    (DFSInv_init g) rfl rfl
  unfold detect_deadlock detect_deadlock_with_algorithm
  rcases hdl : detect_loop g DetectionAlgorithm.dfs (List.range MAX_PROCESSES)
      init_dfs_state false [] with ⟨found, cycles⟩
  rw [hdl] at hloop
  cases found
  · constructor
    · intro h
      exact absurd h (by simp)
    · intro hcyc
      exfalso
      obtain ⟨s3, hInv3, _, hblack3⟩ := hloop.2 rfl
      obtain ⟨p0, hplt, hpact, hpreq, htg⟩ := hasBipCycle_process_form hcyc
      have hb : s3.process_colors p0 = NodeColor.black :=
        hblack3 p0 (List.mem_range.mpr hplt) hplt hpact hpreq
      exact hInv3.2.2.2.2.2.2 { id := p0, type := NodeType.process } hb htg
  · constructor
    · intro _
      exact hloop.1 rfl
    · intro _
      simp

/-! ### Bipartite cycles versus wait-for cycles -/

/-- Collapse of a bipartite walk out of a process node to hops. -/
theorem bip_walk_collapse {g : RAG} {p : Nat} {b : GraphNode}
    (h : Relation.TransGen (bipE g) { id := p, type := NodeType.process } b) :
    (∀ q, b = { id := q, type := NodeType.process } →
      Relation.TransGen (hopE g) p q) ∧
    (∀ r, b = { id := r, type := NodeType.resource } →
      ∃ x, Relation.ReflTransGen (hopE g) p x ∧ x < MAX_PROCESSES ∧
        (g.processes x).active = true ∧ r < MAX_RESOURCES ∧
        (g.resources r).active = true ∧ 0 < g.request_matrix x r) := by
  induction h with
  | single he =>
    obtain ⟨ht, h1, h2, h3, h4, h5⟩ := bipE_from_proc he
    constructor
    · intro q hq
      rw [hq] at ht
      exact absurd ht (fun hh => NodeType.noConfusion hh)
    · intro r hr
      subst hr
      exact ⟨p, Relation.ReflTransGen.refl, h1, h3, h2, h4, h5⟩
  | tail htg he ih =>
    rename_i c b2
    constructor
    · intro q hq
      subst hq
      rcases c with ⟨j, u⟩
      cases u
      · exact absurd he (by unfold bipE; simp)
      · obtain ⟨x, hrtg, hx1, hx2, hr1, hr2, hreq⟩ := ih.2 j rfl
        obtain ⟨_, hqlt, _, hqact, hasg⟩ := he
        have hhop : hopE g x q :=
          ⟨hx1, hqlt, hx2, hqact, j, hr1, hr2, hreq, hasg⟩
        exact Relation.TransGen.tail' hrtg hhop
    · intro r hr
      subst hr
      rcases c with ⟨j, u⟩
      cases u
      · have htg2 := ih.1 j rfl
        obtain ⟨ht, h1, h2, h3, h4, h5⟩ := bipE_from_proc he
        exact ⟨j, htg2.to_reflTransGen, h1, h3, h2, h4, h5⟩
      · exact absurd he (by unfold bipE; simp)

/-- A hop is a wait-for edge, provided no process holds and requests the
same resource. -/
theorem hopE_sub_wfE {g : RAG} (hNS : NoSelfHoldReq g) {p q : Nat}
    (h : hopE g p q) : wfE g p q := by
  obtain ⟨hp, hq, hpa, hqa, r, hr, hra, hreq, hasg⟩ := h
  have hpq : p ≠ q := by
    intro he
    subst he
    exact hNS p hp r hr ⟨hreq, hasg⟩
  refine ⟨hp, hq, ?_⟩
  unfold build_wait_for_graph
  rw [if_pos]
  · exact one_ne_zero
  · refine ⟨hp, hq, hpa, hpq, ?_⟩
    rw [List.any_eq_true]
    exact ⟨r, List.mem_range.mpr hr, by simp [hreq, hasg]⟩

/-- A wait-for edge expands to two bipartite edges, provided edges touch
only active slots. -/
theorem wfE_expand {g : RAG} (hEA : RagEdgesActive g) {p q : Nat}
    (h : wfE g p q) :
    ∃ r, bipE g { id := p, type := NodeType.process } { id := r, type := NodeType.resource }
      ∧ bipE g { id := r, type := NodeType.resource } { id := q, type := NodeType.process } := by
  obtain ⟨hp, hq, hne⟩ := h
  unfold build_wait_for_graph at hne
  by_cases hc : p < MAX_PROCESSES ∧ q < MAX_PROCESSES ∧ (g.processes p).active = true ∧
      p ≠ q ∧ (List.range MAX_RESOURCES).any (fun r =>
        decide (0 < g.request_matrix p r ∧ 0 < g.assignment_matrix q r)) = true
  · obtain ⟨_, _, hpa, _, hany⟩ := hc
    rw [List.any_eq_true] at hany
    obtain ⟨r, hrmem, hrprop⟩ := hany
    have hrlt : r < MAX_RESOURCES := List.mem_range.mp hrmem
    obtain ⟨hreq, hasg⟩ := of_decide_eq_true hrprop
    have h1 := (hEA p hp r hrlt).1 hreq
    have h2 := (hEA q hq r hrlt).2 hasg
    exact ⟨r, ⟨hp, hrlt, h1.1, h1.2, hreq⟩, ⟨hrlt, hq, h2.2, h2.1, hasg⟩⟩
  · rw [if_neg hc] at hne
    exact absurd rfl hne

/-- Lift a wait-for walk to a bipartite walk. -/
theorem wf_walk_to_bip {g : RAG} (hEA : RagEdgesActive g) {p q : Nat}
    (h : Relation.TransGen (wfE g) p q) :
    Relation.TransGen (bipE g)
      { id := p, type := NodeType.process } { id := q, type := NodeType.process } := by
  induction h with
  | single he =>
    obtain ⟨r, h1, h2⟩ := wfE_expand hEA he
    exact Relation.TransGen.head h1 (Relation.TransGen.single h2)
  | tail _ he ih =>
    obtain ⟨r, h1, h2⟩ := wfE_expand hEA he
    exact ih.trans (Relation.TransGen.head h1 (Relation.TransGen.single h2))

/-- The two cycle notions coincide on graphs whose edges touch only
active slots and in which no process holds and requests the same
resource. -/
theorem hasBipCycle_iff_hasWFCycle {g : RAG}
    (hEA : RagEdgesActive g) (hNS : NoSelfHoldReq g) :
    hasBipCycle g ↔ hasWFCycle g := by
  constructor
  · intro h
    obtain ⟨p, _, _, _, htg⟩ := hasBipCycle_process_form h
    have hhop := (bip_walk_collapse htg).1 p rfl
    exact ⟨p, Relation.TransGen.mono (fun a b hab => hopE_sub_wfE hNS hab) hhop⟩
  · intro h
    obtain ⟨p, htg⟩ := h
    exact ⟨{ id := p, type := NodeType.process }, wf_walk_to_bip hEA htg⟩

/-! ### Wait-for machine: scan and stack lemmas -/

theorem wf_scan_found {m : Nat → Nat → Int} {colors : Nat → NodeColor} {current : Nat} :
    ∀ {l : List Nat} {nx : Nat}, wf_scan m colors current l = WFScan.foundGray nx →
      nx ∈ l ∧ m current nx ≠ 0 ∧ colors nx = NodeColor.gray := by
  intro l
  induction l with
  | nil => intro nx h; exact absurd h (by rw [wf_scan]; intro hh; cases hh)
  | cons x xs ih =>
    intro nx h
    rw [wf_scan] at h
    by_cases h0 : m current x = 0
    · rw [if_pos h0] at h
      obtain ⟨hm, he, hg⟩ := ih h
      exact ⟨List.mem_cons_of_mem x hm, he, hg⟩
    · rw [if_neg h0] at h
      by_cases hg : colors x = NodeColor.gray
      · rw [if_pos hg] at h
        cases h
        exact ⟨List.mem_cons_self x xs, h0, hg⟩
      · rw [if_neg hg] at h
        by_cases hwt : colors x = NodeColor.white
        · rw [if_pos hwt] at h
          cases h
        · rw [if_neg hwt] at h
          obtain ⟨hm, he, hgr⟩ := ih h
          exact ⟨List.mem_cons_of_mem x hm, he, hgr⟩

theorem wf_scan_push {m : Nat → Nat → Int} {colors : Nat → NodeColor} {current : Nat} :
    ∀ {l : List Nat} {nx : Nat}, wf_scan m colors current l = WFScan.pushWhite nx →
      nx ∈ l ∧ m current nx ≠ 0 ∧ colors nx = NodeColor.white := by
  intro l
  induction l with
  | nil => intro nx h; exact absurd h (by rw [wf_scan]; intro hh; cases hh)
  | cons x xs ih =>
    intro nx h
    rw [wf_scan] at h
    by_cases h0 : m current x = 0
    · rw [if_pos h0] at h
      obtain ⟨hm, he, hg⟩ := ih h
      exact ⟨List.mem_cons_of_mem x hm, he, hg⟩
    · rw [if_neg h0] at h
      by_cases hg : colors x = NodeColor.gray
      · rw [if_pos hg] at h
        cases h
      · rw [if_neg hg] at h
        by_cases hwt : colors x = NodeColor.white
        · rw [if_pos hwt] at h
          cases h
          exact ⟨List.mem_cons_self x xs, h0, hwt⟩
        · rw [if_neg hwt] at h
          obtain ⟨hm, he, hgr⟩ := ih h
          exact ⟨List.mem_cons_of_mem x hm, he, hgr⟩

theorem wf_scan_none {m : Nat → Nat → Int} {colors : Nat → NodeColor} {current : Nat} :
    ∀ {l : List Nat}, wf_scan m colors current l = WFScan.nothingLeft →
      ∀ x ∈ l, m current x ≠ 0 → colors x = NodeColor.black := by
  intro l
  induction l with
  | nil => intro _ x hx; exact absurd hx (List.not_mem_nil x)
  | cons y ys ih =>
    intro h x hx hmx
    rw [wf_scan] at h
    by_cases h0 : m current y = 0
    · rw [if_pos h0] at h
      rcases List.mem_cons.mp hx with he | hm
      · subst he
        exact absurd h0 hmx
      · exact ih h x hm hmx
    · rw [if_neg h0] at h
      by_cases hg : colors y = NodeColor.gray
      · rw [if_pos hg] at h
        cases h
      · rw [if_neg hg] at h
        by_cases hwt : colors y = NodeColor.white
        · rw [if_pos hwt] at h
          cases h
        · rw [if_neg hwt] at h
          rcases List.mem_cons.mp hx with he | hm
          · subst he
            cases hc : colors x
            · exact absurd hc hwt
            · exact absurd hc hg
            · rfl
          · exact ih h x hm hmx

/-- Every stack member reaches the top along the chain edges. -/
theorem stack_rtg {e : Nat → Nat → Prop} :
    ∀ {l : List Nat} {x : Nat}, List.Chain' (fun a b => e b a) (x :: l) →
      ∀ y ∈ x :: l, Relation.ReflTransGen e y x := by
  intro l
  induction l with
  | nil =>
    intro x _ y hy
    have : y = x := by simpa using hy
    subst this
    exact Relation.ReflTransGen.refl
  | cons z zs ih =>
    intro x hch y hy
    have hzx : e z x := (List.chain'_cons.mp hch).1
    have hch2 : List.Chain' (fun a b => e b a) (z :: zs) := (List.chain'_cons.mp hch).2
    rcases List.mem_cons.mp hy with he | hm
    · subst he
      exact Relation.ReflTransGen.refl
    · exact (ih hch2 y hm).tail hzx

theorem black_rtg_nat {e : Nat → Nat → Prop} {colors : Nat → NodeColor}
    (hcl : ∀ v w, colors v = NodeColor.black → e v w → colors w = NodeColor.black)
    {a b : Nat} (h : Relation.ReflTransGen e a b)
    (ha : colors a = NodeColor.black) : colors b = NodeColor.black := by
  induction h with
  | refl => exact ha
  | tail _ he ih => exact hcl _ _ ih he

theorem wfWhite_gray (n : Nat) (colors : Nat → NodeColor) (v : Nat)
    (hv : v < n) (hw : colors v = NodeColor.white) :
    wfWhite n (fun x => if x = v then NodeColor.gray else colors x) + 1
      = wfWhite n colors := by
  unfold wfWhite
  have hfil : (Finset.range n).filter
      (fun x => (if x = v then NodeColor.gray else colors x) = NodeColor.white)
      = ((Finset.range n).filter (fun x => colors x = NodeColor.white)).erase v := by
    ext x
    rw [Finset.mem_filter, Finset.mem_erase, Finset.mem_filter]
    by_cases hxv : x = v
    · subst hxv
      simp
    · rw [if_neg hxv]
      constructor
      · intro ⟨ha, hb⟩; exact ⟨hxv, ha, hb⟩
      · intro ⟨_, ha, hb⟩; exact ⟨ha, hb⟩
  rw [hfil]
  have hmem : v ∈ (Finset.range n).filter (fun x => colors x = NodeColor.white) :=
    Finset.mem_filter.mpr ⟨Finset.mem_range.mpr hv, hw⟩
  rw [Finset.card_erase_of_mem hmem]
  have hpos : 0 < ((Finset.range n).filter (fun x => colors x = NodeColor.white)).card :=
    Finset.card_pos.mpr ⟨v, hmem⟩
  omega

theorem wfWhite_congr (n : Nat) (c1 c2 : Nat → NodeColor)
    (h : ∀ x, c1 x = NodeColor.white ↔ c2 x = NodeColor.white) :
    wfWhite n c1 = wfWhite n c2 := by
  unfold wfWhite
  congr 1
  ext x
  rw [Finset.mem_filter, Finset.mem_filter, h x]

/-- Pushing a white neighbour preserves the wait-for invariant. -/
theorem wf_push_inv {m : Nat → Nat → Int} {n : Nat}
    (colors0 colors1 : Nat → NodeColor) (parent1 : Nat → Int)
    (current nx : Nat) (rest : List Nat)
    (hN : (current :: rest).Nodup) (hB : ∀ v ∈ current :: rest, v < n)
    (hC : List.Chain' (fun a b => matE m n b a) (current :: rest))
    (hG : ∀ v ∈ rest, colors0 v = NodeColor.gray)
    (hS : ∀ v, colors0 v = NodeColor.gray → v ∈ current :: rest)
    (hCl : ∀ v w, colors0 v = NodeColor.black → matE m n v w →
      colors0 w = NodeColor.black)
    (hAc : ∀ v, colors0 v = NodeColor.black → ¬ Relation.TransGen (matE m n) v v)
    (hcur : colors1 current = NodeColor.gray)
    (hsame : ∀ v, v ≠ current → colors1 v = colors0 v)
    (hblackiff : ∀ v, colors1 v = NodeColor.black ↔ colors0 v = NodeColor.black)
    (hgray1 : ∀ v, colors1 v = NodeColor.gray → v = current ∨ colors0 v = NodeColor.gray)
    (hnx : nx < n) (hedge : m current nx ≠ 0)
    (hnxw : colors1 nx = NodeColor.white) :
    WFInv m n { colors := colors1, parent := parent1,
                stack := nx :: current :: rest } := by
  have hcurlt : current < n := hB current (List.mem_cons_self current rest)
  have hnxnc : nx ≠ current := by
    intro he
    rw [he, hcur] at hnxw
    exact NodeColor.noConfusion hnxw
  have hnxrest : nx ∉ current :: rest := by
    intro hm
    rcases List.mem_cons.mp hm with he | hm2
    · exact hnxnc he
    · rw [hsame nx hnxnc, hG nx hm2] at hnxw
      exact NodeColor.noConfusion hnxw
  refine ⟨?_, ?_, ?_, ?_, ?_, ?_, ?_, ?_⟩
  · exact List.nodup_cons.mpr ⟨hnxrest, hN⟩
  · intro v hv
    rcases List.mem_cons.mp hv with he | hm
    · rw [he]; exact hnx
    · exact hB v hm
  · exact List.chain'_cons.mpr ⟨⟨hcurlt, hnx, hedge⟩, hC⟩
  · intro v hv
    have hv' : v ∈ current :: rest := hv
    show colors1 v = NodeColor.gray
    rcases List.mem_cons.mp hv' with he | hm
    · rw [he]; exact hcur
    · have hvnc : v ≠ current := by
        intro he2
        rw [he2] at hm
        exact (List.nodup_cons.mp hN).1 hm
      rw [hsame v hvnc]
      exact hG v hm
  · intro c hc
    have hcnx : nx = c := by simpa using hc
    show colors1 c ≠ NodeColor.black
    rw [← hcnx, hnxw]
    intro hh
    exact NodeColor.noConfusion hh
  · intro v hv
    have hv' : colors1 v = NodeColor.gray := hv
    rcases hgray1 v hv' with he | hg
    · rw [he]
      exact List.mem_cons_of_mem nx (List.mem_cons_self current rest)
    · exact List.mem_cons_of_mem nx (hS v hg)
  · intro v w hv he
    have hv' : colors1 v = NodeColor.black := hv
    show colors1 w = NodeColor.black
    exact (hblackiff w).mpr (hCl v w ((hblackiff v).mp hv') he)
  · intro v hv
    have hv' : colors1 v = NodeColor.black := hv
    exact hAc v ((hblackiff v).mp hv')

/-- Blackening the top and popping preserves the wait-for invariant,
provided every edge-successor of the top is already black. -/
theorem wf_pop_inv {m : Nat → Nat → Int} {n : Nat}
    (colors0 colors1 : Nat → NodeColor) (parent1 : Nat → Int)
    (current : Nat) (rest : List Nat)
    (hN : (current :: rest).Nodup) (hB : ∀ v ∈ current :: rest, v < n)
    (hC : List.Chain' (fun a b => matE m n b a) (current :: rest))
    (hG : ∀ v ∈ rest, colors0 v = NodeColor.gray)
    (hS : ∀ v, colors0 v = NodeColor.gray → v ∈ current :: rest)
    (hCl : ∀ v w, colors0 v = NodeColor.black → matE m n v w →
      colors0 w = NodeColor.black)
    (hAc : ∀ v, colors0 v = NodeColor.black → ¬ Relation.TransGen (matE m n) v v)
    (hcur : colors1 current = NodeColor.gray)
    (hsame : ∀ v, v ≠ current → colors1 v = colors0 v)
    (hblackiff : ∀ v, colors1 v = NodeColor.black ↔ colors0 v = NodeColor.black)
    (hgray1 : ∀ v, colors1 v = NodeColor.gray → v = current ∨ colors0 v = NodeColor.gray)
    (hdone : ∀ x ∈ List.range n, m current x ≠ 0 → colors1 x = NodeColor.black) :
    WFInv m n { colors := fun v => if v = current then NodeColor.black else colors1 v,
                parent := parent1, stack := rest } := by
  have hcnr : current ∉ rest := (List.nodup_cons.mp hN).1
  have hsucc : ∀ w, matE m n current w →
      (if w = current then NodeColor.black else colors1 w) = NodeColor.black := by
    intro w hw
    by_cases hwc : w = current
    · rw [if_pos hwc]
    · rw [if_neg hwc]
      exact hdone w (List.mem_range.mpr hw.2.1) hw.2.2
  have hb2 : ∀ v, (if v = current then NodeColor.black else colors1 v) = NodeColor.black →
      v = current ∨ colors0 v = NodeColor.black := by
    intro v hv
    by_cases hvc : v = current
    · exact Or.inl hvc
    · rw [if_neg hvc] at hv
      exact Or.inr ((hblackiff v).mp hv)
  refine ⟨?_, ?_, ?_, ?_, ?_, ?_, ?_, ?_⟩
  · exact (List.nodup_cons.mp hN).2
  · intro v hv
    exact hB v (List.mem_cons_of_mem current hv)
  · exact hC.tail
  · intro v hv
    have hvr : v ∈ rest := List.mem_of_mem_drop hv
    have hvnc : v ≠ current := by
      intro he
      rw [he] at hvr
      exact hcnr hvr
    show (if v = current then NodeColor.black else colors1 v) = NodeColor.gray
    rw [if_neg hvnc, hsame v hvnc]
    exact hG v hvr
  · intro c hc
    have hcr : c ∈ rest := by
      cases rest with
      | nil => exact absurd hc (by intro hh; cases hh)
      | cons z zs =>
        have hcz : z = c := by simpa using hc
        rw [← hcz]
        exact List.mem_cons_self z zs
    have hcnc : c ≠ current := by
      intro he
      rw [he] at hcr
      exact hcnr hcr
    show (if c = current then NodeColor.black else colors1 c) ≠ NodeColor.black
    rw [if_neg hcnc, hsame c hcnc, hG c hcr]
    intro hh
    exact NodeColor.noConfusion hh
  · intro v hv
    have hv' : (if v = current then NodeColor.black else colors1 v)
        = NodeColor.gray := hv
    by_cases hvc : v = current
    · rw [if_pos hvc] at hv'
      exact absurd hv' (fun hh => NodeColor.noConfusion hh)
    · rw [if_neg hvc] at hv'
      rcases hgray1 v hv' with he | hg
      · exact absurd he hvc
      · rcases List.mem_cons.mp (hS v hg) with he | hm
        · exact absurd he hvc
        · exact hm
  · intro v w hv he
    have hv' : (if v = current then NodeColor.black else colors1 v)
        = NodeColor.black := hv
    show (if w = current then NodeColor.black else colors1 w) = NodeColor.black
    rcases hb2 v hv' with hvc | hvb
    · exact hsucc w (hvc ▸ he)
    · by_cases hwc : w = current
      · rw [if_pos hwc]
      · rw [if_neg hwc]
        exact (hblackiff w).mpr (hCl v w hvb he)
  · intro v hv hcyc
    have hv' : (if v = current then NodeColor.black else colors1 v)
        = NodeColor.black := hv
    rcases hb2 v hv' with hvc | hvb
    · rw [hvc] at hcyc
      rcases (Relation.TransGen.head'_iff).mp hcyc with ⟨c, hec, hrtg⟩
      have hcb : colors1 c = NodeColor.black :=
        hdone c (List.mem_range.mpr hec.2.1) hec.2.2
      have hcb0 : colors0 c = NodeColor.black := (hblackiff c).mp hcb
      have hfin : colors0 current = NodeColor.black := black_rtg_nat hCl hrtg hcb0
      have hfin1 : colors1 current = NodeColor.black := (hblackiff current).mpr hfin
      rw [hcur] at hfin1
      exact NodeColor.noConfusion hfin1
    · exact hAc v hvb hcyc

theorem wfPot_le (n : Nat) (st : WFMachine) :
    wfPot n st ≤ 4 * wfWhite n st.colors + st.stack.length + 2 := by
  unfold wfPot
  cases hs : st.stack with
  | nil => simp
  | cons z zs =>
    dsimp only
    by_cases hz : st.colors z = NodeColor.white
    · rw [if_pos hz]
      omega
    · rw [if_neg hz]

/-- Full correctness of the wait-for while loop: a cycle report is sound,
and with sufficient fuel a non-report empties the stack, preserves the
invariant, blackens the stack, and never bleaches a node. -/
theorem wf_while_spec (m : Nat → Nat → Int) (n : Nat) :
    ∀ (fuel : Nat) (st : WFMachine), WFInv m n st → wfPot n st < fuel →
      (∀ cyc, wf_while m n fuel st = Sum.inl cyc →
        ∃ p, Relation.TransGen (matE m n) p p) ∧
      (∀ st2, wf_while m n fuel st = Sum.inr st2 →
        st2.stack = [] ∧ WFInv m n st2 ∧
        (∀ v, st.colors v = NodeColor.black → st2.colors v = NodeColor.black) ∧
        (∀ v ∈ st.stack, st2.colors v = NodeColor.black) ∧
        (∀ v, st2.colors v = NodeColor.white → st.colors v = NodeColor.white)) := by
  intro fuel
  induction fuel with
  | zero =>
    intro st _ hpot
    exact absurd hpot (Nat.not_lt_zero _)
  | succ f ih =>
    intro st hInv hpot
    have hInv0 := hInv
    obtain ⟨hN, hB, hC, hG, hT, hS, hCl, hAc⟩ := hInv
    rw [wf_while]
    rcases hst : st.stack with _ | ⟨current, rest⟩
    · refine ⟨fun cyc h => Sum.noConfusion h, fun st2 h => ?_⟩
      have h' : (Sum.inr st : Sum (List Nat) WFMachine) = Sum.inr st2 := h
      cases h'
      exact ⟨hst, hInv0, fun v hb => hb,
        fun v hv => absurd hv (List.not_mem_nil v), fun v hw => hw⟩
    · have hN' : (current :: rest).Nodup := by rw [← hst]; exact hN
      have hB' : ∀ v ∈ current :: rest, v < n := by rw [← hst]; exact hB
      have hC' : List.Chain' (fun a b => matE m n b a) (current :: rest) := by
        rw [← hst]; exact hC
      have hG' : ∀ v ∈ rest, st.colors v = NodeColor.gray :=
        fun v hv => hG v (by rw [hst]; exact hv)
      have hT' : st.colors current ≠ NodeColor.black :=
        hT current (by rw [hst]; rfl)
      have hS' : ∀ v, st.colors v = NodeColor.gray → v ∈ current :: rest :=
        fun v hv => by rw [← hst]; exact hS v hv
      have hcurlt : current < n := hB' current (List.mem_cons_self current rest)
      dsimp only
      generalize hc1 : (if st.colors current = NodeColor.white then
          fun v => if v = current then NodeColor.gray else st.colors v
        else st.colors) = colors1
      have hcur : colors1 current = NodeColor.gray := by
        rw [← hc1]
        by_cases hw : st.colors current = NodeColor.white
        · rw [if_pos hw]
          simp
        · rw [if_neg hw]
          cases hcc : st.colors current
          · exact absurd hcc hw
          · rfl
          · exact absurd hcc hT'
      have hsame : ∀ v, v ≠ current → colors1 v = st.colors v := by
        intro v hv
        rw [← hc1]
        by_cases hw : st.colors current = NodeColor.white
        · rw [if_pos hw]
          show (if v = current then NodeColor.gray else st.colors v) = st.colors v
          rw [if_neg hv]
        · rw [if_neg hw]
      have hblackiff : ∀ v, colors1 v = NodeColor.black ↔
          st.colors v = NodeColor.black := by
        intro v
        by_cases hv : v = current
        · rw [hv, hcur]
          constructor
          · intro hh; exact absurd hh (fun x => NodeColor.noConfusion x)
          · intro hh; exact absurd hh hT'
        · rw [hsame v hv]
      have hgray1 : ∀ v, colors1 v = NodeColor.gray →
          v = current ∨ st.colors v = NodeColor.gray := by
        intro v hv
        by_cases hvc : v = current
        · exact Or.inl hvc
        · rw [hsame v hvc] at hv
          exact Or.inr hv
      have hwhiteb : ∀ v, colors1 v = NodeColor.white →
          st.colors v = NodeColor.white := by
        intro v hv
        by_cases hvc : v = current
        · rw [hvc, hcur] at hv
          exact absurd hv (fun x => NodeColor.noConfusion x)
        · rw [← hsame v hvc]
          exact hv
      have hpotst : 4 * wfWhite n st.colors + (rest.length + 1) +
          (if st.colors current = NodeColor.white then 0 else 2) < Nat.succ f := by
        have huf : wfPot n st = 4 * wfWhite n st.colors + (current :: rest).length +
            (if st.colors current = NodeColor.white then 0 else 2) := by
          unfold wfPot
          rw [hst]
        rw [huf] at hpot
        simpa using hpot
      have hAineq : 4 * wfWhite n colors1 + 2 ≤ 4 * wfWhite n st.colors +
          (if st.colors current = NodeColor.white then 0 else 2) := by
        by_cases hw : st.colors current = NodeColor.white
        · rw [if_pos hw]
          have hg := wfWhite_gray n st.colors current hcurlt hw
          have hceq : colors1 = fun x => if x = current then NodeColor.gray
              else st.colors x := by
            rw [← hc1, if_pos hw]
          rw [hceq]
          omega
        · rw [if_neg hw]
          have hceq : colors1 = st.colors := by rw [← hc1, if_neg hw]
          rw [hceq]
      cases hscan : wf_scan m colors1 current (List.range n) with
      | foundGray nx =>
        obtain ⟨hmemn, hedge, hgraynx⟩ := wf_scan_found hscan
        have hnxlt : nx < n := List.mem_range.mp hmemn
        have hnxstack : nx ∈ current :: rest := by
          rcases hgray1 nx hgraynx with he | hg
          · rw [he]; exact List.mem_cons_self current rest
          · exact hS' nx hg
        have hrtg : Relation.ReflTransGen (matE m n) nx current :=
          stack_rtg hC' nx hnxstack
        have hcyc : Relation.TransGen (matE m n) nx nx :=
          Relation.TransGen.tail' hrtg ⟨hcurlt, hnxlt, hedge⟩
        exact ⟨fun cyc _ => ⟨nx, hcyc⟩, fun st2 h => Sum.noConfusion h⟩
      | pushWhite nx =>
        obtain ⟨hmemn, hedge, hwhitenx⟩ := wf_scan_push hscan
        have hnxlt : nx < n := List.mem_range.mp hmemn
        have hInv1 : WFInv m n
            { colors := colors1,
              parent := fun v => if v = nx then Int.ofNat current else st.parent v,
              stack := nx :: current :: rest } :=
          wf_push_inv st.colors colors1 _ current nx rest hN' hB' hC' hG' hS' hCl hAc
            hcur hsame hblackiff hgray1 hnxlt hedge hwhitenx
        have he1 : wfPot n
            { colors := colors1,
              parent := fun v => if v = nx then Int.ofNat current else st.parent v,
              stack := nx :: current :: rest }
            = 4 * wfWhite n colors1 + (rest.length + 1 + 1) +
              (if colors1 nx = NodeColor.white then 0 else 2) := rfl
        have hpot1 : wfPot n
            { colors := colors1,
              parent := fun v => if v = nx then Int.ofNat current else st.parent v,
              stack := nx :: current :: rest } < f := by
          rw [he1, if_pos hwhitenx]
          omega
        have hrec := ih
            { colors := colors1,
              parent := fun v => if v = nx then Int.ofNat current else st.parent v,
              stack := nx :: current :: rest } hInv1 hpot1
        refine ⟨fun cyc h => hrec.1 cyc h, fun st2 h => ?_⟩
        obtain ⟨hstk2, hInv2, hbp, hsb, hwb⟩ := hrec.2 st2 h
        refine ⟨hstk2, hInv2, ?_, ?_, ?_⟩
        · intro v hv
          exact hbp v ((hblackiff v).mpr hv)
        · intro v hv
          exact hsb v (List.mem_cons_of_mem nx hv)
        · intro v hv
          exact hwhiteb v (hwb v hv)
      | nothingLeft =>
        have hdone := wf_scan_none hscan
        have hInv1 : WFInv m n
            { colors := fun v => if v = current then NodeColor.black else colors1 v,
              parent := st.parent, stack := rest } :=
          wf_pop_inv st.colors colors1 st.parent current rest hN' hB' hC' hG' hS' hCl hAc
            hcur hsame hblackiff hgray1 hdone
        have hW2 : wfWhite n (fun v => if v = current then NodeColor.black else colors1 v)
            = wfWhite n colors1 := by
          apply wfWhite_congr
          intro x
          by_cases hxc : x = current
          · rw [hxc, if_pos rfl, hcur]
            constructor
            · intro hh; exact absurd hh (fun x => NodeColor.noConfusion x)
            · intro hh; exact absurd hh (fun x => NodeColor.noConfusion x)
          · rw [if_neg hxc]
        have hle : wfPot n
            { colors := fun v => if v = current then NodeColor.black else colors1 v,
              parent := st.parent, stack := rest }
            ≤ 4 * wfWhite n (fun v => if v = current then NodeColor.black else colors1 v)
              + rest.length + 2 :=
          wfPot_le n _
        have hpot1 : wfPot n
            { colors := fun v => if v = current then NodeColor.black else colors1 v,
              parent := st.parent, stack := rest } < f := by
          rw [hW2] at hle
          omega
        have hrec := ih
            { colors := fun v => if v = current then NodeColor.black else colors1 v,
              parent := st.parent, stack := rest } hInv1 hpot1
        refine ⟨fun cyc h => hrec.1 cyc h, fun st2 h => ?_⟩
        obtain ⟨hstk2, hInv2, hbp, hsb, hwb⟩ := hrec.2 st2 h
        refine ⟨hstk2, hInv2, ?_, ?_, ?_⟩
        · intro v hv
          refine hbp v ?_
          show (if v = current then NodeColor.black else colors1 v) = NodeColor.black
          by_cases hvc : v = current
          · rw [if_pos hvc]
          · rw [if_neg hvc]
            exact (hblackiff v).mpr hv
        · intro v hv
          rcases List.mem_cons.mp hv with he | hm
          · refine hbp v ?_
            show (if v = current then NodeColor.black else colors1 v) = NodeColor.black
            rw [if_pos he]
          · exact hsb v hm
        · intro v hv
          have hv2 := hwb v hv
          have hv2' : (if v = current then NodeColor.black else colors1 v)
              = NodeColor.white := hv2
          by_cases hvc : v = current
          · rw [if_pos hvc] at hv2'
            exact absurd hv2' (fun x => NodeColor.noConfusion x)
          · rw [if_neg hvc] at hv2'
            exact hwhiteb v hv2'

theorem wfWhite_le (n : Nat) (c : Nat → NodeColor) : wfWhite n c ≤ n := by
  unfold wfWhite
  have h := Finset.card_filter_le (Finset.range n) (fun v => c v = NodeColor.white)
  rwa [Finset.card_range] at h

/-- Correctness of the outer start loop of `detect_cycle_in_wait_for`. -/
theorem wf_outer_spec (m : Nat → Nat → Int) (n : Nat) (hn : n ≤ MAX_PROCESSES) :
    ∀ (l : List Nat), (∀ v ∈ l, v < n) →
    ∀ (colors : Nat → NodeColor) (parent : Nat → Int),
      (∀ v, colors v ≠ NodeColor.gray) →
      (∀ v w, colors v = NodeColor.black → matE m n v w →
        colors w = NodeColor.black) →
      (∀ v, colors v = NodeColor.black → ¬ Relation.TransGen (matE m n) v v) →
      (∀ cyc, wf_outer m n l colors parent = some cyc →
        ∃ p, Relation.TransGen (matE m n) p p) ∧
      (wf_outer m n l colors parent = none →
        ∃ colors3 : Nat → NodeColor,
          (∀ v, colors v = NodeColor.black → colors3 v = NodeColor.black) ∧
          (∀ v, colors3 v = NodeColor.black → ¬ Relation.TransGen (matE m n) v v) ∧
          (∀ v ∈ l, colors3 v = NodeColor.black)) := by
  intro l
  induction l with
  | nil =>
    intro _ colors parent hng hcl hac
    rw [wf_outer]
    exact ⟨fun cyc h => Option.noConfusion h,
      fun _ => ⟨colors, fun v hb => hb, hac, fun v hv => absurd hv (List.not_mem_nil v)⟩⟩
  | cons v0 vs ih =>
    intro hl colors parent hng hcl hac
    have hl' : ∀ v ∈ vs, v < n := fun v hv => hl v (List.mem_cons_of_mem v0 hv)
    have hv0 : v0 < n := hl v0 (List.mem_cons_self v0 vs)
    rw [wf_outer]
    by_cases hw : colors v0 = NodeColor.white
    · rw [if_neg (show ¬(colors v0 ≠ NodeColor.white) by simp [hw])]
      have hInv : WFInv m n { colors := colors, parent := parent, stack := [v0] } := by
        refine ⟨List.nodup_singleton v0, ?_, List.chain'_singleton v0, ?_, ?_, ?_, hcl, hac⟩
        · intro v hv
          have : v = v0 := by simpa using hv
          rw [this]; exact hv0
        · intro v hv
          exact absurd hv (by intro hh; cases hh)
        · intro c hc
          have hvc : v0 = c := by simpa using hc
          show colors c ≠ NodeColor.black
          rw [← hvc, hw]
          intro hh
          exact NodeColor.noConfusion hh
        · intro v hg
          exact absurd hg (hng v)
      have hpot : wfPot n { colors := colors, parent := parent, stack := [v0] }
          < WF_FUEL := by
        have he : wfPot n { colors := colors, parent := parent, stack := [v0] }
            = 4 * wfWhite n colors + 1 +
              (if colors v0 = NodeColor.white then 0 else 2) := rfl
        rw [he, if_pos hw]
        have hwle := wfWhite_le n colors
        unfold WF_FUEL
        omega
      have hspec := wf_while_spec m n WF_FUEL
        { colors := colors, parent := parent, stack := [v0] } hInv hpot
      cases hrun : wf_while m n WF_FUEL
          { colors := colors, parent := parent, stack := [v0] } with
      | inl cyc =>
        refine ⟨fun cyc2 _ => hspec.1 cyc hrun, fun h => Option.noConfusion h⟩
      | inr st2 =>
        obtain ⟨hstk2, hInv2, hbp, hsb, hwb⟩ := hspec.2 st2 hrun
        have hng2 : ∀ v, st2.colors v ≠ NodeColor.gray := by
          intro v hg
          have hmem := hInv2.2.2.2.2.2.1 v hg
          rw [hstk2] at hmem
          exact absurd hmem (List.not_mem_nil v)
        have hrest := ih hl' st2.colors st2.parent hng2
          hInv2.2.2.2.2.2.2.1 hInv2.2.2.2.2.2.2.2
        refine ⟨fun cyc h => hrest.1 cyc h, fun h => ?_⟩
        obtain ⟨colors3, hmono3, hacyc3, hblacks3⟩ := hrest.2 h
        refine ⟨colors3, ?_, hacyc3, ?_⟩
        · intro v hb
          exact hmono3 v (hbp v hb)
        · intro v hv
          rcases List.mem_cons.mp hv with he | hm
          · rw [he]
            exact hmono3 v0 (hsb v0 (List.mem_singleton.mpr rfl))
          · exact hblacks3 v hm
    · rw [if_pos (show colors v0 ≠ NodeColor.white from hw)]
      have hrest := ih hl' colors parent hng hcl hac
      refine ⟨fun cyc h => hrest.1 cyc h, fun h => ?_⟩
      obtain ⟨colors3, hmono3, hacyc3, hblacks3⟩ := hrest.2 h
      refine ⟨colors3, hmono3, hacyc3, ?_⟩
      intro v hv
      rcases List.mem_cons.mp hv with he | hm
      · have hb : colors v = NodeColor.black := by
          rw [he]
          cases hc : colors v0
          · exact absurd hc hw
          · exact absurd hc (hng v0)
          · rfl
        exact hmono3 v hb
      · exact hblacks3 v hm

/-- `detect_cycle_in_wait_for` answers true exactly when the adjacency
matrix has a closed walk on `[0, n)`, for any `n` within the process
bound. -/
theorem detect_wf_true_iff (m : Nat → Nat → Int) (n : Nat) (hn : n ≤ MAX_PROCESSES) :
    (detect_cycle_in_wait_for m n).1 = true ↔
      ∃ p, Relation.TransGen (matE m n) p p := by
  unfold detect_cycle_in_wait_for
  have houter := wf_outer_spec m n hn (List.range n)
    (fun v hv => List.mem_range.mp hv)
    (fun _ => NodeColor.white) (fun _ => -1)
    (fun v h => NodeColor.noConfusion h)
    (fun v w hb _ => absurd hb (fun h => NodeColor.noConfusion h))
    (fun v hb => absurd hb (fun h => NodeColor.noConfusion h))
  cases hout : wf_outer m n (List.range n) (fun _ => NodeColor.white) (fun _ => -1) with
  | some cyc =>
    constructor
    · intro _
      exact houter.1 cyc hout
    · intro _
      rfl
  | none =>
    constructor
    · intro h
      exact absurd h (by simp)
    · intro hcyc
      exfalso
      obtain ⟨colors3, _, hacyc, hblacks⟩ := houter.2 hout
      obtain ⟨p, htg⟩ := hcyc
      rcases (Relation.TransGen.head'_iff).mp htg with ⟨c, hec, _⟩
      have hpn : p < n := hec.1
      exact hacyc p (hblacks p (List.mem_range.mpr hpn)) htg

/-- C3 (amended): for every RAG whose request/assignment edges touch only
active slots and in which no process simultaneously holds and requests
the same resource, the bipartite first-cycle detector and the wait-for
cycle detector agree on deadlock existence. (Without the second proviso
they disagree: see the self-loop counterexample.) -/
theorem C3_detectors_agree (g : RAG)
    (hEA : RagEdgesActive g) (hNS : NoSelfHoldReq g) :
    (detect_deadlock g).deadlock_detected
      = (detect_cycle_in_wait_for (build_wait_for_graph g) MAX_PROCESSES).1 := by
  have h1 := detect_deadlock_iff_bip g
  have h2 := detect_wf_true_iff (build_wait_for_graph g) MAX_PROCESSES (le_refl _)
  have h3 := hasBipCycle_iff_hasWFCycle hEA hNS
  have hwf : hasWFCycle g ↔
      ∃ p, Relation.TransGen (matE (build_wait_for_graph g) MAX_PROCESSES) p p :=
    Iff.rfl
  have h4 := h1.trans ((h3.trans hwf).trans h2.symm)
  cases hb : (detect_deadlock g).deadlock_detected with
  | false =>
    cases hb2 : (detect_cycle_in_wait_for (build_wait_for_graph g) MAX_PROCESSES).1 with
    | false => rfl
    | true =>
      have hx := h4.mpr hb2
      rw [hb] at hx
      exact absurd hx (by simp)
  | true =>
    exact (h4.mp hb).symm

theorem C3_detectors_agree_witness :
    RagEdgesActive ragS1 ∧ NoSelfHoldReq ragS1 ∧
    (detect_deadlock ragS1).deadlock_detected
      = (detect_cycle_in_wait_for (build_wait_for_graph ragS1) MAX_PROCESSES).1 := by
  have hEA : RagEdgesActive ragS1 := by
    unfold RagEdgesActive
    with_unfolding_all exact of_decide_eq_true rfl
  have hNS : NoSelfHoldReq ragS1 := by
    unfold NoSelfHoldReq
    with_unfolding_all exact of_decide_eq_true rfl
  exact ⟨hEA, hNS, C3_detectors_agree ragS1 hEA hNS⟩

/-! ### Effect of terminate-all on the bipartite graph -/

/-- Two graphs with the same active slots and the same positive edges at
active processes have the same bipartite edge relation. -/
theorem bipE_congr {g1 g2 : RAG}
    (hP : ∀ p, p < MAX_PROCESSES →
      ((g1.processes p).active = true ↔ (g2.processes p).active = true))
    (hR : ∀ r, r < MAX_RESOURCES →
      ((g1.resources r).active = true ↔ (g2.resources r).active = true))
    (hReq : ∀ p r, p < MAX_PROCESSES → r < MAX_RESOURCES →
      (g1.processes p).active = true →
      (0 < g1.request_matrix p r ↔ 0 < g2.request_matrix p r))
    (hAsg : ∀ p r, p < MAX_PROCESSES → r < MAX_RESOURCES →
      (g1.processes p).active = true →
      (0 < g1.assignment_matrix p r ↔ 0 < g2.assignment_matrix p r))
    (a b : GraphNode) : bipE g1 a b ↔ bipE g2 a b := by
  rcases a with ⟨i, u⟩
  rcases b with ⟨j, w⟩
  cases u <;> cases w
  · exact Iff.rfl
  · constructor
    · intro ⟨h1, h2, h3, h4, h5⟩
      exact ⟨h1, h2, (hP i h1).mp h3, (hR j h2).mp h4, (hReq i j h1 h2 h3).mp h5⟩
    · intro ⟨h1, h2, h3, h4, h5⟩
      have h3' := (hP i h1).mpr h3
      exact ⟨h1, h2, h3', (hR j h2).mpr h4, (hReq i j h1 h2 h3').mpr h5⟩
  · constructor
    · intro ⟨h1, h2, h3, h4, h5⟩
      exact ⟨h1, h2, (hR i h1).mp h3, (hP j h2).mp h4, (hAsg j i h2 h1 h4).mp h5⟩
    · intro ⟨h1, h2, h3, h4, h5⟩
      have h4' := (hP j h2).mpr h4
      exact ⟨h1, h2, (hR i h1).mpr h3, h4', (hAsg j i h2 h1 h4').mpr h5⟩
  · exact Iff.rfl

/-- Releasing all of a process's holdings touches only its assignment
row and resource availability counts. -/
theorem release_all_fields (g : RAG) (pid : Int)
    (h : ¬(pid < 0 ∨ (MAX_PROCESSES : Int) ≤ pid)) :
    (rag_release_all_resources g pid).2.processes = g.processes ∧
    (∀ r, ((rag_release_all_resources g pid).2.resources r).active
      = (g.resources r).active) ∧
    (rag_release_all_resources g pid).2.request_matrix = g.request_matrix ∧
    (∀ q r, q ≠ pid.toNat →
      (rag_release_all_resources g pid).2.assignment_matrix q r
        = g.assignment_matrix q r) := by
  unfold rag_release_all_resources
  rw [if_neg h]
  refine ⟨rfl, ?_, rfl, ?_⟩
  · intro r
    show ((if r < MAX_RESOURCES ∧ (g.resources r).active = true ∧
        0 < g.assignment_matrix pid.toNat r then
        { g.resources r with
          available_instances :=
            (g.resources r).available_instances + g.assignment_matrix pid.toNat r }
      else g.resources r)).active = (g.resources r).active
    by_cases hc : r < MAX_RESOURCES ∧ (g.resources r).active = true ∧
        0 < g.assignment_matrix pid.toNat r
    · rw [if_pos hc]
    · rw [if_neg hc]
  · intro q r hq
    show (if q = pid.toNat ∧ r < MAX_RESOURCES ∧ 0 < g.assignment_matrix q r then 0
      else g.assignment_matrix q r) = g.assignment_matrix q r
    rw [if_neg (fun hc => hq hc.1)]

/-- Removing a process deactivates its slot, zeroes its rows, keeps the
resource active flags, and leaves every other process untouched. -/
theorem remove_fields (g : RAG) (pid : Int)
    (h : ¬(pid < 0 ∨ (MAX_PROCESSES : Int) ≤ pid))
    (hact : (g.processes pid.toNat).active = true) :
    (∀ p, p ≠ pid.toNat →
      (rag_remove_process g pid).2.processes p = g.processes p) ∧
    ((rag_remove_process g pid).2.processes pid.toNat).active = false ∧
    (∀ r, ((rag_remove_process g pid).2.resources r).active
      = (g.resources r).active) ∧
    (∀ q r, q ≠ pid.toNat →
      (rag_remove_process g pid).2.request_matrix q r = g.request_matrix q r) ∧
    (∀ q r, q ≠ pid.toNat →
      (rag_remove_process g pid).2.assignment_matrix q r
        = g.assignment_matrix q r) := by
  obtain ⟨hrp, hra, hrq, hrasg⟩ := release_all_fields g pid h
  unfold rag_remove_process
  rw [if_neg h]
  rw [if_neg (show ¬((!(g.processes pid.toNat).active) = true) by simp [hact])]
  refine ⟨?_, ?_, ?_, ?_, ?_⟩
  · intro p hp
    show (if p = pid.toNat then
        { (rag_release_all_resources g pid).2.processes p with active := false, id := -1 }
      else (rag_release_all_resources g pid).2.processes p) = g.processes p
    rw [if_neg hp, hrp]
  · show (if pid.toNat = pid.toNat then
        { (rag_release_all_resources g pid).2.processes pid.toNat with
          active := false, id := -1 }
      else (rag_release_all_resources g pid).2.processes pid.toNat).active = false
    rw [if_pos rfl]
  · intro r
    exact hra r
  · intro q r hq
    show (if q = pid.toNat ∧ r < MAX_RESOURCES ∧
        0 < (rag_release_all_resources g pid).2.request_matrix q r then 0
      else (rag_release_all_resources g pid).2.request_matrix q r)
        = g.request_matrix q r
    rw [if_neg (fun hc => hq hc.1), hrq]
  · intro q r hq
    exact hrasg q r hq

theorem maskProcesses_active (g : RAG) (l : List Nat) (p : Nat) :
    ((maskProcesses g l).processes p).active
      = if p ∈ l then false else (g.processes p).active := by
  show (if p ∈ l then { g.processes p with active := false }
    else g.processes p).active = _
  by_cases hm : p ∈ l
  · rw [if_pos hm, if_pos hm]
  · rw [if_neg hm, if_neg hm]

theorem maskProcesses_resources (g : RAG) (l : List Nat) :
    (maskProcesses g l).resources = g.resources := rfl

theorem maskProcesses_request (g : RAG) (l : List Nat) :
    (maskProcesses g l).request_matrix = g.request_matrix := rfl

theorem maskProcesses_assignment (g : RAG) (l : List Nat) :
    (maskProcesses g l).assignment_matrix = g.assignment_matrix := rfl

/-- The terminate-all fold produces a graph whose bipartite edge relation
is that of the input graph with the listed processes deactivated. -/
theorem term_fold_bipE :
    ∀ (l : List Nat) (g0 : RAG) (acts : List RecoveryAction) (t : Int)
      (a b : GraphNode),
      bipE (l.foldl
        (fun (acc : RAG × List RecoveryAction × Int) pid =>
          let h := acc.1
          let acts := acc.2.1
          let term := acc.2.2
          match rag_get_process h (Int.ofNat pid) with
          | some _ =>
              let acts2 := if acts.length < MAX_PROCESSES then
                  acts ++ [{ process_id := Int.ofNat pid, resource_id := -1,
                             strategy := RecoveryStrategy.terminate_all, success := true }]
                else acts
              let h1 := (rag_release_all_resources h (Int.ofNat pid)).2
              let h2 := (rag_remove_process h1 (Int.ofNat pid)).2
              (h2, acts2, term + 1)
          | none => (h, acts, term)) (g0, acts, t)).1 a b
      ↔ bipE (maskProcesses g0 l) a b := by
  intro l
  induction l with
  | nil =>
    intro g0 acts t a b
    rw [List.foldl_nil]
    refine bipE_congr ?_ ?_ ?_ ?_ a b
    · intro p _
      rw [maskProcesses_active, if_neg (List.not_mem_nil p)]
    · intro r _
      rw [maskProcesses_resources]
    · intro p r _ _ _
      rw [maskProcesses_request]
    · intro p r _ _ _
      rw [maskProcesses_assignment]
  | cons pid rest ih =>
    intro g0 acts t a b
    rw [List.foldl_cons]
    dsimp only
    cases hget : rag_get_process g0 (Int.ofNat pid) with
    | some pr =>
      obtain ⟨hnot, hact0, _⟩ := rag_get_process_eq_some hget
      have htn : (Int.ofNat pid).toNat = pid := rfl
      rw [htn] at hact0
      obtain ⟨hg1p, hg1ra, hg1rq, hg1asg⟩ :=
        release_all_fields g0 (Int.ofNat pid) hnot
      have hact1 : (((rag_release_all_resources g0 (Int.ofNat pid)).2).processes
          (Int.ofNat pid).toNat).active = true := by
        rw [hg1p, htn]
        exact hact0
      obtain ⟨h2p, h2act, h2ra, h2rq, h2asg⟩ :=
        remove_fields (rag_release_all_resources g0 (Int.ofNat pid)).2
          (Int.ofNat pid) hnot hact1
      rw [htn] at h2p h2act h2rq h2asg
      have hmain := ih (rag_remove_process
        (rag_release_all_resources g0 (Int.ofNat pid)).2 (Int.ofNat pid)).2
        (if acts.length < MAX_PROCESSES then
            acts ++ [{ process_id := Int.ofNat pid, resource_id := -1,
                       strategy := RecoveryStrategy.terminate_all, success := true }]
          else acts) (t + 1) a b
      refine hmain.trans (bipE_congr ?_ ?_ ?_ ?_ a b)
      · intro p hp
        rw [maskProcesses_active, maskProcesses_active]
        by_cases hpr : p ∈ rest
        · rw [if_pos hpr, if_pos (List.mem_cons_of_mem pid hpr)]
        · rw [if_neg hpr]
          by_cases hpp : p = pid
          · rw [if_pos (by rw [hpp]; exact List.mem_cons_self pid rest)]
            rw [hpp, h2act]
          · rw [if_neg (by
              intro hm
              rcases List.mem_cons.mp hm with he | hm2
              · exact hpp he
              · exact hpr hm2)]
            rw [h2p p hpp, hg1p]
      · intro r _
        rw [maskProcesses_resources, maskProcesses_resources, h2ra r, hg1ra r]
      · intro p r hp hr hactm
        rw [maskProcesses_active] at hactm
        by_cases hpr : p ∈ rest
        · rw [if_pos hpr] at hactm
          exact absurd hactm (fun x => Bool.noConfusion x)
        · rw [if_neg hpr] at hactm
          have hppid : p ≠ pid := by
            intro he
            rw [he, h2act] at hactm
            exact Bool.noConfusion hactm
          rw [maskProcesses_request, maskProcesses_request,
            h2rq p r hppid, hg1rq]
      · intro p r hp hr hactm
        rw [maskProcesses_active] at hactm
        by_cases hpr : p ∈ rest
        · rw [if_pos hpr] at hactm
          exact absurd hactm (fun x => Bool.noConfusion x)
        · rw [if_neg hpr] at hactm
          have hppid : p ≠ pid := by
            intro he
            rw [he, h2act] at hactm
            exact Bool.noConfusion hactm
          rw [maskProcesses_assignment, maskProcesses_assignment,
            h2asg p r hppid, hg1asg p r (by rw [htn]; exact hppid)]
    | none =>
      have hnone := rag_get_process_eq_none_iff.mp hget
      have hcase : MAX_PROCESSES ≤ pid ∨ (g0.processes pid).active = false := by
        rcases hnone with hlt | hge | hin
        · exfalso
          rw [show Int.ofNat pid = (pid : Int) from rfl] at hlt
          omega
        · left
          rw [show Int.ofNat pid = (pid : Int) from rfl] at hge
          omega
        · right
          exact hin
      have hmain := ih g0 acts t a b
      refine hmain.trans (bipE_congr ?_ ?_ ?_ ?_ a b)
      · intro p hp
        rw [maskProcesses_active, maskProcesses_active]
        by_cases hpr : p ∈ rest
        · rw [if_pos hpr, if_pos (List.mem_cons_of_mem pid hpr)]
        · rw [if_neg hpr]
          by_cases hpp : p = pid
          · rw [if_pos (by rw [hpp]; exact List.mem_cons_self pid rest)]
            have hinact : (g0.processes p).active = false := by
              rcases hcase with hge | hin
              · exfalso
                rw [hpp] at hp
                omega
              · rw [hpp]
                exact hin
            rw [hinact]
          · rw [if_neg (by
              intro hm
              rcases List.mem_cons.mp hm with he | hm2
              · exact hpp he
              · exact hpr hm2)]
      · intro r _
        rw [maskProcesses_resources, maskProcesses_resources]
      · intro p r _ _ _
        rw [maskProcesses_request, maskProcesses_request]
      · intro p r _ _ _
        rw [maskProcesses_assignment, maskProcesses_assignment]

/-- `recovery_terminate_all` leaves exactly the bipartite graph of the
input with the listed deadlocked processes deactivated. -/
theorem terminate_all_bipE (g : RAG) (d : DeadlockResult) (a b : GraphNode) :
    bipE (recovery_terminate_all g d).2.1 a b ↔
      bipE (maskProcesses g d.deadlocked_processes) a b := by
  unfold recovery_terminate_all
  exact term_fold_bipE d.deadlocked_processes g [] 0 a b

/-- C4 (amended): after `recovery_terminate_all` on the detected deadlock,
re-detection reports no deadlock, provided the graph restricted to the
surviving processes (all deadlocked ones deactivated) has no bipartite
cycle. (Without this proviso the claim fails: under `DETECT_DFS` the
result records only the first cycle, and a second, disjoint cycle
survives the terminations — see the two-cycle counterexample.) -/
theorem C4_terminate_all_redetect (g : RAG)
    (hsurv : ¬ hasBipCycle
      (maskProcesses g (detect_deadlock g).deadlocked_processes)) :
    (detect_deadlock
        (recovery_terminate_all g (detect_deadlock g)).2.1).deadlock_detected
      = false := by
  cases hb : (detect_deadlock
      (recovery_terminate_all g (detect_deadlock g)).2.1).deadlock_detected with
  | false => rfl
  | true =>
    exfalso
    have hcyc := (detect_deadlock_iff_bip _).mp hb
    obtain ⟨v, htg⟩ := hcyc
    refine hsurv ⟨v, ?_⟩
    exact Relation.TransGen.mono
      (fun a b hab => (terminate_all_bipE g (detect_deadlock g) a b).mp hab) htg

theorem C4_terminate_all_redetect_witness :
    ¬ hasBipCycle
      (maskProcesses ragS1 (detect_deadlock ragS1).deadlocked_processes) ∧
    (detect_deadlock
        (recovery_terminate_all ragS1 (detect_deadlock ragS1)).2.1).deadlock_detected
      = false := by
  have hdl : (detect_deadlock ragS1).deadlocked_processes = [0, 1] := by
    with_unfolding_all rfl
  have hdet2 : (detect_deadlock (maskProcesses ragS1 [0, 1])).deadlock_detected
      = false := by
    with_unfolding_all rfl
  have hns : ¬ hasBipCycle
      (maskProcesses ragS1 (detect_deadlock ragS1).deadlocked_processes) := by
    rw [hdl]
    intro hc
    have hx := (detect_deadlock_iff_bip _).mpr hc
    rw [hdet2] at hx
    exact Bool.noConfusion hx
  exact ⟨hns, C4_terminate_all_redetect ragS1 hns⟩

end OSEL
